import Mathlib

/-!
# XingXing block world: a shallow embedding of `World` / `Chunk`

The definitions below follow `XingXing/BlockWorld/Block.h`, `BlockRegistry.{h,cpp}`,
`Chunk.{h,cpp}` and `World.{h,cpp}`.

Modelling conventions.

* A C++ `int` is a Lean `Int`; `/` and `%` on `int` truncate toward zero and are
  `Int.tdiv` and `Int.tmod`.  Signed overflow is undefined in C++, so the source
  gives a meaning to an operation only where its mathematical result fits the type;
  there the `Int` operation is that meaning.
* `glm::ivec2` is `Int × Int` (`.1` is `x`, `.2` is `y`).
* `glm::vec2` is `ℚ × ℚ`: every finite `float` is a rational number, and
  `std::floor` followed by `static_cast<int>` is `Int.floor`.
* `std::unordered_map<glm::ivec2, Ref<Chunk>, ChunkCoordHash>` is an association list
  without duplicate keys (`AList`); `find` is `AList.lookup`, `operator[]=` is
  `AList.insert`, `erase` is `AList.erase`, `size` is the number of entries.
* A member function that mutates `*this` returns the new object.
* The static map `BlockRegistry::s_Blocks` is the lookup function it supports; `World::Render`
  takes it as an argument and returns, next to the new world, the list of
  `Renderer2D::DrawQuad` calls it issued.
* The conversion of an `int` to `float` rounds to the nearest value with 24 significant bits,
  ties to even (`World.intToFloat`); it is exact up to magnitude `2^24`.
-/

namespace Hazel

/-! ## Block.h -/

/-- The type `BlockID` is `uint16_t`. -/
abbrev BlockID := Fin 65536

abbrev BLOCK_AIR : BlockID := 0
abbrev BLOCK_STONE : BlockID := 1
abbrev BLOCK_DIRT : BlockID := 2
abbrev BLOCK_GRASS : BlockID := 3
abbrev BLOCK_WOOD : BlockID := 4
abbrev BLOCK_SAND : BlockID := 5

/-- The vector type `glm::vec4`; each component is a finite `float`, read as a rational. -/
abbrev vec4 := ℚ × ℚ × ℚ × ℚ

/-- The struct `BlockProperties`, with its default member values.  `Texture` is the handle a
`Ref<Texture2D>` points to, `none` for `nullptr`. -/
structure BlockProperties where
  Name : String := "Unknown"
  IsSolid : Bool := true
  IsTransparent : Bool := false
  HasGravity : Bool := false
  Hardness : ℚ := 1
  Color : vec4 := (1, 1, 1, 1)
  Texture : Option Nat := none

/-- The class `Block`. -/
structure Block where
  m_ID : BlockID := BLOCK_AIR
  m_Properties : BlockProperties := {}

/-- The accessor `Block::GetProperties`. -/
def Block.GetProperties (b : Block) : BlockProperties := b.m_Properties

/-! ## BlockRegistry.h / BlockRegistry.cpp -/

/-- The static map `BlockRegistry::s_Blocks`, as the lookup it supports: the block registered
under an id, `none` when there is none. -/
abbrev BlockRegistry := BlockID → Option Block

namespace BlockRegistry

/-- The map after `s_Blocks.clear()`. -/
def cleared : BlockRegistry := fun _ => none

/-- The function `BlockRegistry::RegisterBlock`: `s_Blocks[id] = CreateRef<Block>(id, props)`. -/
def RegisterBlock (s : BlockRegistry) (id : BlockID) (props : BlockProperties) : BlockRegistry :=
  fun i => if i = id then some { m_ID := id, m_Properties := props } else s i

/-- The function `BlockRegistry::GetBlock`, with `none` for `nullptr`. -/
def GetBlock (s : BlockRegistry) (id : BlockID) : Option Block := s id

/-- The function `BlockRegistry::IsValidBlock`. -/
def IsValidBlock (s : BlockRegistry) (id : BlockID) : Bool := (s id).isSome

/-- The function `BlockRegistry::RegisterDefaultBlocks`; the colour and hardness values are the
decimal literals of the source. -/
def RegisterDefaultBlocks (s : BlockRegistry) : BlockRegistry :=
  let s := RegisterBlock s BLOCK_AIR
    { Name := "Air", IsSolid := false, IsTransparent := true, Color := (0, 0, 0, 0) }
  let s := RegisterBlock s BLOCK_STONE
    { Name := "Stone", IsSolid := true, IsTransparent := false, Hardness := 1.5,
      Color := (0.5, 0.5, 0.5, 1) }
  let s := RegisterBlock s BLOCK_DIRT
    { Name := "Dirt", IsSolid := true, IsTransparent := false, Hardness := 0.5,
      Color := (0.55, 0.35, 0.2, 1) }
  let s := RegisterBlock s BLOCK_GRASS
    { Name := "Grass", IsSolid := true, IsTransparent := false, Hardness := 0.6,
      Color := (0.3, 0.7, 0.2, 1) }
  let s := RegisterBlock s BLOCK_WOOD
    { Name := "Wood", IsSolid := true, IsTransparent := false, Hardness := 0.8,
      Color := (0.6, 0.4, 0.2, 1) }
  RegisterBlock s BLOCK_SAND
    { Name := "Sand", IsSolid := true, IsTransparent := false, HasGravity := true,
      Hardness := 0.5, Color := (0.95, 0.9, 0.6, 1) }

/-- The function `BlockRegistry::Init`: clear, then register the default blocks. -/
def Init (_s : BlockRegistry) : BlockRegistry := RegisterDefaultBlocks cleared

end BlockRegistry

/-! ## Chunk.h / Chunk.cpp -/

/-- The constant `constexpr int CHUNK_SIZE = 16`. -/
abbrev CHUNK_SIZE : Int := 16

/-- The vector type `glm::ivec2`. -/
abbrev ivec2 := Int × Int

/-- The class `Chunk`: its coordinate, a `CHUNK_SIZE × CHUNK_SIZE` array indexed `[x][y]`,
and the dirty flag. -/
structure Chunk where
  m_ChunkX : Int
  m_ChunkY : Int
  m_Blocks : Fin 16 → Fin 16 → BlockID
  m_IsDirty : Bool

namespace Chunk

/-- The source reads `x >= 0 && x < CHUNK_SIZE && y >= 0 && y < CHUNK_SIZE`. -/
def IsValidLocalCoord (x y : Int) : Bool :=
  decide (x ≥ 0) && decide (x < CHUNK_SIZE) && decide (y ≥ 0) && decide (y < CHUNK_SIZE)

/-- An array index from an `int` already known to be in bounds. -/
def idx (x : Int) : Fin 16 := ⟨x.toNat % 16, Nat.mod_lt _ (by decide)⟩

/-- The constructor `Chunk::Chunk(chunkX, chunkY)`: every cell air, dirty. -/
def new (chunkX chunkY : Int) : Chunk :=
  { m_ChunkX := chunkX, m_ChunkY := chunkY, m_Blocks := fun _ _ => BLOCK_AIR, m_IsDirty := true }

/-- The accessor `Chunk::GetChunkCoord`. -/
def GetChunkCoord (c : Chunk) : ivec2 := (c.m_ChunkX, c.m_ChunkY)

/-- The accessor `Chunk::IsDirty`. -/
def IsDirty (c : Chunk) : Bool := c.m_IsDirty

/-- The member `Chunk::ClearDirty`. -/
def ClearDirty (c : Chunk) : Chunk := { c with m_IsDirty := false }

/-- The member `Chunk::GetBlock`. -/
def GetBlock (c : Chunk) (x y : Int) : BlockID :=
  if !IsValidLocalCoord x y then BLOCK_AIR
  else c.m_Blocks (idx x) (idx y)

/-- The assignment `m_Blocks[x][y] = blockID`. -/
def writeCell (m : Fin 16 → Fin 16 → BlockID) (i j : Fin 16) (blockID : BlockID) :
    Fin 16 → Fin 16 → BlockID :=
  fun a b => if a = i ∧ b = j then blockID else m a b

/-- The member `Chunk::SetBlock`. -/
def SetBlock (c : Chunk) (x y : Int) (blockID : BlockID) : Chunk :=
  if !IsValidLocalCoord x y then c
  else if c.m_Blocks (idx x) (idx y) ≠ blockID then
    { c with m_Blocks := writeCell c.m_Blocks (idx x) (idx y) blockID, m_IsDirty := true }
  else c

/-- The member `Chunk::MarkDirty`. -/
def MarkDirty (c : Chunk) : Chunk := { c with m_IsDirty := true }

/-- A run of `SetBlock` calls on one chunk, in list order; each entry is `(x, y, blockID)`. -/
def setBlocks (c : Chunk) (writes : List (Int × Int × BlockID)) : Chunk :=
  writes.foldl (fun c wr => c.SetBlock wr.1 wr.2.1 wr.2.2) c

end Chunk

/-! ## World.h / World.cpp -/

/-- The class `World`: the chunk map and the load radius. -/
structure World where
  m_Chunks : AList (fun _ : ivec2 => Chunk)
  m_LoadRadius : Int

namespace World

/-- The static function `World::WorldToChunk`. -/
def WorldToChunk (worldX worldY : Int) : ivec2 :=
  let chunkX := if worldX < 0 then Int.tdiv (worldX + 1) CHUNK_SIZE - 1 else Int.tdiv worldX CHUNK_SIZE
  let chunkY := if worldY < 0 then Int.tdiv (worldY + 1) CHUNK_SIZE - 1 else Int.tdiv worldY CHUNK_SIZE
  (chunkX, chunkY)

/-- The static function `World::WorldToLocal`. -/
def WorldToLocal (worldX worldY : Int) : ivec2 :=
  let localX := Int.tmod worldX CHUNK_SIZE
  let localY := Int.tmod worldY CHUNK_SIZE
  let localX := if localX < 0 then localX + CHUNK_SIZE else localX
  let localY := if localY < 0 then localY + CHUNK_SIZE else localY
  (localX, localY)

/-- The static function `World::ChunkAndLocalToWorld`. -/
def ChunkAndLocalToWorld (chunkCoord localCoord : ivec2) : ivec2 :=
  (chunkCoord.1 * CHUNK_SIZE + localCoord.1, chunkCoord.2 * CHUNK_SIZE + localCoord.2)

/-- The constructor `World::World()`: no chunk, `m_LoadRadius = 3`. -/
def new : World := { m_Chunks := ∅, m_LoadRadius := 3 }

/-- The member `World::SetLoadRadius`. -/
def SetLoadRadius (w : World) (radius : Int) : World := { w with m_LoadRadius := radius }

/-- The accessor `World::GetLoadRadius`. -/
def GetLoadRadius (w : World) : Int := w.m_LoadRadius

/-- The accessor `World::GetLoadedChunkCount`, `m_Chunks.size()`. -/
def GetLoadedChunkCount (w : World) : Nat := w.m_Chunks.entries.length

/-- The call `m_Chunks.find(coord)`: the chunk stored under `coord`, `none` for `end()`. -/
def findChunk (w : World) (coord : ivec2) : Option Chunk := w.m_Chunks.lookup coord

/-- The member `World::GetChunk` (both overloads), with `none` for `nullptr`. -/
def GetChunk (w : World) (chunkX chunkY : Int) : Option Chunk :=
  let coord : ivec2 := (chunkX, chunkY)
  w.findChunk coord

/-- The values `lo, lo + 1, ..., hi` taken by the counter of
`for (int i = lo; i <= hi; i++)`. -/
def loopValues (lo hi : Int) : List Int :=
  (List.range (hi + 1 - lo).toNat).map (fun (k : Nat) => lo + (k : Int))

/-- The block chosen by the `if` chain of `World::GenerateChunk` for world row `worldY` in a
column of height `terrainHeight`. -/
def terrainBlock (terrainHeight worldY : Int) : BlockID :=
  if worldY < terrainHeight - 3 then BLOCK_STONE
  else if worldY < terrainHeight then BLOCK_DIRT
  else if worldY = terrainHeight then BLOCK_GRASS
  else BLOCK_AIR

/-- The member `World::GenerateChunk`.  The argument `height` gives, for a world column
`worldX`, the value of `static_cast<int>(10.0f + std::sin(worldX * 0.1f) * 3.0f)`. -/
def GenerateChunk (height : Int → Int) (chunk : Chunk) : Chunk :=
  let chunkCoord := chunk.GetChunkCoord
  (loopValues 0 (CHUNK_SIZE - 1)).foldl (fun chunk localX =>
    let worldX := chunkCoord.1 * CHUNK_SIZE + localX
    let terrainHeight := height worldX
    (loopValues 0 (CHUNK_SIZE - 1)).foldl (fun chunk localY =>
      let worldY := chunkCoord.2 * CHUNK_SIZE + localY
      chunk.SetBlock localX localY (terrainBlock terrainHeight worldY)) chunk) chunk

/-- The member `World::GetOrCreateChunk`: the world afterwards and the chunk the returned
pointer designates. -/
def GetOrCreateChunk (height : Int → Int) (w : World) (chunkX chunkY : Int) : World × Chunk :=
  match w.GetChunk chunkX chunkY with
  | some chunk => (w, chunk)
  | none =>
    let coord : ivec2 := (chunkX, chunkY)
    let chunk := GenerateChunk height (Chunk.new chunkX chunkY)
    ({ w with m_Chunks := w.m_Chunks.insert coord chunk }, chunk)

/-- The member `World::UnloadChunk`. -/
def UnloadChunk (w : World) (chunkX chunkY : Int) : World :=
  let coord : ivec2 := (chunkX, chunkY)
  match w.findChunk coord with
  | some _ => { w with m_Chunks := w.m_Chunks.erase coord }
  | none => w

/-- The member `World::GetBlock`, a `const` member: it yields a block id and no new world. -/
def GetBlock (w : World) (worldX worldY : Int) : BlockID :=
  let chunkCoord := WorldToChunk worldX worldY
  match w.GetChunk chunkCoord.1 chunkCoord.2 with
  | none => BLOCK_AIR
  | some chunk =>
    let localCoord := WorldToLocal worldX worldY
    chunk.GetBlock localCoord.1 localCoord.2

/-- The member `World::SetBlock`; the write through the chunk pointer updates the map entry
the pointer designates. -/
def SetBlock (height : Int → Int) (w : World) (worldX worldY : Int) (blockID : BlockID) :
    World :=
  let chunkCoord := WorldToChunk worldX worldY
  let r := GetOrCreateChunk height w chunkCoord.1 chunkCoord.2
  let localCoord := WorldToLocal worldX worldY
  { r.1 with m_Chunks :=
      r.1.m_Chunks.insert chunkCoord (r.2.SetBlock localCoord.1 localCoord.2 blockID) }

/-- The function `std::abs` on `int`. -/
def stdAbs (x : Int) : Int := if x < 0 then -x else x

/-- The chunk of the player: `WorldToChunk` of the floored position. -/
def playerChunkOf (playerPosition : ℚ × ℚ) : ivec2 :=
  WorldToChunk ⌊playerPosition.1⌋ ⌊playerPosition.2⌋

/-- The member `World::LoadChunksAroundPlayer`.  The radius is read once: no call in the loop
body writes `m_LoadRadius`. -/
def LoadChunksAroundPlayer (height : Int → Int) (w : World) (playerPosition : ℚ × ℚ) : World :=
  let playerChunk := playerChunkOf playerPosition
  let radius := w.m_LoadRadius
  (loopValues (-radius) radius).foldl (fun w dy =>
    (loopValues (-radius) radius).foldl (fun w dx =>
      let chunkX := playerChunk.1 + dx
      let chunkY := playerChunk.2 + dy
      (GetOrCreateChunk height w chunkX chunkY).1) w) w

/-- The first loop of `World::UnloadDistantChunks`: the keys collected into
`chunksToUnload`. -/
def chunksToUnload (w : World) (playerPosition : ℚ × ℚ) : List ivec2 :=
  let playerChunk := playerChunkOf playerPosition
  w.m_Chunks.keys.filter (fun coord =>
    let dx := coord.1 - playerChunk.1
    let dy := coord.2 - playerChunk.2
    let distance := max (stdAbs dx) (stdAbs dy)
    decide (distance > w.m_LoadRadius + 2))

/-- The member `World::UnloadDistantChunks`. -/
def UnloadDistantChunks (w : World) (playerPosition : ℚ × ℚ) : World :=
  (chunksToUnload w playerPosition).foldl (fun w coord => UnloadChunk w coord.1 coord.2) w

/-- The member `World::Update`. -/
def Update (height : Int → Int) (w : World) (playerPosition : ℚ × ℚ) : World :=
  UnloadDistantChunks (LoadChunksAroundPlayer height w playerPosition) playerPosition

/-- The magnitude of the `float` nearest to the natural number `a`: IEEE 754 binary32 keeps 24
significant bits, so with `2^e ≤ a < 2^(e+1)` the result is a multiple of `2^(e-23)` (of 1 when
`e ≤ 23`), the nearest one, and of two nearest ones the one with an even quotient. -/
def floatRound (a : Nat) : Nat :=
  let ulp := 2 ^ (Nat.log2 a - 23)
  let q := a / ulp
  let r := a % ulp
  (if 2 * r < ulp then q else if ulp < 2 * r then q + 1 else if q % 2 = 0 then q else q + 1) * ulp

/-- The implicit conversion of an `int` to `float`, as in `float worldX = coord.x * CHUNK_SIZE +
localX;`: the exact value of the resulting `float`. -/
def intToFloat (v : Int) : ℚ :=
  if v < 0 then -(floatRound v.natAbs : ℚ) else (floatRound v.natAbs : ℚ)

/-- One call of `Renderer2D::DrawQuad` made by `World::Render`: the first two components of the
position `{worldX, worldY, 0.0f}` (two `float`s, read as rationals), the texture argument
(`none` for the overload without a texture) and the colour argument.  The third component of
the position is `0.0f` and the size is `{1.0f, 1.0f}` in every call, and the tiling factor is
`1.0f` in the textured one. -/
structure DrawQuadCall where
  position : ℚ × ℚ
  texture : Option Nat
  color : vec4

/-- The body of the innermost loop of `World::Render` for one cell: the draw call issued,
`none` when the body leaves through a `continue`. -/
def renderCell (registry : BlockRegistry) (coord : ivec2) (chunk : Chunk) (localX localY : Int) :
    Option DrawQuadCall :=
  let blockID := chunk.GetBlock localX localY
  if blockID = BLOCK_AIR then none
  else
    match BlockRegistry.GetBlock registry blockID with
    | none => none
    | some block =>
      let worldX : ℚ := intToFloat (coord.1 * CHUNK_SIZE + localX)
      let worldY : ℚ := intToFloat (coord.2 * CHUNK_SIZE + localY)
      let props := block.GetProperties
      match props.Texture with
      | some texture =>
        some { position := (worldX, worldY), texture := some texture, color := props.Color }
      | none =>
        some { position := (worldX, worldY), texture := none, color := props.Color }

/-- The two inner loops of `World::Render` for one map entry: the draw calls of one chunk, rows
`localY` outside, columns `localX` inside. -/
def renderChunk (registry : BlockRegistry) (coord : ivec2) (chunk : Chunk) : List DrawQuadCall :=
  (loopValues 0 (CHUNK_SIZE - 1)).flatMap (fun localY =>
    (loopValues 0 (CHUNK_SIZE - 1)).filterMap (fun localX =>
      renderCell registry coord chunk localX localY))

/-- The map after `chunk->ClearDirty()` on every entry. -/
def clearDirtyAll (m : AList (fun _ : ivec2 => Chunk)) : AList (fun _ : ivec2 => Chunk) :=
  ⟨m.entries.map (fun e => ⟨e.1, e.2.ClearDirty⟩), by
    have h := m.nodupKeys
    unfold List.NodupKeys List.keys at h ⊢
    rw [List.map_map]
    exact h⟩

/-- The member `World::Render` (its `viewProjection` argument is not used by the body): the
world afterwards and the draw calls issued, chunk by chunk in map order. -/
def Render (registry : BlockRegistry) (w : World) : World × List DrawQuadCall :=
  ({ w with m_Chunks := clearDirtyAll w.m_Chunks },
    w.m_Chunks.entries.flatMap (fun e => renderChunk registry e.1 e.2))

/-- A run of `Update` calls, one per listed position. -/
def runUpdates (height : Int → Int) (w : World) (positions : List (ℚ × ℚ)) : World :=
  positions.foldl (Update height) w

/-- A run of `GetBlock` calls, one per listed coordinate: the ids returned and the world the
calls leave behind.  `GetBlock` is `const`, so each call hands on the world it was given. -/
def readBlocks (w : World) : List (Int × Int) → List BlockID × World
  | [] => ([], w)
  | (x, y) :: rest =>
    let id := w.GetBlock x y
    let r := readBlocks w rest
    (id :: r.1, r.2)

/-- The world states reachable from construction through the public operations. -/
inductive Reachable (height : Int → Int) (registry : BlockRegistry) : World → Prop
  | construct : Reachable height registry World.new
  | setLoadRadius (w : World) (radius : Int) :
      Reachable height registry w → Reachable height registry (w.SetLoadRadius radius)
  | setBlock (w : World) (x y : Int) (blockID : BlockID) :
      Reachable height registry w → Reachable height registry (SetBlock height w x y blockID)
  | getBlock (w : World) (x y : Int) :
      Reachable height registry w → Reachable height registry (readBlocks w [(x, y)]).2
  | getOrCreateChunk (w : World) (chunkX chunkY : Int) :
      Reachable height registry w
        → Reachable height registry (GetOrCreateChunk height w chunkX chunkY).1
  | unloadChunk (w : World) (chunkX chunkY : Int) :
      Reachable height registry w → Reachable height registry (UnloadChunk w chunkX chunkY)
  | update (w : World) (playerPosition : ℚ × ℚ) :
      Reachable height registry w → Reachable height registry (Update height w playerPosition)
  | render (w : World) :
      Reachable height registry w → Reachable height registry (Render registry w).1

end World

/-! ## The specification's coordinate formulas -/

/-- The map invariant of the specification: every chunk is stored under its own coordinate. -/
def KeysMatch (w : World) : Prop :=
  ∀ c chunk, w.findChunk c = some chunk → chunk.GetChunkCoord = c

/-- The draw call the specification describes for local cell `(lx, ly)` of the chunk at `coord`
holding the registered block `block`: world position `(16*cx + lx, 16*cy + ly)`, the block's
texture and colour. -/
def expectedDraw (coord : ivec2) (lx ly : Int) (block : Block) : World.DrawQuadCall :=
  { position := (((16 * coord.1 + lx : Int) : ℚ), ((16 * coord.2 + ly : Int) : ℚ)),
    texture := block.m_Properties.Texture,
    color := block.m_Properties.Color }

/-- The draw call of `expectedDraw` with each coordinate of the world position converted to
`float`: position `((float)(16*cx + lx), (float)(16*cy + ly))`. -/
def roundedDraw (coord : ivec2) (lx ly : Int) (block : Block) : World.DrawQuadCall :=
  { position := (World.intToFloat (16 * coord.1 + lx), World.intToFloat (16 * coord.2 + ly)),
    texture := block.m_Properties.Texture,
    color := block.m_Properties.Color }

/-- The id of the last in-bounds write to cell `(x, y)` in a run of `(x, y, blockID)` writes,
`none` when the run has no in-bounds write to that cell. -/
def lastWrite (writes : List (Int × Int × BlockID)) (x y : Int) : Option BlockID :=
  writes.foldl (fun acc wr =>
    if wr.1 = x ∧ wr.2.1 = y ∧ Chunk.IsValidLocalCoord wr.1 wr.2.1 = true then some wr.2.2
    else acc) none

/-- The Chebyshev (max-coordinate) distance between two chunk coordinates. -/
def chebyshev (a b : ivec2) : Int := max (World.stdAbs (a.1 - b.1)) (World.stdAbs (a.2 - b.2))

/-- The specification's `localOf(world) = ((world mod N) + N) mod N`, with `mod` read as the
truncating remainder of the implementation language. -/
def specLocalOfTrunc (w : Int) : Int := Int.tmod (Int.tmod w 16 + 16) 16

/-- The specification's `localOf(world) = ((world mod N) + N) mod N`, with `mod` read as the
Euclidean (never negative) remainder. -/
def specLocalOfEuclid (w : Int) : Int := Int.emod (Int.emod w 16 + 16) 16

/-- The range of a 32-bit signed `int`. -/
def IsInt32 (z : Int) : Prop := -2147483648 ≤ z ∧ z ≤ 2147483647

instance (z : Int) : Decidable (IsInt32 z) := by unfold IsInt32; infer_instance

/-- The member `Chunk::IsEmpty`: the scan over rows `y` and columns `x` answers `false` at the
first cell that is not air and `true` when there is none. -/
def Chunk.IsEmpty (c : Chunk) : Bool :=
  (World.loopValues 0 (CHUNK_SIZE - 1)).all (fun y =>
    (World.loopValues 0 (CHUNK_SIZE - 1)).all (fun x =>
      !decide (c.m_Blocks (Chunk.idx x) (Chunk.idx y) ≠ BLOCK_AIR)))

/-! ## Machine words -/

/-- The bit pattern of an integer in a two's-complement word of `w` bits. -/
def toBits (w : Nat) (z : Int) : Nat := (z % 2 ^ w).toNat

/-- The signed value of a bit pattern in a two's-complement word of `w` bits. -/
def ofBits (w : Nat) (n : Nat) : Int := if n < 2 ^ (w - 1) then (n : Int) else (n : Int) - 2 ^ w

/-- The operator `&` on two `int`s (32 bits). -/
def intAnd (a b : Int) : Int := ofBits 32 (toBits 32 a &&& toBits 32 b)

/-- The functor `ChunkCoordHash` of `World.h`, with a `size_t` of 64 bits: the two codes are
computed in `int` and converted to `size_t`; sum, product, quotient and sum are `size_t`
operations, each reduced modulo `2^64`. -/
def ChunkCoordHash (coord : ivec2) : Nat :=
  let a : Nat := toBits 64 (if coord.1 ≥ 0 then 2 * coord.1 else -2 * coord.1 - 1)
  let b : Nat := toBits 64 (if coord.2 ≥ 0 then 2 * coord.2 else -2 * coord.2 - 1)
  ((a + b) % 2 ^ 64 * ((a + b + 1) % 2 ^ 64) % 2 ^ 64 / 2 + b) % 2 ^ 64

/-- The zigzag code of the specification: `2c` for `c ≥ 0`, `-2c - 1` for `c < 0`. -/
def zigzag (c : Int) : Nat := if c ≥ 0 then (2 * c).toNat else (-2 * c - 1).toNat

/-- The Cantor pairing `(a + b)(a + b + 1)/2 + b`. -/
def cantorPair (a b : Nat) : Nat := (a + b) * (a + b + 1) / 2 + b

/-! ## Scene/SandboxComponents.h and Scene/WorldGenerator.h

The voxel variant.  Its `Block` and `CHUNK_SIZE_*` live in the namespace `Scene` here, next to
the block world's `Block` and `CHUNK_SIZE`.  A `float` is a rational number and `float`
arithmetic is rational arithmetic; the float literals of comparisons are the exact values of
the nearest `float`. -/

namespace Scene

/-- The enumeration `BlockType`. -/
inductive BlockType
  | Air | Grass | Dirt | Stone | Wood | Leaves | Sand | Water | Bedrock
  | Coal | Iron | Gold | Diamond
  deriving DecidableEq

/-- The struct `Block` of the voxel world; the member `Type` is `type` here. -/
structure Block where
  type : BlockType := BlockType.Air
  IsActive : Bool := true
  deriving DecidableEq

/-- The constructor `Block(BlockType type)`. -/
def Block.ofType (type : BlockType) : Block := { type := type }

abbrev CHUNK_SIZE_X : Int := 16
abbrev CHUNK_SIZE_Y : Int := 256
abbrev CHUNK_SIZE_Z : Int := 16

/-- The vector type `glm::ivec3`. -/
structure ivec3 where
  x : Int
  y : Int
  z : Int
  deriving DecidableEq

/-- The struct `ChunkComponent`; `Blocks` is indexed `[x][y][z]`. -/
structure ChunkComponent where
  ChunkPosition : ivec3 := ⟨0, 0, 0⟩
  Blocks : Fin 16 → Fin 256 → Fin 16 → Block
  IsLoaded : Bool := false
  NeedsMeshRebuild : Bool := true

namespace ChunkComponent

/-- The constructor `ChunkComponent(const glm::ivec3& pos)`: every block air. -/
def new (pos : ivec3) : ChunkComponent :=
  { ChunkPosition := pos, Blocks := fun _ _ _ => Block.ofType BlockType.Air }

/-- The bounds test shared by `GetBlock` (its three assertions) and `SetBlock`. -/
def inBounds (x y z : Int) : Bool :=
  decide (x ≥ 0) && decide (x < CHUNK_SIZE_X) && decide (y ≥ 0) && decide (y < CHUNK_SIZE_Y)
    && decide (z ≥ 0) && decide (z < CHUNK_SIZE_Z)

/-- An index of the `x` or `z` dimension from an `int` known to be in bounds. -/
def ixz (v : Int) : Fin 16 := ⟨v.toNat % 16, Nat.mod_lt _ (by decide)⟩

/-- An index of the `y` dimension from an `int` known to be in bounds. -/
def iy (v : Int) : Fin 256 := ⟨v.toNat % 256, Nat.mod_lt _ (by decide)⟩

/-- The member `ChunkComponent::GetBlock`; `none` when one of its assertions fails. -/
def GetBlock (c : ChunkComponent) (x y z : Int) : Option Block :=
  if inBounds x y z then some (c.Blocks (ixz x) (iy y) (ixz z)) else none

/-- The member `ChunkComponent::SetBlock`. -/
def SetBlock (c : ChunkComponent) (x y z : Int) (block : Block) : ChunkComponent :=
  if inBounds x y z then
    { c with
      Blocks := fun i j k => if i = ixz x ∧ j = iy y ∧ k = ixz z then block else c.Blocks i j k,
      NeedsMeshRebuild := true }
  else c

end ChunkComponent

/-- The struct `WorldComponent`; the map `LoadedChunks` is the lookup it supports, a `UUID` is
its 64-bit value. -/
structure WorldComponent where
  LoadedChunks : Int → Option Nat := fun _ => none
  RenderDistance : Int := 8
  Seed : Int := 12345

namespace WorldComponent

/-- The static function `WorldComponent::HashChunkPos`: the three `int`s are sign-extended to
64 bits, two of them shifted, and the three words OR-ed; the result is an `int64_t`. -/
def HashChunkPos (pos : ivec3) : Int :=
  let hi := toBits 64 pos.x * 2 ^ 32 % 2 ^ 64
  let mid := toBits 64 pos.y * 2 ^ 16 % 2 ^ 64
  let lo := toBits 64 pos.z
  ofBits 64 (hi ||| mid ||| lo)

/-- The member `WorldComponent::IsChunkLoaded`. -/
def IsChunkLoaded (w : WorldComponent) (chunkPos : ivec3) : Bool :=
  (w.LoadedChunks (HashChunkPos chunkPos)).isSome

end WorldComponent

/-- The struct `PlayerInventoryComponent::ItemStack`; the member `Type` is `type` here. -/
structure ItemStack where
  type : BlockType := BlockType.Air
  Count : Int := 0
  deriving DecidableEq

/-- The constant `PlayerInventoryComponent::INVENTORY_SIZE`. -/
abbrev INVENTORY_SIZE : Nat := 36

/-- The struct `PlayerInventoryComponent`; `Items` lists the slots `Items[0]`, `Items[1]`, ...
in index order. -/
structure PlayerInventoryComponent where
  Items : List ItemStack := List.replicate INVENTORY_SIZE {}
  SelectedSlot : Int := 0

namespace PlayerInventoryComponent

/-- The first loop of `AddItem` over the slots from some index on: the slots afterwards, the
value of `count` afterwards, and whether the loop left through `return true`. -/
def stackLoop (type : BlockType) : List ItemStack → Int → List ItemStack × Int × Bool
  | [], count => ([], count, false)
  | item :: rest, count =>
    if item.type = type ∧ item.Count < 64 then
      let space := 64 - item.Count
      let toAdd := min space count
      let item := { item with Count := item.Count + toAdd }
      let count := count - toAdd
      if count ≤ 0 then (item :: rest, count, true)
      else
        let r := stackLoop type rest count
        (item :: r.1, r.2.1, r.2.2)
    else
      let r := stackLoop type rest count
      (item :: r.1, r.2.1, r.2.2)

/-- The second loop of `AddItem` over the slots from some index on, with the same three
results. -/
def emptySlotLoop (type : BlockType) : List ItemStack → Int → List ItemStack × Int × Bool
  | [], count => ([], count, false)
  | item :: rest, count =>
    if item.type = BlockType.Air ∨ item.Count = 0 then
      let item : ItemStack := { type := type, Count := min count 64 }
      let count := count - item.Count
      if count ≤ 0 then (item :: rest, count, true)
      else
        let r := emptySlotLoop type rest count
        (item :: r.1, r.2.1, r.2.2)
    else
      let r := emptySlotLoop type rest count
      (item :: r.1, r.2.1, r.2.2)

/-- The member `PlayerInventoryComponent::AddItem`: the value returned and the inventory
afterwards. -/
def AddItem (inv : PlayerInventoryComponent) (type : BlockType) (count : Int) :
    Bool × PlayerInventoryComponent :=
  let r := stackLoop type inv.Items count
  if r.2.2 then (true, { inv with Items := r.1 })
  else
    let r := emptySlotLoop type r.1 r.2.1
    if r.2.2 then (true, { inv with Items := r.1 })
    else (decide (r.2.1 = 0), { inv with Items := r.1 })

/-- The loop of `RemoveItem` over the slots from some index on: the slots afterwards, the value
of `count` afterwards, and whether the loop left through `return true`. -/
def removeLoop (type : BlockType) : List ItemStack → Int → List ItemStack × Int × Bool
  | [], count => ([], count, false)
  | item :: rest, count =>
    if item.type = type ∧ item.Count > 0 then
      let toRemove := min item.Count count
      let item := { item with Count := item.Count - toRemove }
      let count := count - toRemove
      let item := if item.Count = 0 then { item with type := BlockType.Air } else item
      if count ≤ 0 then (item :: rest, count, true)
      else
        let r := removeLoop type rest count
        (item :: r.1, r.2.1, r.2.2)
    else
      let r := removeLoop type rest count
      (item :: r.1, r.2.1, r.2.2)

/-- The member `PlayerInventoryComponent::RemoveItem`: the value returned and the inventory
afterwards. -/
def RemoveItem (inv : PlayerInventoryComponent) (type : BlockType) (count : Int) :
    Bool × PlayerInventoryComponent :=
  let r := removeLoop type inv.Items count
  if r.2.2 then (true, { inv with Items := r.1 })
  else (decide (r.2.1 = 0), { inv with Items := r.1 })

end PlayerInventoryComponent

/-- The total `Count` of the slots holding `type`. -/
def totalOf (type : BlockType) (items : List ItemStack) : Int :=
  (items.map (fun item => if item.type = type then item.Count else 0)).sum

/-- The room for `type` in the slots that hold `type`: `64 - Count`, summed over these slots. -/
def stackSpace (type : BlockType) (items : List ItemStack) : Int :=
  (items.map (fun item => if item.type = type then 64 - item.Count else 0)).sum

/-- The room for `type` in the empty slots: 64 for each slot that does not hold `type` and is
Air or has `Count = 0`. -/
def emptySpace (type : BlockType) (items : List ItemStack) : Int :=
  (items.map (fun item =>
    if item.type ≠ type ∧ (item.type = BlockType.Air ∨ item.Count = 0) then 64 else 0)).sum

/-- The struct `TerrainGeneratorComponent`, with its default member values. -/
structure TerrainGeneratorComponent where
  Scale : ℚ := 0.05
  HeightMultiplier : ℚ := 32
  BaseHeight : Int := 64
  WaterLevel : Int := 62
  TemperatureScale : ℚ := 0.02
  MoistureScale : ℚ := 0.02

/-- The class `SimplexNoise`. -/
structure SimplexNoise where
  m_Seed : Int
  m_Permutation : List Int

namespace SimplexNoise

/-- The constructor `SimplexNoise(int seed)`: the table `0, ..., 255`, shuffled, then appended
to itself.  The argument `shuffle` is what `std::shuffle` with `std::mt19937 rng(seed)` does
to the table. -/
def construct (shuffle : List Int → List Int) (seed : Int) : SimplexNoise :=
  let table := (List.range 256).map (fun (i : Nat) => (i : Int))
  let table := shuffle table
  { m_Seed := seed, m_Permutation := table ++ table }

/-- The access `m_Permutation[i]`; `none` when `i` is not an index of the table. -/
def tableAt (n : SimplexNoise) (i : Int) : Option Int :=
  if i < 0 then none else n.m_Permutation[i.toNat]?

/-- The member `SimplexNoise::Fade`. -/
def Fade (t : ℚ) : ℚ := t * t * t * (t * (t * 6 - 15) + 10)

/-- The member `SimplexNoise::Lerp`. -/
def Lerp (a b t : ℚ) : ℚ := a + t * (b - a)

/-- The member `SimplexNoise::Grad`. -/
def Grad (hash : Int) (x y : ℚ) : ℚ :=
  let h := intAnd hash 15
  let grad : ℚ := 1 + (intAnd h 7 : Int)
  let grad := if intAnd h 8 ≠ 0 then -grad else grad
  if intAnd h 1 ≠ 0 then grad * x else grad * y

/-- The masked lattice index `(int)std::floor(x) & 255`. -/
def latticeIndex (x : ℚ) : Int := intAnd ⌊x⌋ 255

/-- The member `SimplexNoise::Noise2D`; `none` when a table access is out of bounds. -/
def Noise2D (n : SimplexNoise) (x y : ℚ) : Option ℚ := do
  let xi := latticeIndex x
  let yi := latticeIndex y
  let xf := x - ⌊x⌋
  let yf := y - ⌊y⌋
  let u := Fade xf
  let v := Fade yf
  let aa ← n.tableAt ((← n.tableAt xi) + yi)
  let ab ← n.tableAt ((← n.tableAt xi) + yi + 1)
  let ba ← n.tableAt ((← n.tableAt (xi + 1)) + yi)
  let bb ← n.tableAt ((← n.tableAt (xi + 1)) + yi + 1)
  let x1 := Lerp (Grad aa xf yf) (Grad ba (xf - 1) yf) u
  let x2 := Lerp (Grad ab xf (yf - 1)) (Grad bb (xf - 1) (yf - 1)) u
  pure (Lerp x1 x2 v)

end SimplexNoise

namespace WorldGenerator

/-- The function `glm::clamp` on `int`s: `min(max(x, minVal), maxVal)`. -/
def clamp (x minVal maxVal : Int) : Int := min (max x minVal) maxVal

/-- The ore selection of `GenerateChunk` for a deep cell at height `y` with ore noise
`oreNoise`.  The thresholds are the `float` values of `0.7f`, `0.8f`, `0.85f` and `0.9f`. -/
def oreBlock (y : Int) (oreNoise : ℚ) : BlockType :=
  if y < 32 ∧ oreNoise > 11744051 / 16777216 then BlockType.Coal
  else if y < 24 ∧ oreNoise > 13421773 / 16777216 then BlockType.Iron
  else if y < 16 ∧ oreNoise > 7130317 / 8388608 then BlockType.Gold
  else if y < 12 ∧ oreNoise > 7549747 / 8388608 then BlockType.Diamond
  else BlockType.Stone

/-- The block type `GenerateChunk` chooses for the cell at height `y` of a column with clamped
height `terrainHeight`. -/
def columnBlock (params : TerrainGeneratorComponent) (terrainHeight y : Int) (oreNoise : ℚ) :
    BlockType :=
  if y = 0 then BlockType.Bedrock
  else if y ≤ terrainHeight then
    if y = terrainHeight ∧ terrainHeight > params.WaterLevel then BlockType.Grass
    else if y > terrainHeight - 4 ∧ terrainHeight > params.WaterLevel then BlockType.Dirt
    else oreBlock y oreNoise
  else if y ≤ params.WaterLevel then BlockType.Water
  else BlockType.Air

/-- The clamped terrain height of a column: `params.BaseHeight + scaled`, clamped to
`[0, CHUNK_SIZE_Y - 1]`. -/
def columnHeight (params : TerrainGeneratorComponent) (scaled : Int) : Int :=
  clamp (params.BaseHeight + scaled) 0 (CHUNK_SIZE_Y - 1)

/-- The member `WorldGenerator::GenerateChunk`.  The argument `scaledHeight worldX worldZ` is
the value of `(int)(GenerateHeight(worldX, worldZ, params) * params.HeightMultiplier)` and
`oreNoise worldX y worldZ` the value of
`m_Noise.Noise2D(worldX * 0.1f, y * 0.1f + worldZ * 0.1f)`. -/
def GenerateChunk (scaledHeight : Int → Int → Int) (oreNoise : Int → Int → Int → ℚ)
    (chunk : ChunkComponent) (params : TerrainGeneratorComponent) : ChunkComponent :=
  let worldOffset : ivec3 :=
    ⟨chunk.ChunkPosition.x * CHUNK_SIZE_X, chunk.ChunkPosition.y * CHUNK_SIZE_Y,
      chunk.ChunkPosition.z * CHUNK_SIZE_Z⟩
  let chunk := (World.loopValues 0 (CHUNK_SIZE_X - 1)).foldl (fun chunk x =>
    (World.loopValues 0 (CHUNK_SIZE_Z - 1)).foldl (fun chunk z =>
      let worldX := worldOffset.x + x
      let worldZ := worldOffset.z + z
      let terrainHeight := columnHeight params (scaledHeight worldX worldZ)
      (World.loopValues 0 (CHUNK_SIZE_Y - 1)).foldl (fun chunk y =>
        let blockType := columnBlock params terrainHeight y (oreNoise worldX y worldZ)
        chunk.SetBlock x y z (Block.ofType blockType)) chunk) chunk) chunk
  { chunk with IsLoaded := true, NeedsMeshRebuild := true }

end WorldGenerator

end Scene

/-! ## Truncating division by the chunk size -/

theorem tdiv16_of_nonneg {a : Int} (h : 0 ≤ a) : Int.tdiv a 16 = a / 16 :=
  Int.tdiv_eq_ediv h (by decide)

theorem tdiv16_of_nonpos {a : Int} (h : a ≤ 0) : Int.tdiv a 16 = -((-a) / 16) := by
  have h1 : Int.tdiv (-(-a)) 16 = -(Int.tdiv (-a) 16) := Int.neg_tdiv (-a) 16
  rw [neg_neg] at h1
  rw [h1, Int.tdiv_eq_ediv (by omega) (by decide)]

theorem tmod16_of_nonneg {a : Int} (h : 0 ≤ a) : Int.tmod a 16 = a % 16 :=
  Int.tmod_eq_emod h (by decide)

theorem tmod16_of_nonpos {a : Int} (h : a ≤ 0) : Int.tmod a 16 = -((-a) % 16) := by
  have h1 := Int.tmod_add_tdiv a 16
  rw [tdiv16_of_nonpos h] at h1
  omega

/-- Each component of `WorldToChunk` is the floor quotient by 16. -/
theorem chunk_component (w : Int) :
    (if w < 0 then Int.tdiv (w + 1) 16 - 1 else Int.tdiv w 16) = w / 16 := by
  split
  · rw [tdiv16_of_nonpos (by omega)]; omega
  · rw [tdiv16_of_nonneg (by omega)]

/-- Each component of `WorldToLocal` is the Euclidean remainder by 16. -/
theorem local_component (w : Int) :
    (if Int.tmod w 16 < 0 then Int.tmod w 16 + 16 else Int.tmod w 16) = w % 16 := by
  rcases le_total 0 w with h | h
  · rw [tmod16_of_nonneg h]; split <;> omega
  · rw [tmod16_of_nonpos h]; split <;> omega

theorem WorldToChunk_eq (wx wy : Int) : World.WorldToChunk wx wy = (wx / 16, wy / 16) := by
  simp only [World.WorldToChunk, CHUNK_SIZE, chunk_component]

theorem WorldToLocal_eq (wx wy : Int) : World.WorldToLocal wx wy = (wx % 16, wy % 16) := by
  simp only [World.WorldToLocal, CHUNK_SIZE, local_component]

/-- On 32-bit inputs every intermediate value of the three transforms stays in the 32-bit
range, so `int` arithmetic computes there what the `Int` model computes. -/
theorem transforms_stay_in_int32 (wx wy : Int) (hx : IsInt32 wx) (hy : IsInt32 wy) :
    (wx < 0 → IsInt32 (wx + 1)) ∧ (wy < 0 → IsInt32 (wy + 1))
      ∧ IsInt32 (World.WorldToChunk wx wy).1 ∧ IsInt32 (World.WorldToChunk wx wy).2
      ∧ IsInt32 (World.WorldToLocal wx wy).1 ∧ IsInt32 (World.WorldToLocal wx wy).2
      ∧ IsInt32 ((World.WorldToChunk wx wy).1 * CHUNK_SIZE)
      ∧ IsInt32 ((World.WorldToChunk wx wy).2 * CHUNK_SIZE)
      ∧ IsInt32 (World.ChunkAndLocalToWorld (World.WorldToChunk wx wy)
          (World.WorldToLocal wx wy)).1
      ∧ IsInt32 (World.ChunkAndLocalToWorld (World.WorldToChunk wx wy)
          (World.WorldToLocal wx wy)).2 := by
  rw [WorldToChunk_eq, WorldToLocal_eq]
  unfold IsInt32 at *
  simp only [World.ChunkAndLocalToWorld, CHUNK_SIZE]
  omega

/-! ## Coordinate transforms -/

/-- C1: composing `ChunkAndLocalToWorld` with `WorldToChunk` and `WorldToLocal` gives back the
world coordinate pair, for every integer pair (so for every pair of 32-bit `int`s, negative
ones included). -/
theorem coordinate_round_trip (wx wy : Int) :
    World.ChunkAndLocalToWorld (World.WorldToChunk wx wy) (World.WorldToLocal wx wy)
      = (wx, wy) := by
  rw [WorldToChunk_eq, WorldToLocal_eq]
  simp only [World.ChunkAndLocalToWorld, CHUNK_SIZE, Prod.mk.injEq]
  constructor <;> omega

/-- C2: each component of `WorldToChunk` is the mathematical floor of `w / 16` (computed in
the rationals), not the quotient truncated toward zero; `WorldToChunk(-1, -1) = (-1, -1)` and
`WorldToChunk(-16, -17) = (-1, -2)`. -/
theorem WorldToChunk_is_floor (wx wy : Int) :
    World.WorldToChunk wx wy = (⌊(wx : ℚ) / 16⌋, ⌊(wy : ℚ) / 16⌋)
      ∧ World.WorldToChunk (-1) (-1) = (-1, -1)
      ∧ World.WorldToChunk (-16) (-17) = (-1, -2)
      ∧ Int.tdiv (-1) 16 = 0 := by
  have hf : ∀ w : Int, ⌊(w : ℚ) / 16⌋ = w / 16 := fun w => by
    have := Rat.floor_intCast_div_natCast w 16
    simpa using this
  refine ⟨?_, ?_, ?_, by decide⟩
  · rw [WorldToChunk_eq, hf, hf]
  · rw [WorldToChunk_eq]; decide
  · rw [WorldToChunk_eq]; decide

/-- C3: each component of `WorldToLocal` (truncating `%`, then `+ 16` when negative) equals the
specification's `((w mod 16) + 16) mod 16`, under the truncating and under the Euclidean reading
of `mod`, and lies in `[0, 16)`. -/
theorem WorldToLocal_refines_spec (wx wy : Int) :
    World.WorldToLocal wx wy = (specLocalOfTrunc wx, specLocalOfTrunc wy)
      ∧ World.WorldToLocal wx wy = (specLocalOfEuclid wx, specLocalOfEuclid wy)
      ∧ (0 ≤ (World.WorldToLocal wx wy).1 ∧ (World.WorldToLocal wx wy).1 < 16)
      ∧ (0 ≤ (World.WorldToLocal wx wy).2 ∧ (World.WorldToLocal wx wy).2 < 16) := by
  have ht : ∀ w : Int, specLocalOfTrunc w = w % 16 := fun w => by
    unfold specLocalOfTrunc
    rcases le_total 0 w with h | h
    · rw [tmod16_of_nonneg h, tmod16_of_nonneg (by omega)]; omega
    · rw [tmod16_of_nonpos h, tmod16_of_nonneg (by omega)]; omega
  have he : ∀ w : Int, specLocalOfEuclid w = w % 16 := fun w => by
    show (w % 16 + 16) % 16 = w % 16
    omega
  rw [WorldToLocal_eq]
  refine ⟨?_, ?_, ?_, ?_⟩
  · rw [ht, ht]
  · rw [he, he]
  · constructor <;> dsimp only <;> omega
  · constructor <;> dsimp only <;> omega

/-! ## Chunk cells -/

theorem Chunk.isValidLocalCoord_iff (x y : Int) :
    Chunk.IsValidLocalCoord x y = true ↔ (0 ≤ x ∧ x < 16) ∧ (0 ≤ y ∧ y < 16) := by
  simp [Chunk.IsValidLocalCoord, and_assoc]

theorem Chunk.GetBlock_SetBlock_same (c : Chunk) (x y : Int) (blockID : BlockID)
    (h : Chunk.IsValidLocalCoord x y = true) :
    (c.SetBlock x y blockID).GetBlock x y = blockID := by
  unfold Chunk.SetBlock Chunk.GetBlock
  simp only [h, Bool.not_true, Bool.false_eq_true, if_false]
  by_cases hne : c.m_Blocks (Chunk.idx x) (Chunk.idx y) ≠ blockID
  · simp [hne, Chunk.writeCell]
  · simp only [hne, if_false]
    exact not_not.mp hne

theorem WorldToLocal_valid (x y : Int) :
    Chunk.IsValidLocalCoord (World.WorldToLocal x y).1 (World.WorldToLocal x y).2 = true := by
  rw [Chunk.isValidLocalCoord_iff, WorldToLocal_eq]
  dsimp only
  omega

/-! ## The chunk map under `GetOrCreateChunk`, `UnloadChunk` and `SetBlock` -/

theorem findChunk_isSome {w : World} {c : ivec2} : (w.findChunk c).isSome ↔ c ∈ w.m_Chunks :=
  AList.lookup_isSome

theorem findChunk_eq_none {w : World} {c : ivec2} : w.findChunk c = none ↔ c ∉ w.m_Chunks :=
  AList.lookup_eq_none

theorem mem_of_findChunk {w : World} {c : ivec2} {chunk : Chunk}
    (h : w.findChunk c = some chunk) : c ∈ w.m_Chunks :=
  findChunk_isSome.mp (by rw [h]; rfl)

theorem findChunk_insert (m : AList (fun _ : ivec2 => Chunk)) (r : Int) (c : ivec2)
    (chunk : Chunk) :
    World.findChunk { m_Chunks := m.insert c chunk, m_LoadRadius := r } c = some chunk :=
  AList.lookup_insert m

theorem findChunk_insert_ne (m : AList (fun _ : ivec2 => Chunk)) (r : Int) {c c' : ivec2}
    (chunk : Chunk) (h : c ≠ c') :
    World.findChunk { m_Chunks := m.insert c' chunk, m_LoadRadius := r } c
      = World.findChunk { m_Chunks := m, m_LoadRadius := r } c :=
  AList.lookup_insert_ne h

theorem findChunk_erase_ne (m : AList (fun _ : ivec2 => Chunk)) (r : Int) {c c' : ivec2}
    (h : c ≠ c') :
    World.findChunk { m_Chunks := m.erase c', m_LoadRadius := r } c
      = World.findChunk { m_Chunks := m, m_LoadRadius := r } c :=
  AList.lookup_erase_ne h

theorem keys_length_congr {m₁ m₂ : AList (fun _ : ivec2 => Chunk)}
    (h : ∀ c, c ∈ m₁ ↔ c ∈ m₂) : m₁.keys.length = m₂.keys.length := by
  apply List.Perm.length_eq
  rw [List.perm_ext_iff_of_nodup m₁.keys_nodup m₂.keys_nodup]
  intro c
  rw [← AList.mem_keys, ← AList.mem_keys]
  exact h c

theorem count_eq_keys_length (w : World) : w.GetLoadedChunkCount = w.m_Chunks.keys.length := by
  simp [World.GetLoadedChunkCount, AList.keys, List.keys]

theorem count_congr {w₁ w₂ : World} (h : ∀ c, c ∈ w₁.m_Chunks ↔ c ∈ w₂.m_Chunks) :
    w₁.GetLoadedChunkCount = w₂.GetLoadedChunkCount := by
  rw [count_eq_keys_length, count_eq_keys_length]
  exact keys_length_congr h

theorem GetOrCreateChunk_of_find {height : Int → Int} {w : World} {cx cy : Int} {c : Chunk}
    (h : w.findChunk (cx, cy) = some c) :
    World.GetOrCreateChunk height w cx cy = (w, c) := by
  simp [World.GetOrCreateChunk, World.GetChunk, h]

theorem GetOrCreateChunk_of_not_mem {height : Int → Int} {w : World} {cx cy : Int}
    (h : (cx, cy) ∉ w.m_Chunks) :
    World.GetOrCreateChunk height w cx cy
      = (World.mk (w.m_Chunks.insert (cx, cy) (World.GenerateChunk height (Chunk.new cx cy)))
            w.m_LoadRadius,
          World.GenerateChunk height (Chunk.new cx cy)) := by
  have h' : w.findChunk (cx, cy) = none := findChunk_eq_none.mpr h
  simp [World.GetOrCreateChunk, World.GetChunk, h']

theorem GetOrCreateChunk_of_mem {height : Int → Int} {w : World} {cx cy : Int}
    (h : (cx, cy) ∈ w.m_Chunks) : (World.GetOrCreateChunk height w cx cy).1 = w := by
  obtain ⟨c, hc⟩ := Option.isSome_iff_exists.mp (findChunk_isSome.mpr h)
  rw [GetOrCreateChunk_of_find hc]

theorem GetOrCreateChunk_mem (height : Int → Int) (w : World) (cx cy : Int) (c : ivec2) :
    c ∈ (World.GetOrCreateChunk height w cx cy).1.m_Chunks ↔ c = (cx, cy) ∨ c ∈ w.m_Chunks := by
  by_cases h : (cx, cy) ∈ w.m_Chunks
  · rw [GetOrCreateChunk_of_mem h]
    constructor
    · exact Or.inr
    · rintro (rfl | h') <;> assumption
  · rw [GetOrCreateChunk_of_not_mem h]
    exact AList.mem_insert w.m_Chunks

theorem GetOrCreateChunk_radius (height : Int → Int) (w : World) (cx cy : Int) :
    (World.GetOrCreateChunk height w cx cy).1.m_LoadRadius = w.m_LoadRadius := by
  by_cases h : (cx, cy) ∈ w.m_Chunks
  · rw [GetOrCreateChunk_of_mem h]
  · rw [GetOrCreateChunk_of_not_mem h]

theorem GetOrCreateChunk_find (height : Int → Int) (w : World) (cx cy : Int) :
    (World.GetOrCreateChunk height w cx cy).1.findChunk (cx, cy)
      = some (World.GetOrCreateChunk height w cx cy).2 := by
  by_cases h : (cx, cy) ∈ w.m_Chunks
  · obtain ⟨c, hc⟩ := Option.isSome_iff_exists.mp (findChunk_isSome.mpr h)
    rw [GetOrCreateChunk_of_find hc]
    exact hc
  · rw [GetOrCreateChunk_of_not_mem h]
    generalize World.GenerateChunk height (Chunk.new cx cy) = chunk
    exact findChunk_insert w.m_Chunks w.m_LoadRadius (cx, cy) chunk

theorem GetOrCreateChunk_count (height : Int → Int) (w : World) (cx cy : Int) :
    (World.GetOrCreateChunk height w cx cy).1.GetLoadedChunkCount
      = if (cx, cy) ∈ w.m_Chunks then w.GetLoadedChunkCount else w.GetLoadedChunkCount + 1 := by
  by_cases h : (cx, cy) ∈ w.m_Chunks
  · rw [GetOrCreateChunk_of_mem h, if_pos h]
  · rw [GetOrCreateChunk_of_not_mem h, if_neg h]
    show (AList.insert (cx, cy) _ w.m_Chunks).entries.length = w.m_Chunks.entries.length + 1
    rw [AList.insert_entries_of_neg h, List.length_cons]

theorem UnloadChunk_mem (w : World) (cx cy : Int) (c : ivec2) :
    c ∈ (World.UnloadChunk w cx cy).m_Chunks ↔ c ≠ (cx, cy) ∧ c ∈ w.m_Chunks := by
  cases h : w.findChunk (cx, cy) with
  | some _ =>
    simp only [World.UnloadChunk, h]
    exact AList.mem_erase
  | none =>
    have hn : (cx, cy) ∉ w.m_Chunks := findChunk_eq_none.mp h
    simp only [World.UnloadChunk, h]
    constructor
    · intro hc
      exact ⟨fun e => hn (e ▸ hc), hc⟩
    · exact fun hc => hc.2

theorem UnloadChunk_radius (w : World) (cx cy : Int) :
    (World.UnloadChunk w cx cy).m_LoadRadius = w.m_LoadRadius := by
  cases h : w.findChunk (cx, cy) <;> simp only [World.UnloadChunk, h]

theorem SetBlock_find (height : Int → Int) (w : World) (x y : Int) (blockID : BlockID) :
    (World.SetBlock height w x y blockID).findChunk (World.WorldToChunk x y)
      = some ((World.GetOrCreateChunk height w (World.WorldToChunk x y).1
          (World.WorldToChunk x y).2).2.SetBlock
            (World.WorldToLocal x y).1 (World.WorldToLocal x y).2 blockID) := by
  unfold World.SetBlock
  exact findChunk_insert _ _ _ _

theorem SetBlock_mem (height : Int → Int) (w : World) (x y : Int) (blockID : BlockID)
    (c : ivec2) :
    c ∈ (World.SetBlock height w x y blockID).m_Chunks
      ↔ c = World.WorldToChunk x y ∨ c ∈ w.m_Chunks := by
  unfold World.SetBlock
  simp only [AList.mem_insert, GetOrCreateChunk_mem]
  tauto

theorem SetBlock_count (height : Int → Int) (w : World) (x y : Int) (blockID : BlockID) :
    (World.SetBlock height w x y blockID).GetLoadedChunkCount
      = if World.WorldToChunk x y ∈ w.m_Chunks then w.GetLoadedChunkCount
        else w.GetLoadedChunkCount + 1 := by
  have h1 := GetOrCreateChunk_count height w (World.WorldToChunk x y).1 (World.WorldToChunk x y).2
  rw [Prod.mk.eta] at h1
  rw [← h1]
  apply count_congr
  intro c
  rw [SetBlock_mem, GetOrCreateChunk_mem]

theorem GetBlock_of_find {w : World} {x y : Int} {chunk : Chunk}
    (h : w.findChunk (World.WorldToChunk x y) = some chunk) :
    w.GetBlock x y = chunk.GetBlock (World.WorldToLocal x y).1 (World.WorldToLocal x y).2 := by
  simp [World.GetBlock, World.GetChunk, h]

theorem GetBlock_of_find_none {w : World} {x y : Int}
    (h : w.findChunk (World.WorldToChunk x y) = none) : w.GetBlock x y = BLOCK_AIR := by
  simp [World.GetBlock, World.GetChunk, h]

/-! ## Block access -/

/-- C4: after `SetBlock(x, y, id)`, `GetBlock(x, y)` returns `id`, from every world state,
whether the owning chunk was loaded before the write or was created (and terrain-generated) by
it. -/
theorem GetBlock_after_SetBlock (height : Int → Int) (w : World) (x y : Int)
    (blockID : BlockID) :
    (World.SetBlock height w x y blockID).GetBlock x y = blockID := by
  rw [GetBlock_of_find (SetBlock_find height w x y blockID)]
  exact Chunk.GetBlock_SetBlock_same _ _ _ _ (WorldToLocal_valid x y)

theorem readBlocks_world (w : World) (reads : List (Int × Int)) :
    (World.readBlocks w reads).2 = w := by
  induction reads with
  | nil => rfl
  | cons q rest ih => obtain ⟨x, y⟩ := q; simpa [World.readBlocks] using ih

theorem readBlocks_ids (w : World) (reads : List (Int × Int)) :
    (World.readBlocks w reads).1 = reads.map (fun q => w.GetBlock q.1 q.2) := by
  induction reads with
  | nil => rfl
  | cons q rest ih => obtain ⟨x, y⟩ := q; simp [World.readBlocks, ih]

theorem GetBlock_new (x y : Int) : World.new.GetBlock x y = BLOCK_AIR := by
  apply GetBlock_of_find_none
  exact findChunk_eq_none.mpr (AList.not_mem_empty _)

/-- C5: a read creates no chunk.  `GetBlock` returns `BLOCK_AIR` when the owning chunk is not
loaded; any run of `GetBlock` calls leaves the world (the loaded set and every chunk's content)
as it was; on a freshly constructed world every read of such a run returns `BLOCK_AIR` and
`GetLoadedChunkCount` is 0 before and after the run. -/
theorem GetBlock_creates_no_chunk (w : World) (x y : Int) (reads : List (Int × Int)) :
    (w.GetChunk (World.WorldToChunk x y).1 (World.WorldToChunk x y).2 = none
        → w.GetBlock x y = BLOCK_AIR)
      ∧ (World.readBlocks w reads).2 = w
      ∧ World.new.GetBlock x y = BLOCK_AIR
      ∧ (∀ id ∈ (World.readBlocks World.new reads).1, id = BLOCK_AIR)
      ∧ World.new.GetLoadedChunkCount = 0
      ∧ (World.readBlocks World.new reads).2.GetLoadedChunkCount = 0 := by
  refine ⟨?_, readBlocks_world w reads, GetBlock_new x y, ?_, rfl, ?_⟩
  · intro h
    exact GetBlock_of_find_none (by simpa [World.GetChunk] using h)
  · intro id hid
    rw [readBlocks_ids, List.mem_map] at hid
    obtain ⟨q, _, rfl⟩ := hid
    exact GetBlock_new q.1 q.2
  · rw [readBlocks_world]; rfl

/-- C10: after `SetBlock(x, y, id)` the chunk at `WorldToChunk(x, y)` is loaded and its cell
`WorldToLocal(x, y)` holds `id`; the loaded count grows by at most 1: it is unchanged when that
chunk was loaded already and one larger when it was not.  After `SetBlock(-1, -1, BLOCK_STONE)` on a fresh world the
chunk `(-1, -1)` is loaded with `BLOCK_STONE` at local `(15, 15)`, and chunk `(0, 0)` is not
loaded. -/
theorem SetBlock_lands_in_owning_chunk (height : Int → Int) (w : World) (x y : Int)
    (blockID : BlockID) :
    (∃ chunk, (World.SetBlock height w x y blockID).GetChunk
          (World.WorldToChunk x y).1 (World.WorldToChunk x y).2 = some chunk
        ∧ chunk.GetBlock (World.WorldToLocal x y).1 (World.WorldToLocal x y).2 = blockID)
      ∧ w.GetLoadedChunkCount ≤ (World.SetBlock height w x y blockID).GetLoadedChunkCount
      ∧ (World.SetBlock height w x y blockID).GetLoadedChunkCount ≤ w.GetLoadedChunkCount + 1
      ∧ (World.SetBlock height w x y blockID).GetLoadedChunkCount
          = (if World.WorldToChunk x y ∈ w.m_Chunks then w.GetLoadedChunkCount
              else w.GetLoadedChunkCount + 1)
      ∧ (∃ chunk, (World.SetBlock height World.new (-1) (-1) BLOCK_STONE).GetChunk (-1) (-1)
            = some chunk ∧ chunk.GetBlock 15 15 = BLOCK_STONE)
      ∧ (World.SetBlock height World.new (-1) (-1) BLOCK_STONE).GetChunk 0 0 = none
      ∧ (World.SetBlock height World.new (-1) (-1) BLOCK_STONE).GetLoadedChunkCount = 1 := by
  have key : ∀ (w : World) (x y : Int) (blockID : BlockID),
      ∃ chunk, (World.SetBlock height w x y blockID).GetChunk
          (World.WorldToChunk x y).1 (World.WorldToChunk x y).2 = some chunk
        ∧ chunk.GetBlock (World.WorldToLocal x y).1 (World.WorldToLocal x y).2 = blockID := by
    intro w x y blockID
    refine ⟨_, ?_, Chunk.GetBlock_SetBlock_same
      (World.GetOrCreateChunk height w (World.WorldToChunk x y).1 (World.WorldToChunk x y).2).2
      _ _ blockID (WorldToLocal_valid x y)⟩
    unfold World.GetChunk
    rw [Prod.mk.eta, SetBlock_find]
  have hc : World.WorldToChunk (-1) (-1) = (-1, -1) := by rw [WorldToChunk_eq]; decide
  have hl : World.WorldToLocal (-1) (-1) = (15, 15) := by rw [WorldToLocal_eq]; decide
  refine ⟨key w x y blockID, ?_, ?_, SetBlock_count height w x y blockID, ?_, ?_, ?_⟩
  · rw [SetBlock_count]; split <;> omega
  · rw [SetBlock_count]; split <;> omega
  · have := key World.new (-1) (-1) BLOCK_STONE
    rw [hc, hl] at this
    exact this
  · have hn : ((0, 0) : ivec2) ∉ (World.SetBlock height World.new (-1) (-1) BLOCK_STONE).m_Chunks := by
      rw [SetBlock_mem, hc]
      rintro (h | h)
      · exact absurd h (by decide)
      · exact AList.not_mem_empty _ h
    exact findChunk_eq_none.mpr hn
  · have hn : ((-1, -1) : ivec2) ∉ World.new.m_Chunks := AList.not_mem_empty _
    rw [SetBlock_count, hc, if_neg hn]
    rfl

/-! ## Loops over the chunk map -/

theorem mem_loopValues {lo hi i : Int} : i ∈ World.loopValues lo hi ↔ lo ≤ i ∧ i ≤ hi := by
  unfold World.loopValues
  rw [List.mem_map]
  constructor
  · rintro ⟨k, hk, rfl⟩
    rw [List.mem_range] at hk
    omega
  · rintro ⟨h1, h2⟩
    refine ⟨(i - lo).toNat, ?_, ?_⟩
    · rw [List.mem_range]
      omega
    · omega

/-- A loop whose body adds the keys `P a` to the map adds the keys of all its iterations. -/
theorem foldl_mem_iff {α : Type} (f : World → α → World) (P : α → ivec2 → Prop)
    (hf : ∀ w a c, c ∈ (f w a).m_Chunks ↔ P a c ∨ c ∈ w.m_Chunks) (l : List α) (w : World)
    (c : ivec2) :
    c ∈ (l.foldl f w).m_Chunks ↔ (∃ a ∈ l, P a c) ∨ c ∈ w.m_Chunks := by
  induction l generalizing w with
  | nil => simp
  | cons a l ih =>
    rw [List.foldl_cons, ih, hf]
    constructor
    · rintro (⟨b, hb, hP⟩ | hP | hw)
      · exact Or.inl ⟨b, List.mem_cons_of_mem a hb, hP⟩
      · exact Or.inl ⟨a, List.mem_cons_self a l, hP⟩
      · exact Or.inr hw
    · rintro (⟨b, hb, hP⟩ | hw)
      · rcases List.mem_cons.mp hb with rfl | hb'
        · exact Or.inr (Or.inl hP)
        · exact Or.inl ⟨b, hb', hP⟩
      · exact Or.inr (Or.inr hw)

theorem foldl_radius {α : Type} (f : World → α → World)
    (hf : ∀ w a, (f w a).m_LoadRadius = w.m_LoadRadius) (l : List α) (w : World) :
    (l.foldl f w).m_LoadRadius = w.m_LoadRadius := by
  induction l generalizing w with
  | nil => rfl
  | cons a l ih => rw [List.foldl_cons, ih, hf]

/-- A loop none of whose iterations changes the world leaves it as it was. -/
theorem foldl_fixed {α : Type} (f : World → α → World) (l : List α) (w : World)
    (hf : ∀ a ∈ l, f w a = w) : l.foldl f w = w := by
  induction l with
  | nil => rfl
  | cons a l ih =>
    rw [List.foldl_cons, hf a (List.mem_cons_self a l)]
    exact ih (fun b hb => hf b (List.mem_cons_of_mem a hb))

theorem stdAbs_le_iff (x r : Int) : World.stdAbs x ≤ r ↔ -r ≤ x ∧ x ≤ r := by
  unfold World.stdAbs
  split <;> omega

theorem chebyshev_le_iff (a b : ivec2) (r : Int) :
    chebyshev a b ≤ r
      ↔ (b.1 - r ≤ a.1 ∧ a.1 ≤ b.1 + r) ∧ (b.2 - r ≤ a.2 ∧ a.2 ≤ b.2 + r) := by
  unfold chebyshev
  rw [max_le_iff, stdAbs_le_iff, stdAbs_le_iff]
  omega

/-! ## Streaming: the load pass and the unload pass -/

theorem LoadChunksAroundPlayer_mem (height : Int → Int) (w : World) (pos : ℚ × ℚ) (c : ivec2) :
    c ∈ (World.LoadChunksAroundPlayer height w pos).m_Chunks
      ↔ chebyshev c (World.playerChunkOf pos) ≤ w.m_LoadRadius ∨ c ∈ w.m_Chunks := by
  unfold World.LoadChunksAroundPlayer
  dsimp only
  rw [foldl_mem_iff _
    (fun dy c => ∃ dx ∈ World.loopValues (-w.m_LoadRadius) w.m_LoadRadius,
      c = ((World.playerChunkOf pos).1 + dx, (World.playerChunkOf pos).2 + dy))]
  · rw [chebyshev_le_iff]
    simp only [mem_loopValues]
    constructor
    · rintro (⟨dy, hdy, dx, hdx, rfl⟩ | h)
      · left
        dsimp only
        omega
      · exact Or.inr h
    · rintro (h | h)
      · left
        refine ⟨c.2 - (World.playerChunkOf pos).2, by omega,
          c.1 - (World.playerChunkOf pos).1, by omega, ?_⟩
        ext <;> dsimp only <;> omega
      · exact Or.inr h
  · intro w1 dy c1
    exact foldl_mem_iff _ (fun dx c => c = ((World.playerChunkOf pos).1 + dx,
      (World.playerChunkOf pos).2 + dy)) (fun w2 dx c2 => GetOrCreateChunk_mem _ _ _ _ _) _ _ _

theorem LoadChunksAroundPlayer_radius (height : Int → Int) (w : World) (pos : ℚ × ℚ) :
    (World.LoadChunksAroundPlayer height w pos).m_LoadRadius = w.m_LoadRadius := by
  unfold World.LoadChunksAroundPlayer
  dsimp only
  apply foldl_radius
  intro w1 dy
  apply foldl_radius
  intro w2 dx
  exact GetOrCreateChunk_radius _ _ _ _

/-- When the whole square around the player is loaded, the load pass leaves the world as it
was. -/
theorem LoadChunksAroundPlayer_fixed (height : Int → Int) (w : World) (pos : ℚ × ℚ)
    (h : ∀ c, chebyshev c (World.playerChunkOf pos) ≤ w.m_LoadRadius → c ∈ w.m_Chunks) :
    World.LoadChunksAroundPlayer height w pos = w := by
  unfold World.LoadChunksAroundPlayer
  dsimp only
  apply foldl_fixed
  intro dy hdy
  apply foldl_fixed
  intro dx hdx
  apply GetOrCreateChunk_of_mem
  apply h
  rw [chebyshev_le_iff]
  rw [mem_loopValues] at hdx hdy
  dsimp only
  omega

theorem mem_chunksToUnload (w : World) (pos : ℚ × ℚ) (c : ivec2) :
    c ∈ World.chunksToUnload w pos
      ↔ c ∈ w.m_Chunks ∧ w.m_LoadRadius + 2 < chebyshev c (World.playerChunkOf pos) := by
  unfold World.chunksToUnload chebyshev
  simp only [List.mem_filter, decide_eq_true_eq, gt_iff_lt, AList.mem_keys]

theorem foldl_UnloadChunk_mem (l : List ivec2) (w : World) (c : ivec2) :
    c ∈ (l.foldl (fun w coord => World.UnloadChunk w coord.1 coord.2) w).m_Chunks
      ↔ c ∈ w.m_Chunks ∧ c ∉ l := by
  induction l generalizing w with
  | nil => simp
  | cons a l ih =>
    rw [List.foldl_cons, ih, UnloadChunk_mem, Prod.mk.eta]
    simp only [List.mem_cons, not_or]
    tauto

theorem UnloadDistantChunks_mem (w : World) (pos : ℚ × ℚ) (c : ivec2) :
    c ∈ (World.UnloadDistantChunks w pos).m_Chunks
      ↔ c ∈ w.m_Chunks ∧ chebyshev c (World.playerChunkOf pos) ≤ w.m_LoadRadius + 2 := by
  unfold World.UnloadDistantChunks
  rw [foldl_UnloadChunk_mem, mem_chunksToUnload]
  constructor
  · rintro ⟨h1, h2⟩
    exact ⟨h1, not_lt.mp (fun h => h2 ⟨h1, h⟩)⟩
  · rintro ⟨h1, h2⟩
    exact ⟨h1, fun h => absurd h.2 (not_lt.mpr h2)⟩

theorem UnloadDistantChunks_radius (w : World) (pos : ℚ × ℚ) :
    (World.UnloadDistantChunks w pos).m_LoadRadius = w.m_LoadRadius := by
  unfold World.UnloadDistantChunks
  apply foldl_radius
  intro w' a
  exact UnloadChunk_radius _ _ _

/-- When no loaded chunk is farther than `m_LoadRadius + 2` from the player, the unload pass
leaves the world as it was. -/
theorem UnloadDistantChunks_fixed (w : World) (pos : ℚ × ℚ)
    (h : ∀ c, c ∈ w.m_Chunks → chebyshev c (World.playerChunkOf pos) ≤ w.m_LoadRadius + 2) :
    World.UnloadDistantChunks w pos = w := by
  have hnil : World.chunksToUnload w pos = [] := by
    apply List.eq_nil_iff_forall_not_mem.mpr
    intro c hc
    rw [mem_chunksToUnload] at hc
    exact absurd hc.2 (not_lt.mpr (h c hc.1))
  unfold World.UnloadDistantChunks
  rw [hnil]
  rfl

theorem Update_radius (height : Int → Int) (w : World) (pos : ℚ × ℚ) :
    (World.Update height w pos).m_LoadRadius = w.m_LoadRadius := by
  unfold World.Update
  rw [UnloadDistantChunks_radius, LoadChunksAroundPlayer_radius]

/-- The loaded set after `Update`: the square of radius `m_LoadRadius` around the player's
chunk, and the chunks loaded before that lie within `m_LoadRadius + 2` of it. -/
theorem Update_mem (height : Int → Int) (w : World) (pos : ℚ × ℚ) (c : ivec2) :
    c ∈ (World.Update height w pos).m_Chunks
      ↔ chebyshev c (World.playerChunkOf pos) ≤ w.m_LoadRadius
        ∨ (c ∈ w.m_Chunks ∧ chebyshev c (World.playerChunkOf pos) ≤ w.m_LoadRadius + 2) := by
  unfold World.Update
  rw [UnloadDistantChunks_mem, LoadChunksAroundPlayer_mem, LoadChunksAroundPlayer_radius]
  constructor
  · rintro ⟨h1 | h1, h2⟩
    · exact Or.inl h1
    · exact Or.inr ⟨h1, h2⟩
  · rintro (h | ⟨h1, h2⟩)
    · exact ⟨Or.inl h, by omega⟩
    · exact ⟨Or.inr h1, h2⟩

/-- C6: after `Update(pos)` every chunk coordinate within Chebyshev distance `m_LoadRadius` of
the player's chunk `WorldToChunk(floor(pos.x), floor(pos.y))` is loaded, and every loaded chunk
is within `m_LoadRadius + 2` of it, whatever was loaded before and whatever the radius. -/
theorem streaming_radius_invariant (height : Int → Int) (w : World) (pos : ℚ × ℚ) (c : ivec2) :
    (chebyshev c (World.WorldToChunk ⌊pos.1⌋ ⌊pos.2⌋) ≤ w.GetLoadRadius
        → c ∈ (World.Update height w pos).m_Chunks)
      ∧ (c ∈ (World.Update height w pos).m_Chunks
        → chebyshev c (World.WorldToChunk ⌊pos.1⌋ ⌊pos.2⌋) ≤ w.GetLoadRadius + 2) := by
  show (chebyshev c (World.playerChunkOf pos) ≤ w.m_LoadRadius → _)
    ∧ (_ → chebyshev c (World.playerChunkOf pos) ≤ w.m_LoadRadius + 2)
  rw [Update_mem]
  constructor
  · exact Or.inl
  · rintro (h | ⟨_, h⟩)
    · omega
    · exact h

theorem playerChunkOf_eq (pos : ℚ × ℚ) :
    World.playerChunkOf pos = (⌊pos.1⌋ / 16, ⌊pos.2⌋ / 16) := by
  unfold World.playerChunkOf
  rw [WorldToChunk_eq]

/-- The number of loaded chunks when the loaded set is the square of radius `r` around `f`. -/
theorem count_of_square (w : World) (f : ivec2) (r : Int) (hr : 0 ≤ r)
    (h : ∀ c, c ∈ w.m_Chunks ↔ chebyshev c f ≤ r) :
    (w.GetLoadedChunkCount : Int) = (2 * r + 1) ^ 2 := by
  have hset : w.m_Chunks.keys.toFinset
      = Finset.Icc (f.1 - r) (f.1 + r) ×ˢ Finset.Icc (f.2 - r) (f.2 + r) := by
    ext c
    rw [List.mem_toFinset, ← AList.mem_keys, h, chebyshev_le_iff, Finset.mem_product,
      Finset.mem_Icc, Finset.mem_Icc]
  have hcard : w.GetLoadedChunkCount = w.m_Chunks.keys.toFinset.card := by
    rw [count_eq_keys_length, List.toFinset_card_of_nodup w.m_Chunks.keys_nodup]
  rw [hcard, hset, Finset.card_product, Int.card_Icc, Int.card_Icc]
  have e1 : f.1 + r + 1 - (f.1 - r) = 2 * r + 1 := by ring
  have e2 : f.2 + r + 1 - (f.2 - r) = 2 * r + 1 := by ring
  rw [e1, e2, Nat.cast_mul, Int.toNat_of_nonneg (by omega)]
  ring

theorem fresh_Update_mem (height : Int → Int) (r : Int) (pos : ℚ × ℚ) (c : ivec2) :
    c ∈ (World.Update height (World.new.SetLoadRadius r) pos).m_Chunks
      ↔ chebyshev c (World.playerChunkOf pos) ≤ r := by
  rw [Update_mem]
  show _ ∨ (c ∈ (∅ : AList (fun _ : ivec2 => Chunk)) ∧ _) ↔ _
  constructor
  · rintro (h | ⟨h, _⟩)
    · exact h
    · exact absurd h (AList.not_mem_empty c)
  · exact Or.inl

/-- C7: on a freshly constructed world with load radius `r ≥ 0`, one `Update(pos)` loads
exactly the chunk coordinates `{fx-r..fx+r} × {fy-r..fy+r}` around the player's chunk `(fx, fy)`,
so `GetLoadedChunkCount() = (2r+1)^2`; with the default radius 3 and `pos = (0, 15)` the loaded
set is exactly `{-3..3} × {-3..3}` and the count is 49. -/
theorem fresh_Update_loads_square (height : Int → Int) (r : Int) (hr : 0 ≤ r) (pos : ℚ × ℚ)
    (c : ivec2) :
    (c ∈ (World.Update height (World.new.SetLoadRadius r) pos).m_Chunks
        ↔ ((World.WorldToChunk ⌊pos.1⌋ ⌊pos.2⌋).1 - r ≤ c.1
            ∧ c.1 ≤ (World.WorldToChunk ⌊pos.1⌋ ⌊pos.2⌋).1 + r)
          ∧ ((World.WorldToChunk ⌊pos.1⌋ ⌊pos.2⌋).2 - r ≤ c.2
            ∧ c.2 ≤ (World.WorldToChunk ⌊pos.1⌋ ⌊pos.2⌋).2 + r))
      ∧ ((World.Update height (World.new.SetLoadRadius r) pos).GetLoadedChunkCount : Int)
          = (2 * r + 1) ^ 2
      ∧ World.new.GetLoadRadius = 3
      ∧ (c ∈ (World.Update height World.new (0, 15)).m_Chunks
          ↔ (-3 ≤ c.1 ∧ c.1 ≤ 3) ∧ (-3 ≤ c.2 ∧ c.2 ≤ 3))
      ∧ (World.Update height World.new (0, 15)).GetLoadedChunkCount = 49 := by
  have hpc : World.playerChunkOf ((0 : ℚ), (15 : ℚ)) = (0, 0) := by
    rw [playerChunkOf_eq]
    simp
  have hnew : World.new.SetLoadRadius 3 = World.new := rfl
  refine ⟨?_, ?_, rfl, ?_, ?_⟩
  · rw [fresh_Update_mem, chebyshev_le_iff]
    rfl
  · exact count_of_square _ (World.playerChunkOf pos) r hr (fresh_Update_mem height r pos)
  · rw [← hnew, fresh_Update_mem, chebyshev_le_iff, hpc]
    dsimp only
    omega
  · have h49 := count_of_square _ (World.playerChunkOf ((0 : ℚ), (15 : ℚ))) 3 (by decide)
      (fresh_Update_mem height 3 (0, 15))
    rw [hnew] at h49
    omega

/-- The count of C7 at radius 1 and position `(40, -3)`: nine chunks. -/
theorem fresh_Update_loads_square_witness :
    (0 : Int) ≤ 1
      ∧ ((World.Update (fun _ => 10) (World.new.SetLoadRadius 1) (40, -3)).GetLoadedChunkCount
          : Int) = (2 * 1 + 1) ^ 2 :=
  ⟨by decide, (fresh_Update_loads_square (fun _ => 10) 1 (by decide) (40, -3) (0, 0)).2.1⟩

/-- C8: a second `Update(pos)` right after `Update(pos)` changes nothing: the same set of
loaded chunk coordinates, the same `GetLoadedChunkCount()`, indeed the same world. -/
theorem Update_idempotent (height : Int → Int) (w : World) (pos : ℚ × ℚ) :
    (∀ c, c ∈ (World.Update height (World.Update height w pos) pos).m_Chunks
        ↔ c ∈ (World.Update height w pos).m_Chunks)
      ∧ (World.Update height (World.Update height w pos) pos).GetLoadedChunkCount
          = (World.Update height w pos).GetLoadedChunkCount
      ∧ World.Update height (World.Update height w pos) pos = World.Update height w pos := by
  have hsame : World.Update height (World.Update height w pos) pos
      = World.Update height w pos := by
    have hload : World.LoadChunksAroundPlayer height (World.Update height w pos) pos
        = World.Update height w pos := by
      apply LoadChunksAroundPlayer_fixed
      intro c hc
      rw [Update_radius] at hc
      exact (Update_mem height w pos c).mpr (Or.inl hc)
    have hunload : World.UnloadDistantChunks (World.Update height w pos) pos
        = World.Update height w pos := by
      apply UnloadDistantChunks_fixed
      intro c hc
      rw [Update_radius]
      rcases (Update_mem height w pos c).mp hc with h | ⟨_, h⟩
      · omega
      · exact h
    show World.UnloadDistantChunks
      (World.LoadChunksAroundPlayer height (World.Update height w pos) pos) pos = _
    rw [hload, hunload]
  refine ⟨fun c => ?_, ?_, hsame⟩
  · rw [hsame]
  · rw [hsame]

/-- C9: a chunk loaded before `Update(pos)` is still loaded afterwards exactly when its
Chebyshev distance from the player's chunk is at most `m_LoadRadius + 2`.  With radius 3, after
an `Update` in chunk `(0, 0)` and then an `Update` in chunk `(10, 0)`, every loaded chunk has
`x ≥ 5`. -/
theorem unload_pass_exact (height : Int → Int) (w : World) (pos : ℚ × ℚ) (c : ivec2)
    (hc : c ∈ w.m_Chunks) :
    (c ∈ (World.Update height w pos).m_Chunks
        ↔ chebyshev c (World.WorldToChunk ⌊pos.1⌋ ⌊pos.2⌋) ≤ w.GetLoadRadius + 2)
      ∧ (World.WorldToChunk ⌊(0 : ℚ)⌋ ⌊(0 : ℚ)⌋ = (0, 0)
        ∧ World.WorldToChunk ⌊(160 : ℚ)⌋ ⌊(0 : ℚ)⌋ = (10, 0)
        ∧ World.new.GetLoadRadius = 3
        ∧ ∀ c', c' ∈ (World.Update height (World.Update height World.new (0, 0)) (160, 0)).m_Chunks
            → 5 ≤ c'.1) := by
  refine ⟨?_, ?_, ?_, rfl, ?_⟩
  · show _ ↔ chebyshev c (World.playerChunkOf pos) ≤ w.m_LoadRadius + 2
    rw [Update_mem]
    constructor
    · rintro (h | ⟨_, h⟩)
      · omega
      · exact h
    · exact fun h => Or.inr ⟨hc, h⟩
  · rw [WorldToChunk_eq]; simp
  · rw [WorldToChunk_eq]; simp
  · intro c' hc'
    have hr : (World.Update height World.new (0, 0)).m_LoadRadius = 3 :=
      Update_radius height World.new (0, 0)
    have hf : World.playerChunkOf ((160 : ℚ), (0 : ℚ)) = (10, 0) := by
      rw [playerChunkOf_eq]; simp
    rw [Update_mem, hr, hf, chebyshev_le_iff, chebyshev_le_iff] at hc'
    dsimp only at hc'
    omega

/-- The equivalence of C9 for chunk `(0, 0)`, created by a `SetBlock`, and an `Update` at
`(100, 0)`. -/
theorem unload_pass_exact_witness :
    (0, 0) ∈ (World.SetBlock (fun _ => 10) World.new 3 5 BLOCK_WOOD).m_Chunks
      ∧ ((0, 0) ∈ (World.Update (fun _ => 10)
            (World.SetBlock (fun _ => 10) World.new 3 5 BLOCK_WOOD) (100, 0)).m_Chunks
          ↔ chebyshev (0, 0) (World.WorldToChunk ⌊(100 : ℚ)⌋ ⌊(0 : ℚ)⌋)
              ≤ (World.SetBlock (fun _ => 10) World.new 3 5 BLOCK_WOOD).GetLoadRadius + 2) :=
  have hmem : ((0, 0) : ivec2) ∈ (World.SetBlock (fun _ => 10) World.new 3 5 BLOCK_WOOD).m_Chunks :=
    (SetBlock_mem _ _ _ _ _ _).mpr (Or.inl (by rw [WorldToChunk_eq]; decide))
  ⟨hmem, (unload_pass_exact (fun _ => 10) _ (100, 0) (0, 0) hmem).1⟩

/-! ## `Chunk::GetBlock` and `Chunk::SetBlock` -/

theorem Chunk.idx_eq_iff {x x' : Int} (hx : 0 ≤ x ∧ x < 16) (hx' : 0 ≤ x' ∧ x' < 16) :
    Chunk.idx x = Chunk.idx x' ↔ x = x' := by
  unfold Chunk.idx
  rw [Fin.mk.injEq]
  omega

theorem Chunk.GetBlock_of_valid (c : Chunk) {x y : Int}
    (h : Chunk.IsValidLocalCoord x y = true) :
    c.GetBlock x y = c.m_Blocks (Chunk.idx x) (Chunk.idx y) := by
  simp [Chunk.GetBlock, h]

theorem Chunk.GetBlock_of_invalid (c : Chunk) {x y : Int}
    (h : Chunk.IsValidLocalCoord x y = false) : c.GetBlock x y = BLOCK_AIR := by
  simp [Chunk.GetBlock, h]

theorem Chunk.SetBlock_of_invalid (c : Chunk) {x y : Int} (blockID : BlockID)
    (h : Chunk.IsValidLocalCoord x y = false) : c.SetBlock x y blockID = c := by
  simp [Chunk.SetBlock, h]

theorem Chunk.SetBlock_of_same (c : Chunk) {x y : Int} {blockID : BlockID}
    (h : c.GetBlock x y = blockID) (hv : Chunk.IsValidLocalCoord x y = true) :
    c.SetBlock x y blockID = c := by
  rw [Chunk.GetBlock_of_valid c hv] at h
  simp [Chunk.SetBlock, hv, h]

theorem Chunk.SetBlock_of_differs (c : Chunk) {x y : Int} {blockID : BlockID}
    (h : c.GetBlock x y ≠ blockID) (hv : Chunk.IsValidLocalCoord x y = true) :
    c.SetBlock x y blockID
      = { c with m_Blocks := Chunk.writeCell c.m_Blocks (Chunk.idx x) (Chunk.idx y) blockID,
                 m_IsDirty := true } := by
  rw [Chunk.GetBlock_of_valid c hv] at h
  simp [Chunk.SetBlock, hv, h]

theorem Chunk.SetBlock_coord (c : Chunk) (x y : Int) (blockID : BlockID) :
    (c.SetBlock x y blockID).GetChunkCoord = c.GetChunkCoord := by
  unfold Chunk.SetBlock
  split
  · rfl
  · split <;> rfl

theorem Chunk.SetBlock_dirty (c : Chunk) (x y : Int) (blockID : BlockID) :
    (c.SetBlock x y blockID).IsDirty
      = (c.IsDirty || (Chunk.IsValidLocalCoord x y && decide (c.GetBlock x y ≠ blockID))) := by
  cases hv : Chunk.IsValidLocalCoord x y with
  | false => rw [Chunk.SetBlock_of_invalid c blockID hv]; simp
  | true =>
    by_cases h : c.GetBlock x y = blockID
    · rw [Chunk.SetBlock_of_same c h hv]; simp [h]
    · rw [Chunk.SetBlock_of_differs c h hv]; simp [h, Chunk.IsDirty]

/-- A read of an in-bounds cell after a write: the written id at the written cell, the old
content elsewhere. -/
theorem Chunk.GetBlock_SetBlock (c : Chunk) (x' y' : Int) (blockID : BlockID) {x y : Int}
    (hv : Chunk.IsValidLocalCoord x y = true) :
    (c.SetBlock x' y' blockID).GetBlock x y
      = if x = x' ∧ y = y' then blockID else c.GetBlock x y := by
  by_cases he : x = x' ∧ y = y'
  · obtain ⟨rfl, rfl⟩ := he
    rw [if_pos ⟨rfl, rfl⟩]
    exact Chunk.GetBlock_SetBlock_same c x y blockID hv
  · rw [if_neg he]
    cases hv' : Chunk.IsValidLocalCoord x' y' with
    | false => rw [Chunk.SetBlock_of_invalid c blockID hv']
    | true =>
      by_cases h : c.GetBlock x' y' = blockID
      · rw [Chunk.SetBlock_of_same c h hv']
      · rw [Chunk.SetBlock_of_differs c h hv', Chunk.GetBlock_of_valid _ hv,
          Chunk.GetBlock_of_valid _ hv]
        have h1 := (Chunk.isValidLocalCoord_iff x y).mp hv
        have h2 := (Chunk.isValidLocalCoord_iff x' y').mp hv'
        have hne : ¬(Chunk.idx x = Chunk.idx x' ∧ Chunk.idx y = Chunk.idx y') := by
          rw [Chunk.idx_eq_iff h1.1 h2.1, Chunk.idx_eq_iff h1.2 h2.2]
          exact he
        simp only [Chunk.writeCell, if_neg hne]

theorem lastWrite_append (writes : List (Int × Int × BlockID)) (wr : Int × Int × BlockID)
    (x y : Int) :
    lastWrite (writes ++ [wr]) x y
      = if wr.1 = x ∧ wr.2.1 = y ∧ Chunk.IsValidLocalCoord wr.1 wr.2.1 = true then some wr.2.2
        else lastWrite writes x y := by
  unfold lastWrite
  rw [List.foldl_append]
  rfl

theorem setBlocks_append (c : Chunk) (writes : List (Int × Int × BlockID))
    (wr : Int × Int × BlockID) :
    c.setBlocks (writes ++ [wr]) = (c.setBlocks writes).SetBlock wr.1 wr.2.1 wr.2.2 := by
  unfold Chunk.setBlocks
  rw [List.foldl_append]
  rfl

/-- After a run of writes an in-bounds cell holds the id of the last in-bounds write to it, or
what it held before the run when there was none. -/
theorem GetBlock_setBlocks (c : Chunk) (writes : List (Int × Int × BlockID)) {x y : Int}
    (hv : Chunk.IsValidLocalCoord x y = true) :
    (c.setBlocks writes).GetBlock x y = (lastWrite writes x y).getD (c.GetBlock x y) := by
  induction writes using List.reverseRecOn with
  | nil => rfl
  | append_singleton writes wr ih =>
    rw [setBlocks_append, lastWrite_append, Chunk.GetBlock_SetBlock _ _ _ _ hv, ih]
    by_cases he : x = wr.1 ∧ y = wr.2.1
    · obtain ⟨rfl, rfl⟩ := he
      simp [hv]
    · have he' : ¬(wr.1 = x ∧ wr.2.1 = y ∧ Chunk.IsValidLocalCoord wr.1 wr.2.1 = true) :=
        fun h => he ⟨h.1.symm, h.2.1.symm⟩
      rw [if_neg he, if_neg he']

theorem GetBlock_new_chunk (cx cy x y : Int) : (Chunk.new cx cy).GetBlock x y = BLOCK_AIR := by
  unfold Chunk.GetBlock Chunk.new
  split <;> rfl

/-- C11: `Chunk::GetBlock(x, y)` returns `BLOCK_AIR` when `x` or `y` is outside `[0, 16)` and the
stored identifier `m_Blocks[x][y]` otherwise; on a chunk built by the constructor and a run of
`SetBlock` calls that identifier is the id of the last in-bounds `SetBlock` at that cell, or
`BLOCK_AIR` if the cell was never written.  `GetBlock` is a `const` member, a function of the
chunk that yields only the id. -/
theorem Chunk_GetBlock_contract (c : Chunk) (x y cx cy : Int)
    (writes : List (Int × Int × BlockID)) :
    ((x < 0 ∨ 16 ≤ x ∨ y < 0 ∨ 16 ≤ y) → c.GetBlock x y = BLOCK_AIR)
      ∧ ((0 ≤ x ∧ x < 16) ∧ (0 ≤ y ∧ y < 16)
          → c.GetBlock x y = c.m_Blocks (Chunk.idx x) (Chunk.idx y)
            ∧ ((Chunk.idx x : Fin 16) : Nat) = x ∧ ((Chunk.idx y : Fin 16) : Nat) = y)
      ∧ ((0 ≤ x ∧ x < 16) ∧ (0 ≤ y ∧ y < 16)
          → ((Chunk.new cx cy).setBlocks writes).GetBlock x y
              = (lastWrite writes x y).getD BLOCK_AIR)
      ∧ ((x < 0 ∨ 16 ≤ x ∨ y < 0 ∨ 16 ≤ y)
          → ((Chunk.new cx cy).setBlocks writes).GetBlock x y = BLOCK_AIR) := by
  have hinv : (x < 0 ∨ 16 ≤ x ∨ y < 0 ∨ 16 ≤ y) → Chunk.IsValidLocalCoord x y = false := by
    intro h
    cases hv : Chunk.IsValidLocalCoord x y with
    | false => rfl
    | true =>
      have := (Chunk.isValidLocalCoord_iff x y).mp hv
      omega
  refine ⟨fun h => Chunk.GetBlock_of_invalid c (hinv h), ?_, ?_,
    fun h => Chunk.GetBlock_of_invalid _ (hinv h)⟩
  · intro h
    refine ⟨Chunk.GetBlock_of_valid c ((Chunk.isValidLocalCoord_iff x y).mpr h), ?_, ?_⟩
    · show ((x.toNat % 16 : Nat) : Int) = x
      omega
    · show ((y.toNat % 16 : Nat) : Int) = y
      omega
  · intro h
    rw [GetBlock_setBlocks _ _ ((Chunk.isValidLocalCoord_iff x y).mpr h), GetBlock_new_chunk]

/-- C12: `Chunk::SetBlock(x, y, id)` with `x` or `y` outside `[0, 16)` returns the chunk as it
was: every cell, the chunk coordinate and the dirty flag are unchanged. -/
theorem Chunk_SetBlock_out_of_bounds (c : Chunk) (x y : Int) (blockID : BlockID)
    (h : x < 0 ∨ 16 ≤ x ∨ y < 0 ∨ 16 ≤ y) : c.SetBlock x y blockID = c := by
  apply Chunk.SetBlock_of_invalid
  cases hv : Chunk.IsValidLocalCoord x y with
  | false => rfl
  | true =>
    have := (Chunk.isValidLocalCoord_iff x y).mp hv
    omega

/-- The no-op of C12 for the write `SetBlock(16, 0, BLOCK_STONE)` on a fresh chunk. -/
theorem Chunk_SetBlock_out_of_bounds_witness :
    ((16 : Int) < 0 ∨ (16 : Int) ≤ 16 ∨ (0 : Int) < 0 ∨ (16 : Int) ≤ 0)
      ∧ (Chunk.new 2 (-1)).SetBlock 16 0 BLOCK_STONE = Chunk.new 2 (-1) :=
  ⟨by decide, Chunk_SetBlock_out_of_bounds (Chunk.new 2 (-1)) 16 0 BLOCK_STONE (by decide)⟩

/-- C13: for in-bounds `(x, y)`, `Chunk::SetBlock(x, y, id)` stores `id` in cell `(x, y)`, leaves
every other cell and the chunk coordinate as they were, and the dirty flag afterwards is
`dirty before || (old value != id)`: a write of a different value sets it, a write of the value
already stored changes nothing at all. -/
theorem Chunk_SetBlock_in_bounds (c : Chunk) (x y : Int) (blockID : BlockID)
    (h : (0 ≤ x ∧ x < 16) ∧ (0 ≤ y ∧ y < 16)) :
    (c.SetBlock x y blockID).GetBlock x y = blockID
      ∧ (c.SetBlock x y blockID).IsDirty = (c.IsDirty || decide (c.GetBlock x y ≠ blockID))
      ∧ (c.GetBlock x y ≠ blockID → (c.SetBlock x y blockID).IsDirty = true)
      ∧ (c.GetBlock x y = blockID → c.SetBlock x y blockID = c)
      ∧ (∀ x' y', (0 ≤ x' ∧ x' < 16) ∧ (0 ≤ y' ∧ y' < 16) → ¬(x' = x ∧ y' = y)
          → (c.SetBlock x y blockID).GetBlock x' y' = c.GetBlock x' y')
      ∧ (c.SetBlock x y blockID).GetChunkCoord = c.GetChunkCoord := by
  have hv := (Chunk.isValidLocalCoord_iff x y).mpr h
  refine ⟨Chunk.GetBlock_SetBlock_same c x y blockID hv, ?_, ?_, ?_, ?_,
    Chunk.SetBlock_coord c x y blockID⟩
  · rw [Chunk.SetBlock_dirty, hv, Bool.true_and]
  · intro hne
    rw [Chunk.SetBlock_dirty, hv, Bool.true_and, decide_eq_true hne, Bool.or_true]
  · exact fun he => Chunk.SetBlock_of_same c he hv
  · intro x' y' h' hne
    rw [Chunk.GetBlock_SetBlock c x y blockID ((Chunk.isValidLocalCoord_iff x' y').mpr h'),
      if_neg hne]

/-- The write of C13 at cell `(3, 4)` of a fresh chunk. -/
theorem Chunk_SetBlock_in_bounds_witness :
    (((0 : Int) ≤ 3 ∧ (3 : Int) < 16) ∧ ((0 : Int) ≤ 4 ∧ (4 : Int) < 16))
      ∧ ((Chunk.new 0 0).SetBlock 3 4 BLOCK_SAND).GetBlock 3 4 = BLOCK_SAND :=
  ⟨by decide, (Chunk_SetBlock_in_bounds (Chunk.new 0 0) 3 4 BLOCK_SAND (by decide)).1⟩

/-! ## Terrain generation -/

theorem chunk_foldl_preserves {α : Type} (f : Chunk → α → Chunk) (P : Chunk → Prop)
    (hf : ∀ c a, P c → P (f c a)) (l : List α) (c : Chunk) (h : P c) : P (l.foldl f c) := by
  induction l generalizing c with
  | nil => exact h
  | cons a l ih => exact ih (f c a) (hf c a h)

/-- One column loop of writes: the in-bounds cells of column `lx` with a row in `ys` hold the
written id, every other in-bounds cell its old content. -/
theorem column_loop_GetBlock (g : Int → BlockID) (lx : Int) (ys : List Int) (c : Chunk)
    {x y : Int} (hv : Chunk.IsValidLocalCoord x y = true) :
    (ys.foldl (fun c ly => c.SetBlock lx ly (g ly)) c).GetBlock x y
      = if x = lx ∧ y ∈ ys then g y else c.GetBlock x y := by
  induction ys generalizing c with
  | nil => simp
  | cons a l ih =>
    rw [List.foldl_cons, ih, Chunk.GetBlock_SetBlock _ _ _ _ hv]
    by_cases h1 : x = lx ∧ y ∈ l
    · rw [if_pos h1, if_pos ⟨h1.1, List.mem_cons_of_mem a h1.2⟩]
    · rw [if_neg h1]
      by_cases h2 : x = lx ∧ y = a
      · rw [if_pos h2, if_pos ⟨h2.1, h2.2 ▸ List.mem_cons_self y l⟩, h2.2]
      · rw [if_neg h2, if_neg]
        rintro ⟨hx, hy⟩
        rcases List.mem_cons.mp hy with hy | hy
        · exact h2 ⟨hx, hy⟩
        · exact h1 ⟨hx, hy⟩

/-- The nested loops of writes: the in-bounds cells with column in `xs` and row in `ys` hold the
written id, every other in-bounds cell its old content. -/
theorem nested_loop_GetBlock (G : Int → Int → BlockID) (xs ys : List Int) (c : Chunk)
    {x y : Int} (hv : Chunk.IsValidLocalCoord x y = true) :
    (xs.foldl (fun c lx => ys.foldl (fun c ly => c.SetBlock lx ly (G lx ly)) c) c).GetBlock x y
      = if x ∈ xs ∧ y ∈ ys then G x y else c.GetBlock x y := by
  induction xs generalizing c with
  | nil => simp
  | cons a l ih =>
    rw [List.foldl_cons, ih, column_loop_GetBlock (G a) a ys c hv]
    by_cases h1 : x ∈ l ∧ y ∈ ys
    · rw [if_pos h1, if_pos ⟨List.mem_cons_of_mem a h1.1, h1.2⟩]
    · rw [if_neg h1]
      by_cases h2 : x = a ∧ y ∈ ys
      · rw [if_pos h2, if_pos ⟨h2.1 ▸ List.mem_cons_self x l, h2.2⟩, h2.1]
      · rw [if_neg h2, if_neg]
        rintro ⟨hx, hy⟩
        rcases List.mem_cons.mp hx with hx | hx
        · exact h2 ⟨hx, hy⟩
        · exact h1 ⟨hx, hy⟩

/-- Every in-bounds cell of a generated chunk holds the terrain block of its world column and
row, whatever the chunk held before. -/
theorem GenerateChunk_GetBlock (height : Int → Int) (c : Chunk) {lx ly : Int}
    (hv : Chunk.IsValidLocalCoord lx ly = true) :
    (World.GenerateChunk height c).GetBlock lx ly
      = World.terrainBlock (height (c.m_ChunkX * 16 + lx)) (c.m_ChunkY * 16 + ly) := by
  have h := (Chunk.isValidLocalCoord_iff lx ly).mp hv
  have key := nested_loop_GetBlock
    (fun x y => World.terrainBlock (height (c.m_ChunkX * 16 + x)) (c.m_ChunkY * 16 + y))
    (World.loopValues 0 (CHUNK_SIZE - 1)) (World.loopValues 0 (CHUNK_SIZE - 1)) c hv
  rw [if_pos ⟨mem_loopValues.mpr (by simp only [CHUNK_SIZE]; omega),
    mem_loopValues.mpr (by simp only [CHUNK_SIZE]; omega)⟩] at key
  exact key

theorem GenerateChunk_coord (height : Int → Int) (c : Chunk) :
    (World.GenerateChunk height c).GetChunkCoord = c.GetChunkCoord := by
  unfold World.GenerateChunk
  apply chunk_foldl_preserves _ (fun c' => c'.GetChunkCoord = c.GetChunkCoord) _ _ _ rfl
  intro c1 lx h1
  apply chunk_foldl_preserves _ (fun c' => c'.GetChunkCoord = c.GetChunkCoord) _ _ _ h1
  intro c2 ly h2
  rw [Chunk.SetBlock_coord]
  exact h2

theorem GenerateChunk_dirty (height : Int → Int) (c : Chunk) (hd : c.IsDirty = true) :
    (World.GenerateChunk height c).IsDirty = true := by
  unfold World.GenerateChunk
  apply chunk_foldl_preserves _ (fun c' => c'.IsDirty = true) _ _ _ hd
  intro c1 lx h1
  apply chunk_foldl_preserves _ (fun c' => c'.IsDirty = true) _ _ _ h1
  intro c2 ly h2
  rw [Chunk.SetBlock_dirty, h2, Bool.true_or]

theorem terrainBlock_cases (h wy : Int) :
    (wy < h - 3 → World.terrainBlock h wy = BLOCK_STONE)
      ∧ (h - 3 ≤ wy ∧ wy < h → World.terrainBlock h wy = BLOCK_DIRT)
      ∧ (wy = h → World.terrainBlock h wy = BLOCK_GRASS)
      ∧ (h < wy → World.terrainBlock h wy = BLOCK_AIR) := by
  unfold World.terrainBlock
  refine ⟨fun h1 => ?_, fun h1 => ?_, fun h1 => ?_, fun h1 => ?_⟩
  · rw [if_pos h1]
  · rw [if_neg (by omega), if_pos h1.2]
  · rw [if_neg (by omega), if_neg (by omega), if_pos h1]
  · rw [if_neg (by omega), if_neg (by omega), if_neg (by omega)]

/-- The chunk a creating `GetOrCreateChunk` returns and stores. -/
theorem GetOrCreateChunk_created (height : Int → Int) {w : World} {cx cy : Int}
    (h : (cx, cy) ∉ w.m_Chunks) :
    (World.GetOrCreateChunk height w cx cy).2 = World.GenerateChunk height (Chunk.new cx cy)
      ∧ (World.GetOrCreateChunk height w cx cy).1.findChunk (cx, cy)
          = some (World.GenerateChunk height (Chunk.new cx cy)) := by
  have h1 : (World.GetOrCreateChunk height w cx cy).2
      = World.GenerateChunk height (Chunk.new cx cy) := by
    rw [GetOrCreateChunk_of_not_mem h]
  refine ⟨h1, ?_⟩
  rw [← h1]
  exact GetOrCreateChunk_find height w cx cy

/-- C16: when `GetOrCreateChunk(cx, cy)` creates a chunk, every local cell `(lx, ly)`, with world
coordinates `wx = 16*cx + lx`, `wy = 16*cy + ly` and column height `h = height wx`, holds
`BLOCK_STONE` if `wy < h - 3`, `BLOCK_DIRT` if `h - 3 ≤ wy < h`, `BLOCK_GRASS` if `wy = h` and
`BLOCK_AIR` if `wy > h`; read through the world, the content at `(wx, wy)` is a function of
`(wx, wy)` alone.  The column height `static_cast<int>(10.0f + std::sin(wx * 0.1f) * 3.0f)` is
the integer function `height`. -/
theorem created_chunk_terrain (height : Int → Int) (w : World) (cx cy lx ly : Int)
    (hnew : (cx, cy) ∉ w.m_Chunks) (hl : (0 ≤ lx ∧ lx < 16) ∧ (0 ≤ ly ∧ ly < 16)) :
    (World.GetOrCreateChunk height w cx cy).1.findChunk (cx, cy)
        = some (World.GetOrCreateChunk height w cx cy).2
      ∧ (World.GetOrCreateChunk height w cx cy).2.GetBlock lx ly
          = World.terrainBlock (height (16 * cx + lx)) (16 * cy + ly)
      ∧ (16 * cy + ly < height (16 * cx + lx) - 3
          → (World.GetOrCreateChunk height w cx cy).2.GetBlock lx ly = BLOCK_STONE)
      ∧ (height (16 * cx + lx) - 3 ≤ 16 * cy + ly ∧ 16 * cy + ly < height (16 * cx + lx)
          → (World.GetOrCreateChunk height w cx cy).2.GetBlock lx ly = BLOCK_DIRT)
      ∧ (16 * cy + ly = height (16 * cx + lx)
          → (World.GetOrCreateChunk height w cx cy).2.GetBlock lx ly = BLOCK_GRASS)
      ∧ (height (16 * cx + lx) < 16 * cy + ly
          → (World.GetOrCreateChunk height w cx cy).2.GetBlock lx ly = BLOCK_AIR)
      ∧ (World.GetOrCreateChunk height w cx cy).1.GetBlock (16 * cx + lx) (16 * cy + ly)
          = World.terrainBlock (height (16 * cx + lx)) (16 * cy + ly) := by
  have hv := (Chunk.isValidLocalCoord_iff lx ly).mpr hl
  have hcell : (World.GetOrCreateChunk height w cx cy).2.GetBlock lx ly
      = World.terrainBlock (height (16 * cx + lx)) (16 * cy + ly) := by
    rw [(GetOrCreateChunk_created height hnew).1, GenerateChunk_GetBlock height _ hv]
    show World.terrainBlock (height (cx * 16 + lx)) (cy * 16 + ly) = _
    rw [mul_comm cx 16, mul_comm cy 16]
  have hcases := terrainBlock_cases (height (16 * cx + lx)) (16 * cy + ly)
  refine ⟨GetOrCreateChunk_find height w cx cy, hcell, ?_, ?_, ?_, ?_, ?_⟩
  · exact fun h => hcell.trans (hcases.1 h)
  · exact fun h => hcell.trans (hcases.2.1 h)
  · exact fun h => hcell.trans (hcases.2.2.1 h)
  · exact fun h => hcell.trans (hcases.2.2.2 h)
  · have hc : World.WorldToChunk (16 * cx + lx) (16 * cy + ly) = (cx, cy) := by
      rw [WorldToChunk_eq, Prod.mk.injEq]
      constructor <;> omega
    have hloc : World.WorldToLocal (16 * cx + lx) (16 * cy + ly) = (lx, ly) := by
      rw [WorldToLocal_eq, Prod.mk.injEq]
      constructor <;> omega
    have hfind : (World.GetOrCreateChunk height w cx cy).1.findChunk
        (World.WorldToChunk (16 * cx + lx) (16 * cy + ly))
          = some (World.GetOrCreateChunk height w cx cy).2 := by
      rw [hc]
      exact GetOrCreateChunk_find height w cx cy
    rw [GetBlock_of_find hfind, hloc]
    exact hcell

/-- The terrain of C16 at local cell `(5, 2)` of chunk `(1, 0)` created in a fresh world: world
cell `(21, 2)`. -/
theorem created_chunk_terrain_witness :
    ((1, 0) : ivec2) ∉ World.new.m_Chunks
      ∧ (((0 : Int) ≤ 5 ∧ (5 : Int) < 16) ∧ ((0 : Int) ≤ 2 ∧ (2 : Int) < 16))
      ∧ (World.GetOrCreateChunk (fun _ => 10) World.new 1 0).2.GetBlock 5 2
          = World.terrainBlock ((fun _ => 10) (16 * 1 + 5)) (16 * 0 + 2) :=
  ⟨AList.not_mem_empty _, by decide,
    (created_chunk_terrain (fun _ => 10) World.new 1 0 5 2 (AList.not_mem_empty _)
      (by decide)).2.1⟩

/-! ## Rendering -/

theorem loopValues_nodup (lo hi : Int) : (World.loopValues lo hi).Nodup := by
  unfold World.loopValues
  apply List.Nodup.map _ (List.nodup_range _)
  intro a b h
  simpa using h

/-- The rounding `floatRound` written out for a number whose leading bit is known. -/
theorem floatRound_of_log2 {a e : Nat} (h : Nat.log2 a = e) :
    World.floatRound a
      = (if 2 * (a % 2 ^ (e - 23)) < 2 ^ (e - 23) then a / 2 ^ (e - 23)
          else if 2 ^ (e - 23) < 2 * (a % 2 ^ (e - 23)) then a / 2 ^ (e - 23) + 1
          else if a / 2 ^ (e - 23) % 2 = 0 then a / 2 ^ (e - 23)
          else a / 2 ^ (e - 23) + 1) * 2 ^ (e - 23) := by
  subst h
  rfl

theorem floatRound_exact {a : Nat} (h : a ≤ 2 ^ 24) : World.floatRound a = a := by
  rcases Nat.eq_or_lt_of_le h with h24 | hlt
  · have hlog : Nat.log2 a = 24 := by
      rw [h24]
      exact Nat.log2_two_pow
    rw [floatRound_of_log2 hlog, h24]
    norm_num
  · have hlog : Nat.log2 a - 23 = 0 := by
      by_cases h0 : a = 0
      · subst h0
        simp [Nat.log2]
      · have := (Nat.log2_lt h0).mpr hlt
        omega
    rw [floatRound_of_log2 rfl, hlog]
    simp only [pow_zero, Nat.mod_one, Nat.div_one, mul_zero, Nat.lt_one_iff, if_true,
      mul_one, Nat.zero_lt_one]

/-- The conversion of an `int` of magnitude at most `2^24` to `float` is exact. -/
theorem intToFloat_exact {v : Int} (h : -2 ^ 24 ≤ v ∧ v ≤ 2 ^ 24) :
    World.intToFloat v = (v : ℚ) := by
  unfold World.intToFloat
  rw [floatRound_exact (by omega)]
  split
  · rw [← Int.cast_natCast, ← Int.cast_neg]
    congr 1
    omega
  · rw [← Int.cast_natCast]
    congr 1
    omega

theorem log2_eq_of_le_of_lt {n e : Nat} (hlo : 2 ^ e ≤ n) (hhi : n < 2 ^ (e + 1)) :
    Nat.log2 n = e := by
  have hn : n ≠ 0 := by
    have := Nat.two_pow_pos e
    omega
  have h1 := (Nat.log2_lt hn).mpr hhi
  have h2 : ¬Nat.log2 n < e := fun h => absurd ((Nat.log2_lt hn).mp h) (by omega)
  omega

/-- Values of the conversion beyond `2^24`: a tie goes to the even quotient, downwards for
`2^24 + 1` and upwards for `2^24 + 3`; `2^25 + 1` is rounded down and `-(2^25 + 3)` away from
zero. -/
theorem intToFloat_rounding :
    World.intToFloat (2 ^ 24 + 1) = 2 ^ 24 ∧ World.intToFloat (2 ^ 24 + 3) = 2 ^ 24 + 4
      ∧ World.intToFloat (2 ^ 25 + 1) = 2 ^ 25
      ∧ World.intToFloat (-(2 ^ 25 + 3)) = -(2 ^ 25 + 4) := by
  have h1 : World.floatRound 16777217 = 16777216 := by
    rw [floatRound_of_log2 (log2_eq_of_le_of_lt (e := 24) (by norm_num) (by norm_num))]
    norm_num
  have h2 : World.floatRound 16777219 = 16777220 := by
    rw [floatRound_of_log2 (log2_eq_of_le_of_lt (e := 24) (by norm_num) (by norm_num))]
    norm_num
  have h3 : World.floatRound 33554433 = 33554432 := by
    rw [floatRound_of_log2 (log2_eq_of_le_of_lt (e := 25) (by norm_num) (by norm_num))]
    norm_num
  have h4 : World.floatRound 33554435 = 33554436 := by
    rw [floatRound_of_log2 (log2_eq_of_le_of_lt (e := 25) (by norm_num) (by norm_num))]
    norm_num
  have e1 : (2 ^ 24 + 1 : Int) = 16777217 := by norm_num
  have e2 : (2 ^ 24 + 3 : Int) = 16777219 := by norm_num
  have e3 : (2 ^ 25 + 1 : Int) = 33554433 := by norm_num
  have e4 : (-(2 ^ 25 + 3) : Int) = -33554435 := by norm_num
  have n1 : (16777217 : Int).natAbs = 16777217 := rfl
  have n2 : (16777219 : Int).natAbs = 16777219 := rfl
  have n3 : (33554433 : Int).natAbs = 33554433 := rfl
  have n4 : (-33554435 : Int).natAbs = 33554435 := rfl
  refine ⟨?_, ?_, ?_, ?_⟩
  · rw [e1]
    unfold World.intToFloat
    rw [if_neg (by norm_num), n1, h1]
    norm_num
  · rw [e2]
    unfold World.intToFloat
    rw [if_neg (by norm_num), n2, h2]
    norm_num
  · rw [e3]
    unfold World.intToFloat
    rw [if_neg (by norm_num), n3, h3]
    norm_num
  · rw [e4]
    unfold World.intToFloat
    rw [if_pos (by norm_num), n4, h4]
    norm_num

/-- Where both world coordinates of a cell have magnitude at most `2^24`, the draw call with
the converted position is the draw call of the specification. -/
theorem roundedDraw_eq_expectedDraw (c : ivec2) (lx ly : Int) (block : Block)
    (hc : (-2 ^ 20 ≤ c.1 ∧ c.1 < 2 ^ 20) ∧ (-2 ^ 20 ≤ c.2 ∧ c.2 < 2 ^ 20))
    (hl : (0 ≤ lx ∧ lx < 16) ∧ (0 ≤ ly ∧ ly < 16)) :
    roundedDraw c lx ly block = expectedDraw c lx ly block := by
  unfold roundedDraw expectedDraw
  rw [intToFloat_exact (by omega), intToFloat_exact (by omega)]

theorem renderCell_eq_some (registry : BlockRegistry) (coord : ivec2) (chunk : Chunk)
    (lx ly : Int) (d : World.DrawQuadCall) :
    World.renderCell registry coord chunk lx ly = some d
      ↔ chunk.GetBlock lx ly ≠ BLOCK_AIR
        ∧ ∃ block, registry (chunk.GetBlock lx ly) = some block
          ∧ d = roundedDraw coord lx ly block := by
  unfold World.renderCell BlockRegistry.GetBlock roundedDraw Block.GetProperties
  dsimp only
  by_cases hair : chunk.GetBlock lx ly = BLOCK_AIR
  · simp [hair]
  · rw [if_neg hair]
    cases hreg : registry (chunk.GetBlock lx ly) with
    | none => simp
    | some block =>
      have hpos : (World.intToFloat (coord.1 * CHUNK_SIZE + lx),
            World.intToFloat (coord.2 * CHUNK_SIZE + ly))
          = (World.intToFloat (16 * coord.1 + lx), World.intToFloat (16 * coord.2 + ly)) := by
        rw [mul_comm coord.1, mul_comm coord.2]
      have hair' : ¬BLOCK_AIR = chunk.GetBlock lx ly := fun h => hair h.symm
      cases htex : block.m_Properties.Texture with
      | none => simp [hpos, htex, eq_comm, hair']
      | some t => simp [hpos, htex, eq_comm, hair']

theorem mem_renderChunk (registry : BlockRegistry) (coord : ivec2) (chunk : Chunk)
    (d : World.DrawQuadCall) :
    d ∈ World.renderChunk registry coord chunk
      ↔ ∃ lx ly, ((0 ≤ lx ∧ lx < 16) ∧ (0 ≤ ly ∧ ly < 16))
          ∧ chunk.GetBlock lx ly ≠ BLOCK_AIR
          ∧ ∃ block, registry (chunk.GetBlock lx ly) = some block
            ∧ d = roundedDraw coord lx ly block := by
  unfold World.renderChunk
  simp only [List.mem_flatMap, List.mem_filterMap, mem_loopValues, renderCell_eq_some,
    CHUNK_SIZE]
  constructor
  · rintro ⟨ly, hly, lx, hlx, h⟩
    exact ⟨lx, ly, ⟨⟨hlx.1, by omega⟩, ⟨hly.1, by omega⟩⟩, h⟩
  · rintro ⟨lx, ly, ⟨hlx, hly⟩, h⟩
    exact ⟨ly, ⟨hly.1, by omega⟩, lx, ⟨hlx.1, by omega⟩, h⟩

theorem mem_entries_iff_findChunk (w : World) (c : ivec2) (chunk : Chunk) :
    (⟨c, chunk⟩ : Sigma (fun _ : ivec2 => Chunk)) ∈ w.m_Chunks.entries
      ↔ w.findChunk c = some chunk :=
  (AList.mem_lookup_iff (s := w.m_Chunks)).symm

/-- The draw calls of `Render`: one for each in-bounds cell of a loaded chunk that holds a
non-air, registered block id. -/
theorem mem_Render_draws (registry : BlockRegistry) (w : World) (d : World.DrawQuadCall) :
    d ∈ (World.Render registry w).2
      ↔ ∃ c chunk lx ly, w.findChunk c = some chunk
          ∧ ((0 ≤ lx ∧ lx < 16) ∧ (0 ≤ ly ∧ ly < 16))
          ∧ chunk.GetBlock lx ly ≠ BLOCK_AIR
          ∧ ∃ block, registry (chunk.GetBlock lx ly) = some block
            ∧ d = roundedDraw c lx ly block := by
  unfold World.Render
  simp only [List.mem_flatMap, mem_renderChunk]
  constructor
  · rintro ⟨⟨c, chunk⟩, he, lx, ly, h⟩
    exact ⟨c, chunk, lx, ly, (mem_entries_iff_findChunk w c chunk).mp he, h⟩
  · rintro ⟨c, chunk, lx, ly, hf, h⟩
    exact ⟨⟨c, chunk⟩, (mem_entries_iff_findChunk w c chunk).mpr hf, lx, ly, h⟩

theorem Render_find (registry : BlockRegistry) (w : World) (c : ivec2) :
    (World.Render registry w).1.findChunk c = (w.findChunk c).map Chunk.ClearDirty := by
  show List.dlookup c (List.map (fun e => (⟨e.1, e.2.ClearDirty⟩ : Sigma (fun _ : ivec2 => Chunk)))
    w.m_Chunks.entries) = Option.map Chunk.ClearDirty (List.dlookup c w.m_Chunks.entries)
  exact List.dlookup_map₂ (γ := fun _ => Chunk) (δ := fun _ => Chunk)
    (f := fun _ ch => Chunk.ClearDirty ch) c

theorem Render_mem (registry : BlockRegistry) (w : World) (c : ivec2) :
    c ∈ (World.Render registry w).1.m_Chunks ↔ c ∈ w.m_Chunks := by
  rw [← findChunk_isSome, ← findChunk_isSome, Render_find, Option.isSome_map']

theorem Render_GetBlock (registry : BlockRegistry) (w : World) (x y : Int) :
    (World.Render registry w).1.GetBlock x y = w.GetBlock x y := by
  cases h : w.findChunk (World.WorldToChunk x y) with
  | none =>
    have h' : (World.Render registry w).1.findChunk (World.WorldToChunk x y) = none := by
      rw [Render_find, h]; rfl
    rw [GetBlock_of_find_none h, GetBlock_of_find_none h']
  | some chunk =>
    have h' : (World.Render registry w).1.findChunk (World.WorldToChunk x y)
        = some chunk.ClearDirty := by
      rw [Render_find, h]; rfl
    rw [GetBlock_of_find h, GetBlock_of_find h']
    rfl

/-- The exact world position of a cell determines the chunk coordinate and the local cell. -/
theorem cell_of_position {c c' : ivec2} {lx ly lx' ly' : Int}
    (h : (0 ≤ lx ∧ lx < 16) ∧ (0 ≤ ly ∧ ly < 16))
    (h' : (0 ≤ lx' ∧ lx' < 16) ∧ (0 ≤ ly' ∧ ly' < 16))
    (he : ((((16 * c.1 + lx : Int) : ℚ), ((16 * c.2 + ly : Int) : ℚ)) : ℚ × ℚ)
      = (((16 * c'.1 + lx' : Int) : ℚ), ((16 * c'.2 + ly' : Int) : ℚ))) :
    c = c' ∧ lx = lx' ∧ ly = ly' := by
  simp only [Prod.mk.injEq, Int.cast_inj] at he
  refine ⟨Prod.ext ?_ ?_, ?_, ?_⟩ <;> omega

theorem tag_of_mem {registry : BlockRegistry} {c : ivec2} {chunk : Chunk} {lx ly : Int}
    {p : ivec2 × Int × Int}
    (h : p ∈ ((World.renderCell registry c chunk lx ly).map
      (fun d => ((c, lx, ly), d))).map Prod.fst) : p = (c, lx, ly) := by
  rw [Option.mem_def, Option.map_map, Option.map_eq_some'] at h
  obtain ⟨d, _, rfl⟩ := h
  rfl

/-- The draw calls of `Render`, each tagged with the cell whose loop iteration issued it: no
cell occurs twice, and the tagged cells are the in-bounds cells of loaded chunks for which the
loop body issues a draw call. -/
theorem Render_tagged (registry : BlockRegistry) (w : World) :
    ∃ tagged : List ((ivec2 × Int × Int) × World.DrawQuadCall),
      (World.Render registry w).2 = tagged.map Prod.snd
        ∧ (tagged.map Prod.fst).Nodup
        ∧ ∀ t, t ∈ tagged ↔ ∃ chunk, w.findChunk t.1.1 = some chunk
            ∧ ((0 ≤ t.1.2.1 ∧ t.1.2.1 < 16) ∧ (0 ≤ t.1.2.2 ∧ t.1.2.2 < 16))
            ∧ World.renderCell registry t.1.1 chunk t.1.2.1 t.1.2.2 = some t.2 := by
  refine ⟨w.m_Chunks.entries.flatMap (fun e =>
      (World.loopValues 0 (CHUNK_SIZE - 1)).flatMap (fun localY =>
        (World.loopValues 0 (CHUNK_SIZE - 1)).filterMap (fun localX =>
          (World.renderCell registry e.1 e.2 localX localY).map
            (fun d => ((e.1, localX, localY), d))))), ?_, ?_, ?_⟩
  · unfold World.Render World.renderChunk
    simp only [List.map_flatMap, List.map_filterMap, Option.map_map]
    simp [Function.comp_def]
  · rw [List.map_flatMap, List.nodup_flatMap]
    constructor
    · intro e _
      rw [List.map_flatMap, List.nodup_flatMap]
      constructor
      · intro ly _
        rw [List.map_filterMap]
        apply List.Nodup.filterMap _ (loopValues_nodup _ _)
        intro a a' p hp hp'
        have h1 := tag_of_mem hp
        have h2 := tag_of_mem hp'
        rw [h1, Prod.mk.injEq] at h2
        exact (Prod.mk.inj h2.2).1
      · apply List.Pairwise.imp _ (loopValues_nodup 0 (CHUNK_SIZE - 1))
        intro ly ly' hne p hp hp'
        dsimp only at hp hp'
        rw [List.map_filterMap, List.mem_filterMap] at hp hp'
        obtain ⟨a, _, ha⟩ := hp
        obtain ⟨a', _, ha'⟩ := hp'
        have h1 := tag_of_mem (Option.mem_def.mpr ha)
        have h2 := tag_of_mem (Option.mem_def.mpr ha')
        rw [h1, Prod.mk.injEq] at h2
        exact hne (Prod.mk.inj h2.2).2
    · apply List.Pairwise.imp _ (List.nodupKeys_iff_pairwise.mp w.m_Chunks.nodupKeys)
      intro e e' hne p hp hp'
      dsimp only at hp hp'
      rw [List.map_flatMap, List.mem_flatMap] at hp hp'
      obtain ⟨ly, _, hp⟩ := hp
      obtain ⟨ly', _, hp'⟩ := hp'
      rw [List.map_filterMap, List.mem_filterMap] at hp hp'
      obtain ⟨a, _, ha⟩ := hp
      obtain ⟨a', _, ha'⟩ := hp'
      have h1 := tag_of_mem (Option.mem_def.mpr ha)
      have h2 := tag_of_mem (Option.mem_def.mpr ha')
      rw [h1, Prod.mk.injEq] at h2
      exact hne h2.1
  · intro t
    obtain ⟨⟨c0, lx0, ly0⟩, d0⟩ := t
    simp only [List.mem_flatMap, List.mem_filterMap, mem_loopValues, Option.map_eq_some',
      CHUNK_SIZE, Prod.mk.injEq]
    constructor
    · rintro ⟨⟨c, chunk⟩, he, ly, hly, lx, hlx, d, hd, ⟨rfl, rfl, rfl⟩, rfl⟩
      exact ⟨chunk, (mem_entries_iff_findChunk w c chunk).mp he,
        ⟨⟨hlx.1, by omega⟩, ⟨hly.1, by omega⟩⟩, hd⟩
    · rintro ⟨chunk, hf, ⟨hlx, hly⟩, hd⟩
      exact ⟨⟨c0, chunk⟩, (mem_entries_iff_findChunk w c0 chunk).mpr hf, ly0,
        ⟨hly.1, by omega⟩, lx0, ⟨hlx.1, by omega⟩, d0, hd, ⟨rfl, rfl, rfl⟩, rfl⟩

/-- The draw calls of `Render` correspond one to one, in order, to the in-bounds cells of
loaded chunks that hold a non-air registered id: there is a duplicate-free list of exactly
these cells whose `k`-th cell issued the `k`-th draw call. -/
theorem Render_one_draw_per_cell (registry : BlockRegistry) (w : World) :
    ∃ cells : List (ivec2 × Int × Int), cells.Nodup
      ∧ (∀ cell, cell ∈ cells ↔ ∃ chunk, w.findChunk cell.1 = some chunk
          ∧ ((0 ≤ cell.2.1 ∧ cell.2.1 < 16) ∧ (0 ≤ cell.2.2 ∧ cell.2.2 < 16))
          ∧ chunk.GetBlock cell.2.1 cell.2.2 ≠ BLOCK_AIR
          ∧ (BlockRegistry.GetBlock registry (chunk.GetBlock cell.2.1 cell.2.2)).isSome = true)
      ∧ List.Forall₂ (fun cell d => ∃ chunk block, w.findChunk cell.1 = some chunk
          ∧ BlockRegistry.GetBlock registry (chunk.GetBlock cell.2.1 cell.2.2) = some block
          ∧ d = roundedDraw cell.1 cell.2.1 cell.2.2 block) cells (World.Render registry w).2 := by
  obtain ⟨tagged, hdraws, hnodup, hmem⟩ := Render_tagged registry w
  refine ⟨tagged.map Prod.fst, hnodup, ?_, ?_⟩
  · intro cell
    rw [List.mem_map]
    constructor
    · rintro ⟨t, ht, rfl⟩
      obtain ⟨chunk, hf, hl, hd⟩ := (hmem t).mp ht
      obtain ⟨hair, block, hb, _⟩ := (renderCell_eq_some registry _ chunk _ _ _).mp hd
      exact ⟨chunk, hf, hl, hair, Option.isSome_iff_exists.mpr ⟨block, hb⟩⟩
    · rintro ⟨chunk, hf, hl, hair, hreg⟩
      obtain ⟨block, hb⟩ := Option.isSome_iff_exists.mp hreg
      exact ⟨(cell, roundedDraw cell.1 cell.2.1 cell.2.2 block),
        (hmem _).mpr ⟨chunk, hf, hl,
          (renderCell_eq_some registry _ chunk _ _ _).mpr ⟨hair, block, hb, rfl⟩⟩, rfl⟩
  · rw [hdraws, List.forall₂_map_left_iff, List.forall₂_map_right_iff, List.forall₂_same]
    intro t ht
    obtain ⟨chunk, hf, _, hd⟩ := (hmem t).mp ht
    obtain ⟨_, block, hb, hdb⟩ := (renderCell_eq_some registry _ chunk _ _ _).mp hd
    exact ⟨chunk, block, hf, hb, hdb⟩

/-- While every loaded chunk coordinate lies in `[-2^20, 2^20)`, so that every world coordinate
of a loaded cell has magnitude at most `2^24`, no two draw calls of one `Render` have the same
position. -/
theorem Render_positions_nodup (registry : BlockRegistry) (w : World)
    (hrange : ∀ c ∈ w.m_Chunks, (-2 ^ 20 ≤ c.1 ∧ c.1 < 2 ^ 20) ∧ (-2 ^ 20 ≤ c.2 ∧ c.2 < 2 ^ 20)) :
    ((World.Render registry w).2.map (fun d => d.position)).Nodup := by
  obtain ⟨tagged, hdraws, hnodup, hmem⟩ := Render_tagged registry w
  rw [hdraws, List.map_map]
  apply List.Nodup.map_on _ (List.Nodup.of_map _ hnodup)
  intro t ht t' ht' hpos
  obtain ⟨chunk, hf, hl, hd⟩ := (hmem t).mp ht
  obtain ⟨chunk', hf', hl', hd'⟩ := (hmem t').mp ht'
  obtain ⟨_, block, _, hdb⟩ := (renderCell_eq_some registry _ chunk _ _ _).mp hd
  obtain ⟨_, block', _, hdb'⟩ := (renderCell_eq_some registry _ chunk' _ _ _).mp hd'
  rw [roundedDraw_eq_expectedDraw _ _ _ _ (hrange _ (mem_of_findChunk hf)) hl] at hdb
  rw [roundedDraw_eq_expectedDraw _ _ _ _ (hrange _ (mem_of_findChunk hf')) hl'] at hdb'
  obtain ⟨⟨c, lx, ly⟩, d⟩ := t
  obtain ⟨⟨c', lx', ly'⟩, d'⟩ := t'
  dsimp only [Function.comp] at hpos hdb hdb' hf hf' hd hd' hl hl'
  rw [hdb, hdb'] at hpos
  unfold expectedDraw at hpos
  obtain ⟨rfl, rfl, rfl⟩ := cell_of_position hl hl' hpos
  rw [hf] at hf'
  obtain rfl := Option.some.inj hf'
  rw [hd] at hd'
  rw [Option.some.inj hd']

/-- The draw calls at the exact position of one in-bounds cell of a loaded chunk, while every
loaded chunk coordinate lies in `[-2^20, 2^20)`: one when the cell holds a non-air registered
id, none otherwise. -/
theorem Render_count_at_cell (registry : BlockRegistry) (w : World)
    (hrange : ∀ c ∈ w.m_Chunks, (-2 ^ 20 ≤ c.1 ∧ c.1 < 2 ^ 20) ∧ (-2 ^ 20 ≤ c.2 ∧ c.2 < 2 ^ 20))
    {c : ivec2} {chunk : Chunk}
    {lx ly : Int} (hf : w.findChunk c = some chunk)
    (hl : (0 ≤ lx ∧ lx < 16) ∧ (0 ≤ ly ∧ ly < 16)) :
    (World.Render registry w).2.countP (fun d => decide
        (d.position = (((16 * c.1 + lx : Int) : ℚ), ((16 * c.2 + ly : Int) : ℚ))))
      = if chunk.GetBlock lx ly ≠ BLOCK_AIR ∧ (registry (chunk.GetBlock lx ly)).isSome then 1
        else 0 := by
  have hcount : (World.Render registry w).2.countP (fun d => decide
        (d.position = (((16 * c.1 + lx : Int) : ℚ), ((16 * c.2 + ly : Int) : ℚ))))
      = @List.count (ℚ × ℚ) instBEqOfDecidableEq
          (((16 * c.1 + lx : Int) : ℚ), ((16 * c.2 + ly : Int) : ℚ))
          ((World.Render registry w).2.map (fun d => d.position)) := by
    unfold List.count
    rw [List.countP_map]
    rfl
  rw [hcount]
  by_cases hcond : chunk.GetBlock lx ly ≠ BLOCK_AIR ∧ (registry (chunk.GetBlock lx ly)).isSome
  · rw [if_pos hcond]
    obtain ⟨block, hb⟩ := Option.isSome_iff_exists.mp hcond.2
    apply List.count_eq_one_of_mem (Render_positions_nodup registry w hrange)
    rw [List.mem_map]
    refine ⟨roundedDraw c lx ly block,
      (mem_Render_draws registry w _).mpr ⟨c, chunk, lx, ly, hf, hl, hcond.1, block, hb, rfl⟩, ?_⟩
    rw [roundedDraw_eq_expectedDraw _ _ _ _ (hrange _ (mem_of_findChunk hf)) hl]
    rfl
  · rw [if_neg hcond]
    refine @List.count_eq_zero_of_not_mem (ℚ × ℚ) instBEqOfDecidableEq instLawfulBEq _ _ ?_
    intro hmem
    rw [List.mem_map] at hmem
    obtain ⟨d, hd, hp⟩ := hmem
    obtain ⟨c', chunk', lx', ly', hf', hl', hair, block, hb, rfl⟩ :=
      (mem_Render_draws registry w d).mp hd
    rw [roundedDraw_eq_expectedDraw _ _ _ _ (hrange _ (mem_of_findChunk hf')) hl'] at hp
    unfold expectedDraw at hp
    obtain ⟨rfl, rfl, rfl⟩ := cell_of_position hl' hl hp
    rw [hf] at hf'
    obtain rfl := Option.some.inj hf'
    exact hcond ⟨hair, by rw [hb]; rfl⟩

theorem Init_unregistered (s : BlockRegistry) (id : BlockID) (h : 5 < id.val) :
    BlockRegistry.Init s id = none := by
  have hne : ∀ k : BlockID, k.val ≤ 5 → id ≠ k := fun k hk he => by
    rw [he] at h
    omega
  simp only [BlockRegistry.Init, BlockRegistry.RegisterDefaultBlocks,
    BlockRegistry.RegisterBlock, BlockRegistry.cleared]
  rw [if_neg (hne BLOCK_SAND (by decide)), if_neg (hne BLOCK_WOOD (by decide)),
    if_neg (hne BLOCK_GRASS (by decide)), if_neg (hne BLOCK_DIRT (by decide)),
    if_neg (hne BLOCK_STONE (by decide)), if_neg (hne BLOCK_AIR (by decide))]

/-- C14: a newly constructed chunk is dirty, and so is a chunk just created by
`GetOrCreateChunk`, after its terrain generation; after one `Render` every loaded chunk is not
dirty, and `Render` changes nothing else: each loaded chunk is the chunk it was with the flag
cleared, so the loaded set, its size, the radius and every block are as before. -/
theorem dirty_flag_life_cycle (height : Int → Int) (registry : BlockRegistry) (w : World)
    (cx cy : Int) (c : ivec2) :
    (Chunk.new cx cy).IsDirty = true
      ∧ ((cx, cy) ∉ w.m_Chunks
          → (World.GetOrCreateChunk height w cx cy).1.findChunk (cx, cy)
              = some (World.GetOrCreateChunk height w cx cy).2
            ∧ (World.GetOrCreateChunk height w cx cy).2.IsDirty = true)
      ∧ (∀ chunk, (World.Render registry w).1.findChunk c = some chunk → chunk.IsDirty = false)
      ∧ (World.Render registry w).1.findChunk c = (w.findChunk c).map Chunk.ClearDirty
      ∧ (∀ chunk x y, (Chunk.ClearDirty chunk).GetBlock x y = chunk.GetBlock x y
          ∧ (Chunk.ClearDirty chunk).GetChunkCoord = chunk.GetChunkCoord)
      ∧ (c ∈ (World.Render registry w).1.m_Chunks ↔ c ∈ w.m_Chunks)
      ∧ (World.Render registry w).1.GetLoadedChunkCount = w.GetLoadedChunkCount
      ∧ (World.Render registry w).1.GetLoadRadius = w.GetLoadRadius
      ∧ (∀ x y, (World.Render registry w).1.GetBlock x y = w.GetBlock x y) := by
  refine ⟨rfl, ?_, ?_, Render_find registry w c, fun _ _ _ => ⟨rfl, rfl⟩,
    Render_mem registry w c, ?_, rfl, Render_GetBlock registry w⟩
  · intro hnew
    refine ⟨GetOrCreateChunk_find height w cx cy, ?_⟩
    rw [(GetOrCreateChunk_created height hnew).1]
    exact GenerateChunk_dirty height _ rfl
  · intro chunk hchunk
    rw [Render_find] at hchunk
    cases hw : w.findChunk c with
    | none => rw [hw] at hchunk; exact absurd hchunk (by simp)
    | some old =>
      rw [hw] at hchunk
      obtain rfl := Option.some.inj hchunk
      rfl
  · exact count_congr (Render_mem registry w)

/-- While every loaded chunk coordinate lies in `[-2^20, 2^20)`, no draw call is issued at the
exact position of an in-bounds cell of a loaded chunk that holds air or an unregistered id. -/
theorem Render_no_draw_at (registry : BlockRegistry) (w : World)
    (hrange : ∀ c ∈ w.m_Chunks, (-2 ^ 20 ≤ c.1 ∧ c.1 < 2 ^ 20) ∧ (-2 ^ 20 ≤ c.2 ∧ c.2 < 2 ^ 20))
    {c : ivec2} {chunk : Chunk}
    {lx ly : Int} (hf : w.findChunk c = some chunk)
    (hl : (0 ≤ lx ∧ lx < 16) ∧ (0 ≤ ly ∧ ly < 16))
    (h : chunk.GetBlock lx ly = BLOCK_AIR ∨ registry (chunk.GetBlock lx ly) = none)
    (d : World.DrawQuadCall) (hd : d ∈ (World.Render registry w).2) :
    d.position ≠ (((16 * c.1 + lx : Int) : ℚ), ((16 * c.2 + ly : Int) : ℚ)) := by
  intro hp
  obtain ⟨c', chunk', lx', ly', hf', hl', hair, block, hb, rfl⟩ :=
    (mem_Render_draws registry w d).mp hd
  rw [roundedDraw_eq_expectedDraw _ _ _ _ (hrange _ (mem_of_findChunk hf')) hl'] at hp
  unfold expectedDraw at hp
  obtain ⟨rfl, rfl, rfl⟩ := cell_of_position hl' hl hp
  rw [hf] at hf'
  obtain rfl := Option.some.inj hf'
  rcases h with h | h
  · exact hair h
  · rw [h] at hb
    exact absurd hb (by simp)

/-- C18 (as amended): `Render` issues a draw call exactly for the in-bounds cells of loaded
chunks that hold a non-air id registered in the `BlockRegistry`, one call for each such cell
(the calls correspond one to one, in order, to a duplicate-free list of exactly these cells),
at the position `((float)(16*cx + lx), (float)(16*cy + ly))` with the registered block's texture
and colour.  The conversion to `float` is exact while every loaded chunk coordinate lies in
`[-2^20, 2^20)`: there the position is `(16*cx + lx, 16*cy + ly)`, no two draw calls share a
position, each such cell has exactly one draw call at its position, and an air cell and a cell
whose id is not registered have none.  Beyond `2^24` the conversion rounds: `2^24 + 1` and
`2^24` give the same `float`, so the cells `lx = 1` and `lx = 0` of a row of a chunk with
`cx = 2^20` are drawn at the same position; `2^24 + 3` becomes `2^24 + 4`, `2^25 + 1` becomes
`2^25` and `-(2^25 + 3)` becomes `-(2^25 + 4)`. -/
theorem Render_draws_registered_cells (registry : BlockRegistry) (w : World)
    (d : World.DrawQuadCall) (c : ivec2) (chunk : Chunk) (lx ly : Int) (block : Block) :
    (d ∈ (World.Render registry w).2
        ↔ ∃ c chunk lx ly, w.findChunk c = some chunk
          ∧ ((0 ≤ lx ∧ lx < 16) ∧ (0 ≤ ly ∧ ly < 16))
          ∧ chunk.GetBlock lx ly ≠ BLOCK_AIR
          ∧ ∃ block, BlockRegistry.GetBlock registry (chunk.GetBlock lx ly) = some block
            ∧ d = roundedDraw c lx ly block)
      ∧ (∃ cells : List (ivec2 × Int × Int), cells.Nodup
          ∧ (∀ cell, cell ∈ cells ↔ ∃ chunk, w.findChunk cell.1 = some chunk
              ∧ ((0 ≤ cell.2.1 ∧ cell.2.1 < 16) ∧ (0 ≤ cell.2.2 ∧ cell.2.2 < 16))
              ∧ chunk.GetBlock cell.2.1 cell.2.2 ≠ BLOCK_AIR
              ∧ (BlockRegistry.GetBlock registry
                  (chunk.GetBlock cell.2.1 cell.2.2)).isSome = true)
          ∧ List.Forall₂ (fun cell d => ∃ chunk block, w.findChunk cell.1 = some chunk
              ∧ BlockRegistry.GetBlock registry (chunk.GetBlock cell.2.1 cell.2.2) = some block
              ∧ d = roundedDraw cell.1 cell.2.1 cell.2.2 block)
            cells (World.Render registry w).2)
      ∧ ((roundedDraw c lx ly block).position
            = (World.intToFloat (16 * c.1 + lx), World.intToFloat (16 * c.2 + ly))
          ∧ (roundedDraw c lx ly block).texture = block.GetProperties.Texture
          ∧ (roundedDraw c lx ly block).color = block.GetProperties.Color)
      ∧ ((-2 ^ 20 ≤ c.1 ∧ c.1 < 2 ^ 20) ∧ (-2 ^ 20 ≤ c.2 ∧ c.2 < 2 ^ 20)
          → ((0 ≤ lx ∧ lx < 16) ∧ (0 ≤ ly ∧ ly < 16))
          → (roundedDraw c lx ly block).position
              = (((16 * c.1 + lx : Int) : ℚ), ((16 * c.2 + ly : Int) : ℚ)))
      ∧ ((∀ c' ∈ w.m_Chunks,
            (-2 ^ 20 ≤ c'.1 ∧ c'.1 < 2 ^ 20) ∧ (-2 ^ 20 ≤ c'.2 ∧ c'.2 < 2 ^ 20))
          → ((World.Render registry w).2.map (fun d => d.position)).Nodup
            ∧ (w.findChunk c = some chunk → ((0 ≤ lx ∧ lx < 16) ∧ (0 ≤ ly ∧ ly < 16))
              → (World.Render registry w).2.countP (fun d => decide
                    (d.position = (((16 * c.1 + lx : Int) : ℚ), ((16 * c.2 + ly : Int) : ℚ))))
                  = if chunk.GetBlock lx ly ≠ BLOCK_AIR
                        ∧ (BlockRegistry.GetBlock registry (chunk.GetBlock lx ly)).isSome then 1
                    else 0)
            ∧ (w.findChunk c = some chunk → ((0 ≤ lx ∧ lx < 16) ∧ (0 ≤ ly ∧ ly < 16))
              → chunk.GetBlock lx ly = BLOCK_AIR
                  ∨ BlockRegistry.GetBlock registry (chunk.GetBlock lx ly) = none
              → ∀ d' ∈ (World.Render registry w).2,
                  d'.position ≠ (((16 * c.1 + lx : Int) : ℚ), ((16 * c.2 + ly : Int) : ℚ))))
      ∧ World.intToFloat (2 ^ 24 + 1) = World.intToFloat (2 ^ 24)
      ∧ (roundedDraw (2 ^ 20, c.2) 1 ly block).position
          = (roundedDraw (2 ^ 20, c.2) 0 ly block).position
      ∧ (World.intToFloat (2 ^ 24 + 3) = 2 ^ 24 + 4
          ∧ World.intToFloat (2 ^ 25 + 1) = 2 ^ 25
          ∧ World.intToFloat (-(2 ^ 25 + 3)) = -(2 ^ 25 + 4)) := by
  have hround : World.intToFloat (2 ^ 24 + 1) = World.intToFloat (2 ^ 24) := by
    rw [intToFloat_rounding.1, intToFloat_exact (v := 2 ^ 24) (by norm_num)]
    norm_num
  refine ⟨mem_Render_draws registry w d, Render_one_draw_per_cell registry w, ⟨rfl, rfl, rfl⟩,
    ?_, ?_, hround, ?_, intToFloat_rounding.2⟩
  · intro hc hl
    rw [roundedDraw_eq_expectedDraw c lx ly block hc hl]
    rfl
  · intro hrange
    exact ⟨Render_positions_nodup registry w hrange,
      fun hf hl => Render_count_at_cell registry w hrange hf hl,
      fun hf hl h => Render_no_draw_at registry w hrange hf hl h⟩
  · unfold roundedDraw
    have e1 : (16 * (2 ^ 20 : Int) + 1) = 2 ^ 24 + 1 := by norm_num
    have e2 : (16 * (2 ^ 20 : Int) + 0) = 2 ^ 24 := by norm_num
    show (World.intToFloat (16 * 2 ^ 20 + 1), World.intToFloat (16 * c.2 + ly))
      = (World.intToFloat (16 * 2 ^ 20 + 0), World.intToFloat (16 * c.2 + ly))
    rw [e1, e2, hround]

/-- A non-air cell without a draw call: after `BlockRegistry::Init` and `SetBlock(0, 0, 6)` on a
fresh world, cell `(0, 0)` of the loaded chunk `(0, 0)` holds id 6, not air, and `Render` issues no
draw call at world position `(0, 0)`. -/
theorem Render_skips_unregistered_id :
    ∃ chunk, (World.SetBlock (fun _ => 10) World.new 0 0 6).findChunk (0, 0) = some chunk
      ∧ chunk.GetBlock 0 0 = 6
      ∧ chunk.GetBlock 0 0 ≠ BLOCK_AIR
      ∧ ∀ d ∈ (World.Render (BlockRegistry.Init BlockRegistry.cleared)
            (World.SetBlock (fun _ => 10) World.new 0 0 6)).2, d.position ≠ (0, 0) := by
  have hc : World.WorldToChunk 0 0 = (0, 0) := by rw [WorldToChunk_eq]; decide
  have hloc : World.WorldToLocal 0 0 = (0, 0) := by rw [WorldToLocal_eq]; decide
  have hfind := SetBlock_find (fun _ => 10) World.new 0 0 6
  rw [hc, hloc] at hfind
  have hcell : ∀ c : Chunk, (c.SetBlock 0 0 6).GetBlock 0 0 = 6 :=
    fun c => Chunk.GetBlock_SetBlock_same c 0 0 6 (by decide)
  have hrange : ∀ c ∈ (World.SetBlock (fun _ => 10) World.new 0 0 6).m_Chunks,
      (-2 ^ 20 ≤ c.1 ∧ c.1 < 2 ^ 20) ∧ (-2 ^ 20 ≤ c.2 ∧ c.2 < 2 ^ 20) := by
    intro c hmem
    rw [SetBlock_mem, hc] at hmem
    rcases hmem with rfl | hmem
    · decide
    · exact absurd hmem (AList.not_mem_empty _)
  refine ⟨_, hfind, hcell _, ?_, ?_⟩
  · rw [hcell]; decide
  · intro d hd
    have h := Render_no_draw_at (BlockRegistry.Init BlockRegistry.cleared) _ hrange hfind
      (show ((0 : Int) ≤ 0 ∧ (0 : Int) < 16) ∧ ((0 : Int) ≤ 0 ∧ (0 : Int) < 16) by decide)
      (Or.inr (by rw [hcell]; exact Init_unregistered _ 6 (by decide))) d hd
    simpa using h

/-! ## Determinism of the terrain and untouched chunks -/

/-- A read at world cell `(x, y)` right after its chunk was created gives the terrain block of
`(x, y)`. -/
theorem GetBlock_created (height : Int → Int) {w : World} {x y : Int}
    (h : World.WorldToChunk x y ∉ w.m_Chunks) :
    (World.GetOrCreateChunk height w (World.WorldToChunk x y).1
        (World.WorldToChunk x y).2).1.GetBlock x y = World.terrainBlock (height x) y := by
  have hfind := (@GetOrCreateChunk_created height w (World.WorldToChunk x y).1
    (World.WorldToChunk x y).2 h).2
  rw [Prod.mk.eta] at hfind
  rw [GetBlock_of_find hfind, GenerateChunk_GetBlock height _ (WorldToLocal_valid x y)]
  show World.terrainBlock (height ((World.WorldToChunk x y).1 * 16 + (World.WorldToLocal x y).1))
    ((World.WorldToChunk x y).2 * 16 + (World.WorldToLocal x y).2) = _
  rw [WorldToChunk_eq, WorldToLocal_eq]
  have e1 : x / 16 * 16 + x % 16 = x := by omega
  have e2 : y / 16 * 16 + y % 16 = y := by omega
  rw [e1, e2]

theorem UnloadChunk_not_mem (w : World) (cx cy : Int) :
    (cx, cy) ∉ (World.UnloadChunk w cx cy).m_Chunks := by
  rw [UnloadChunk_mem]
  exact fun h => h.1 rfl

/-- C17: two chunks created at the same coordinate, in any two world states, are identical,
cell for cell; a chunk that is evicted and created again is the generated terrain of its
coordinate, whatever `SetBlock` wrote into it before the eviction. -/
theorem terrain_generation_deterministic (height : Int → Int) (w₁ w₂ w : World)
    (cx cy x y : Int) (blockID : BlockID)
    (h₁ : (cx, cy) ∉ w₁.m_Chunks) (h₂ : (cx, cy) ∉ w₂.m_Chunks) :
    (World.GetOrCreateChunk height w₁ cx cy).2 = (World.GetOrCreateChunk height w₂ cx cy).2
      ∧ (∀ lx ly, (World.GetOrCreateChunk height w₁ cx cy).2.GetBlock lx ly
          = (World.GetOrCreateChunk height w₂ cx cy).2.GetBlock lx ly)
      ∧ (World.GetOrCreateChunk height
            (World.UnloadChunk (World.SetBlock height w x y blockID)
              (World.WorldToChunk x y).1 (World.WorldToChunk x y).2)
            (World.WorldToChunk x y).1 (World.WorldToChunk x y).2).2
          = World.GenerateChunk height
              (Chunk.new (World.WorldToChunk x y).1 (World.WorldToChunk x y).2)
      ∧ (World.GetOrCreateChunk height
            (World.UnloadChunk (World.SetBlock height w x y blockID)
              (World.WorldToChunk x y).1 (World.WorldToChunk x y).2)
            (World.WorldToChunk x y).1 (World.WorldToChunk x y).2).1.GetBlock x y
          = World.terrainBlock (height x) y := by
  have e₁ := (GetOrCreateChunk_created height h₁).1
  have e₂ := (GetOrCreateChunk_created height h₂).1
  have hev := UnloadChunk_not_mem (World.SetBlock height w x y blockID)
    (World.WorldToChunk x y).1 (World.WorldToChunk x y).2
  refine ⟨e₁.trans e₂.symm, fun lx ly => by rw [e₁, e₂],
    (GetOrCreateChunk_created height hev).1, ?_⟩
  rw [Prod.mk.eta] at hev
  exact GetBlock_created height hev

/-- The equality of C17 for chunk `(2, -1)` created in a fresh world and in a world that holds
chunk `(0, 0)`. -/
theorem terrain_generation_deterministic_witness :
    ((2, -1) : ivec2) ∉ World.new.m_Chunks
      ∧ ((2, -1) : ivec2) ∉ (World.SetBlock (fun _ => 10) World.new 3 5 BLOCK_WOOD).m_Chunks
      ∧ (World.GetOrCreateChunk (fun _ => 10) World.new 2 (-1)).2
          = (World.GetOrCreateChunk (fun _ => 10)
              (World.SetBlock (fun _ => 10) World.new 3 5 BLOCK_WOOD) 2 (-1)).2 :=
  have hc : World.WorldToChunk 3 5 = (0, 0) := by rw [WorldToChunk_eq]; decide
  have h₂ : ((2, -1) : ivec2) ∉ (World.SetBlock (fun _ => 10) World.new 3 5 BLOCK_WOOD).m_Chunks :=
    fun h => by
      rw [SetBlock_mem, hc] at h
      rcases h with h | h
      · exact absurd h (by decide)
      · exact AList.not_mem_empty _ h
  ⟨AList.not_mem_empty _, h₂,
    (terrain_generation_deterministic (fun _ => 10) World.new _ World.new 2 (-1) 0 0 BLOCK_AIR
      (AList.not_mem_empty _) h₂).1⟩

theorem GetOrCreateChunk_find_of_mem (height : Int → Int) {w : World} (cx cy : Int) {c : ivec2}
    (hc : c ∈ w.m_Chunks) :
    (World.GetOrCreateChunk height w cx cy).1.findChunk c = w.findChunk c := by
  by_cases h : (cx, cy) ∈ w.m_Chunks
  · rw [GetOrCreateChunk_of_mem h]
  · rw [GetOrCreateChunk_of_not_mem h]
    generalize World.GenerateChunk height (Chunk.new cx cy) = chunk
    have hne : c ≠ (cx, cy) := fun e => h (e ▸ hc)
    exact findChunk_insert_ne w.m_Chunks w.m_LoadRadius chunk hne

/-- A loop whose body keeps every loaded chunk as it is keeps every loaded chunk as it is. -/
theorem foldl_find_of_mem {α : Type} (f : World → α → World)
    (hf : ∀ w a c, c ∈ w.m_Chunks → (f w a).findChunk c = w.findChunk c) (l : List α)
    (w : World) {c : ivec2} (hc : c ∈ w.m_Chunks) :
    (l.foldl f w).findChunk c = w.findChunk c := by
  induction l generalizing w with
  | nil => rfl
  | cons a l ih =>
    have h1 := hf w a c hc
    have hc' : c ∈ (f w a).m_Chunks := by
      rw [← findChunk_isSome, h1, findChunk_isSome]
      exact hc
    rw [List.foldl_cons, ih (f w a) hc', h1]

theorem LoadChunksAroundPlayer_find (height : Int → Int) (w : World) (pos : ℚ × ℚ) {c : ivec2}
    (hc : c ∈ w.m_Chunks) :
    (World.LoadChunksAroundPlayer height w pos).findChunk c = w.findChunk c := by
  unfold World.LoadChunksAroundPlayer
  dsimp only
  apply foldl_find_of_mem _ _ _ _ hc
  intro w1 dy c1 hc1
  apply foldl_find_of_mem _ _ _ _ hc1
  intro w2 dx c2 hc2
  exact GetOrCreateChunk_find_of_mem height _ _ hc2

theorem UnloadChunk_find_of_mem (w : World) (cx cy : Int) {c : ivec2}
    (hc : c ∈ (World.UnloadChunk w cx cy).m_Chunks) :
    (World.UnloadChunk w cx cy).findChunk c = w.findChunk c := by
  have hne : c ≠ (cx, cy) := ((UnloadChunk_mem w cx cy c).mp hc).1
  cases h : w.findChunk (cx, cy) with
  | none => simp only [World.UnloadChunk, h]
  | some _ =>
    simp only [World.UnloadChunk, h]
    exact findChunk_erase_ne w.m_Chunks w.m_LoadRadius hne

theorem foldl_UnloadChunk_find (l : List ivec2) (w : World) {c : ivec2}
    (hc : c ∈ (l.foldl (fun w coord => World.UnloadChunk w coord.1 coord.2) w).m_Chunks) :
    (l.foldl (fun w coord => World.UnloadChunk w coord.1 coord.2) w).findChunk c
      = w.findChunk c := by
  induction l generalizing w with
  | nil => rfl
  | cons a l ih =>
    rw [List.foldl_cons] at hc ⊢
    have hc' : c ∈ (World.UnloadChunk w a.1 a.2).m_Chunks :=
      ((foldl_UnloadChunk_mem l _ c).mp hc).1
    rw [ih _ hc, UnloadChunk_find_of_mem w a.1 a.2 hc']

theorem UnloadDistantChunks_find (w : World) (pos : ℚ × ℚ) {c : ivec2}
    (hc : c ∈ (World.UnloadDistantChunks w pos).m_Chunks) :
    (World.UnloadDistantChunks w pos).findChunk c = w.findChunk c :=
  foldl_UnloadChunk_find _ w hc

/-- A chunk loaded before and after `Update` is the same chunk object with the same content. -/
theorem Update_find_of_mem (height : Int → Int) (w : World) (pos : ℚ × ℚ) {c : ivec2}
    (hc : c ∈ w.m_Chunks) (hc' : c ∈ (World.Update height w pos).m_Chunks) :
    (World.Update height w pos).findChunk c = w.findChunk c := by
  unfold World.Update at hc' ⊢
  rw [UnloadDistantChunks_find _ pos hc', LoadChunksAroundPlayer_find height w pos hc]

/-- C19: `GetOrCreateChunk` on a loaded coordinate returns the stored chunk and leaves the
world as it was (no terrain regeneration); the load pass leaves every loaded chunk as it was;
so a chunk loaded both before and after `Update(pos)` is unchanged, every cell holding the same
block id, cells written by `SetBlock` included. -/
theorem loaded_chunks_untouched (height : Int → Int) (w : World) (pos : ℚ × ℚ) (c : ivec2)
    (chunk : Chunk) (hc : w.findChunk c = some chunk) :
    World.GetOrCreateChunk height w c.1 c.2 = (w, chunk)
      ∧ (World.LoadChunksAroundPlayer height w pos).findChunk c = some chunk
      ∧ (c ∈ (World.Update height w pos).m_Chunks
          → (World.Update height w pos).findChunk c = some chunk)
      ∧ (∀ chunk', (World.Update height w pos).findChunk c = some chunk'
          → ∀ lx ly, chunk'.GetBlock lx ly = chunk.GetBlock lx ly) := by
  have hmem := mem_of_findChunk hc
  have hupd : c ∈ (World.Update height w pos).m_Chunks
      → (World.Update height w pos).findChunk c = some chunk :=
    fun h => (Update_find_of_mem height w pos hmem h).trans hc
  refine ⟨GetOrCreateChunk_of_find (by rw [Prod.mk.eta]; exact hc),
    (LoadChunksAroundPlayer_find height w pos hmem).trans hc, hupd, ?_⟩
  intro chunk' hchunk' lx ly
  have h := hupd (mem_of_findChunk hchunk')
  rw [hchunk'] at h
  rw [Option.some.inj h]

/-- C19 for the chunk `(0, 0)` that a `SetBlock(3, 5, BLOCK_WOOD)` created and wrote, across an
`Update` at `(20, 0)`: the written cell still holds `BLOCK_WOOD`. -/
theorem loaded_chunks_untouched_witness :
    ∃ chunk, (World.SetBlock (fun _ => 10) World.new 3 5 BLOCK_WOOD).findChunk (0, 0) = some chunk
      ∧ chunk.GetBlock 3 5 = BLOCK_WOOD
      ∧ (World.LoadChunksAroundPlayer (fun _ => 10)
            (World.SetBlock (fun _ => 10) World.new 3 5 BLOCK_WOOD) (20, 0)).findChunk (0, 0)
          = some chunk := by
  have hc : World.WorldToChunk 3 5 = (0, 0) := by rw [WorldToChunk_eq]; decide
  have hloc : World.WorldToLocal 3 5 = (3, 5) := by rw [WorldToLocal_eq]; decide
  have hfind := SetBlock_find (fun _ => 10) World.new 3 5 BLOCK_WOOD
  rw [hc, hloc] at hfind
  exact ⟨_, hfind, Chunk.GetBlock_SetBlock_same _ 3 5 BLOCK_WOOD (by decide),
    (loaded_chunks_untouched (fun _ => 10) _ (20, 0) (0, 0) _ hfind).2.1⟩

/-! ## The map invariant -/

theorem keysMatch_GetOrCreateChunk (height : Int → Int) {w : World} (cx cy : Int)
    (h : KeysMatch w) : KeysMatch (World.GetOrCreateChunk height w cx cy).1 := by
  by_cases hm : (cx, cy) ∈ w.m_Chunks
  · rw [GetOrCreateChunk_of_mem hm]
    exact h
  · intro c chunk hchunk
    by_cases hc : c = (cx, cy)
    · subst hc
      rw [(GetOrCreateChunk_created height hm).2] at hchunk
      rw [← Option.some.inj hchunk, GenerateChunk_coord]
      rfl
    · have hc' : c ∈ w.m_Chunks := by
        rcases (GetOrCreateChunk_mem height w cx cy c).mp (mem_of_findChunk hchunk) with e | e
        · exact absurd e hc
        · exact e
      rw [GetOrCreateChunk_find_of_mem height cx cy hc'] at hchunk
      exact h c chunk hchunk

theorem SetBlock_find_ne (height : Int → Int) (w : World) (x y : Int) (blockID : BlockID)
    {c : ivec2} (hne : c ≠ World.WorldToChunk x y) :
    (World.SetBlock height w x y blockID).findChunk c
      = (World.GetOrCreateChunk height w (World.WorldToChunk x y).1
          (World.WorldToChunk x y).2).1.findChunk c := by
  unfold World.SetBlock
  exact findChunk_insert_ne _ _ _ hne

theorem keysMatch_SetBlock (height : Int → Int) {w : World} (x y : Int) (blockID : BlockID)
    (h : KeysMatch w) : KeysMatch (World.SetBlock height w x y blockID) := by
  have h1 := keysMatch_GetOrCreateChunk height (World.WorldToChunk x y).1
    (World.WorldToChunk x y).2 h
  intro c chunk hchunk
  by_cases hc : c = World.WorldToChunk x y
  · subst hc
    rw [SetBlock_find] at hchunk
    rw [← Option.some.inj hchunk, Chunk.SetBlock_coord]
    apply h1
    have := GetOrCreateChunk_find height w (World.WorldToChunk x y).1 (World.WorldToChunk x y).2
    rw [Prod.mk.eta] at this
    exact this
  · rw [SetBlock_find_ne height w x y blockID hc] at hchunk
    exact h1 c chunk hchunk

/-- A world whose loaded chunks are all chunks of `w`, unchanged, inherits the invariant. -/
theorem keysMatch_of_sub {w w' : World} (h : KeysMatch w)
    (hsub : ∀ c, c ∈ w'.m_Chunks → w'.findChunk c = w.findChunk c) : KeysMatch w' := by
  intro c chunk hchunk
  have := hsub c (mem_of_findChunk hchunk)
  rw [hchunk] at this
  exact h c chunk this.symm

theorem world_foldl_preserves {α : Type} (f : World → α → World) (P : World → Prop)
    (hf : ∀ w a, P w → P (f w a)) (l : List α) (w : World) (h : P w) : P (l.foldl f w) := by
  induction l generalizing w with
  | nil => exact h
  | cons a l ih => exact ih (f w a) (hf w a h)

theorem keysMatch_Update (height : Int → Int) {w : World} (pos : ℚ × ℚ) (h : KeysMatch w) :
    KeysMatch (World.Update height w pos) := by
  unfold World.Update
  apply keysMatch_of_sub _ (fun c hc => UnloadDistantChunks_find _ pos hc)
  unfold World.LoadChunksAroundPlayer
  dsimp only
  apply world_foldl_preserves _ KeysMatch _ _ _ h
  intro w1 dy h1
  apply world_foldl_preserves _ KeysMatch _ _ _ h1
  intro w2 dx h2
  exact keysMatch_GetOrCreateChunk height _ _ h2

theorem keysMatch_Render (registry : BlockRegistry) {w : World} (h : KeysMatch w) :
    KeysMatch (World.Render registry w).1 := by
  intro c chunk hchunk
  rw [Render_find] at hchunk
  cases hw : w.findChunk c with
  | none => rw [hw] at hchunk; exact absurd hchunk (by simp)
  | some old =>
    rw [hw] at hchunk
    rw [← Option.some.inj hchunk]
    exact h c old hw

theorem keysMatch_of_reachable (height : Int → Int) (registry : BlockRegistry) {w : World}
    (h : World.Reachable height registry w) : KeysMatch w := by
  induction h with
  | construct =>
    intro c chunk hchunk
    have hn : World.new.findChunk c = none := findChunk_eq_none.mpr (AList.not_mem_empty _)
    rw [hn] at hchunk
    exact absurd hchunk (by simp)
  | setLoadRadius w radius _ ih => exact ih
  | setBlock w x y blockID _ ih => exact keysMatch_SetBlock height x y blockID ih
  | getBlock w x y _ ih => rw [readBlocks_world]; exact ih
  | getOrCreateChunk w cx cy _ ih => exact keysMatch_GetOrCreateChunk height cx cy ih
  | unloadChunk w cx cy _ ih =>
    exact keysMatch_of_sub ih (fun c hc => UnloadChunk_find_of_mem w cx cy hc)
  | update w pos _ ih => exact keysMatch_Update height pos ih
  | render w _ ih => exact keysMatch_Render registry ih

/-- C15: in every world state reachable from construction through `SetLoadRadius`, `SetBlock`,
`GetBlock`, `GetOrCreateChunk`, `UnloadChunk`, `Update` and `Render`, the chunk stored under key
`(cx, cy)` reports `GetChunkCoord() = (cx, cy)`. -/
theorem map_key_is_chunk_coord (height : Int → Int) (registry : BlockRegistry) (w : World)
    (cx cy : Int) (chunk : Chunk) (hw : World.Reachable height registry w)
    (hchunk : w.GetChunk cx cy = some chunk) : chunk.GetChunkCoord = (cx, cy) :=
  keysMatch_of_reachable height registry hw (cx, cy) chunk hchunk

/-- C15 for the world reached by `SetBlock(-1, -1, BLOCK_STONE)`, an `Update` at `(40, 2)` and a
`Render`, at key `(-1, -1)`. -/
theorem map_key_is_chunk_coord_witness :
    World.Reachable (fun _ => 10) BlockRegistry.cleared
        (World.Render BlockRegistry.cleared (World.Update (fun _ => 10)
          (World.SetBlock (fun _ => 10) World.new (-1) (-1) BLOCK_STONE) (40, 2))).1
      ∧ ∃ chunk, (World.Render BlockRegistry.cleared (World.Update (fun _ => 10)
          (World.SetBlock (fun _ => 10) World.new (-1) (-1) BLOCK_STONE) (40, 2))).1.GetChunk
            (-1) (-1) = some chunk
        ∧ chunk.GetChunkCoord = (-1, -1) := by
  have hr : World.Reachable (fun _ => 10) BlockRegistry.cleared
      (World.Render BlockRegistry.cleared (World.Update (fun _ => 10)
        (World.SetBlock (fun _ => 10) World.new (-1) (-1) BLOCK_STONE) (40, 2))).1 :=
    .render _ (.update _ _ (.setBlock _ _ _ _ .construct))
  have hc : World.WorldToChunk (-1) (-1) = (-1, -1) := by rw [WorldToChunk_eq]; decide
  have hpc : World.playerChunkOf ((40 : ℚ), (2 : ℚ)) = (2, 0) := by
    rw [playerChunkOf_eq]; simp
  have hmem : ((-1, -1) : ivec2) ∈ (World.Render BlockRegistry.cleared (World.Update (fun _ => 10)
      (World.SetBlock (fun _ => 10) World.new (-1) (-1) BLOCK_STONE) (40, 2))).1.m_Chunks := by
    rw [Render_mem, Update_mem, hpc, chebyshev_le_iff]
    left
    show (2 - World.new.m_LoadRadius ≤ -1 ∧ -1 ≤ 2 + World.new.m_LoadRadius)
      ∧ (0 - World.new.m_LoadRadius ≤ -1 ∧ -1 ≤ 0 + World.new.m_LoadRadius)
    decide
  obtain ⟨chunk, hchunk⟩ := Option.isSome_iff_exists.mp (findChunk_isSome.mpr hmem)
  exact ⟨hr, chunk, hchunk,
    map_key_is_chunk_coord (fun _ => 10) BlockRegistry.cleared _ (-1) (-1) chunk hr hchunk⟩

/-! ## Hysteresis -/

/-- An `Update` leaves the world as it was when the square around the player is loaded and no
loaded chunk is farther than `m_LoadRadius + 2` from the player. -/
theorem Update_fixed (height : Int → Int) (w : World) (pos : ℚ × ℚ)
    (h1 : ∀ c, chebyshev c (World.playerChunkOf pos) ≤ w.m_LoadRadius → c ∈ w.m_Chunks)
    (h2 : ∀ c, c ∈ w.m_Chunks → chebyshev c (World.playerChunkOf pos) ≤ w.m_LoadRadius + 2) :
    World.Update height w pos = w := by
  unfold World.Update
  rw [LoadChunksAroundPlayer_fixed height w pos h1, UnloadDistantChunks_fixed w pos h2]

/-- C20: when the player's chunks at `p1` and `p2` are at Chebyshev distance at most 2, then
after `Update(p1); Update(p2)` any further run of `Update(p1)` and `Update(p2)` calls, in any
order, leaves the world as it is: no chunk is created and none is erased.  This holds for every
load radius. -/
theorem hysteresis_prevents_thrashing (height : Int → Int) (w : World) (p1 p2 : ℚ × ℚ)
    (positions : List (ℚ × ℚ))
    (hd : chebyshev (World.WorldToChunk ⌊p1.1⌋ ⌊p1.2⌋) (World.WorldToChunk ⌊p2.1⌋ ⌊p2.2⌋) ≤ 2)
    (hp : ∀ p ∈ positions, p = p1 ∨ p = p2) :
    World.runUpdates height (World.Update height (World.Update height w p1) p2) positions
        = World.Update height (World.Update height w p1) p2
      ∧ (∀ c, c ∈ (World.runUpdates height
            (World.Update height (World.Update height w p1) p2) positions).m_Chunks
          ↔ c ∈ (World.Update height (World.Update height w p1) p2).m_Chunks)
      ∧ (World.runUpdates height
            (World.Update height (World.Update height w p1) p2) positions).GetLoadedChunkCount
          = (World.Update height (World.Update height w p1) p2).GetLoadedChunkCount := by
  have hd' : chebyshev (World.playerChunkOf p1) (World.playerChunkOf p2) ≤ 2 := hd
  rw [chebyshev_le_iff] at hd'
  have hr : (World.Update height (World.Update height w p1) p2).m_LoadRadius
      = w.m_LoadRadius := by
    rw [Update_radius, Update_radius]
  have hmem : ∀ c, c ∈ (World.Update height (World.Update height w p1) p2).m_Chunks
      ↔ chebyshev c (World.playerChunkOf p2) ≤ w.m_LoadRadius
        ∨ ((chebyshev c (World.playerChunkOf p1) ≤ w.m_LoadRadius
            ∨ (c ∈ w.m_Chunks ∧ chebyshev c (World.playerChunkOf p1) ≤ w.m_LoadRadius + 2))
          ∧ chebyshev c (World.playerChunkOf p2) ≤ w.m_LoadRadius + 2) := by
    intro c
    rw [Update_mem, Update_mem, Update_radius]
  have hfix : ∀ p, p = p1 ∨ p = p2
      → World.Update height (World.Update height (World.Update height w p1) p2) p
        = World.Update height (World.Update height w p1) p2 := by
    intro p hp'
    apply Update_fixed
    · intro c hc
      rw [hr] at hc
      rw [hmem]
      simp only [chebyshev_le_iff] at hc ⊢
      rcases hp' with rfl | rfl
      · right
        exact ⟨Or.inl hc, by omega⟩
      · exact Or.inl hc
    · intro c hc
      rw [hr]
      rw [hmem] at hc
      simp only [chebyshev_le_iff] at hc ⊢
      rcases hp' with rfl | rfl <;> omega
  have hrun : World.runUpdates height (World.Update height (World.Update height w p1) p2)
      positions = World.Update height (World.Update height w p1) p2 := by
    unfold World.runUpdates
    exact foldl_fixed _ _ _ (fun p hpmem => hfix p (hp p hpmem))
  refine ⟨hrun, fun c => ?_, ?_⟩
  · rw [hrun]
  · rw [hrun]

/-- C20 at radius 3 for a player that moves between `(15.5, 0)` in chunk `(0, 0)` and `(40, 0)`
in chunk `(2, 0)`. -/
theorem hysteresis_prevents_thrashing_witness :
    chebyshev (World.WorldToChunk ⌊((31 / 2 : ℚ), (0 : ℚ)).1⌋ ⌊((31 / 2 : ℚ), (0 : ℚ)).2⌋)
        (World.WorldToChunk ⌊((40 : ℚ), (0 : ℚ)).1⌋ ⌊((40 : ℚ), (0 : ℚ)).2⌋) ≤ 2
      ∧ World.runUpdates (fun _ => 10)
          (World.Update (fun _ => 10) (World.Update (fun _ => 10) World.new (31 / 2, 0)) (40, 0))
          [(31 / 2, 0), (40, 0), (40, 0), (31 / 2, 0)]
        = World.Update (fun _ => 10) (World.Update (fun _ => 10) World.new (31 / 2, 0)) (40, 0) := by
  have hfl : ⌊(31 / 2 : ℚ)⌋ = 15 := by
    rw [Int.floor_eq_iff]
    norm_num
  have hd : chebyshev (World.WorldToChunk ⌊((31 / 2 : ℚ), (0 : ℚ)).1⌋ ⌊((31 / 2 : ℚ), (0 : ℚ)).2⌋)
      (World.WorldToChunk ⌊((40 : ℚ), (0 : ℚ)).1⌋ ⌊((40 : ℚ), (0 : ℚ)).2⌋) ≤ 2 := by
    rw [chebyshev_le_iff, WorldToChunk_eq, WorldToChunk_eq]
    dsimp only
    rw [hfl]
    simp
  exact ⟨hd, (hysteresis_prevents_thrashing (fun _ => 10) World.new (31 / 2, 0) (40, 0)
    [(31 / 2, 0), (40, 0), (40, 0), (31 / 2, 0)] hd (by simp)).1⟩

/-! ## `Chunk::IsEmpty` -/

theorem idx_cast (i : Fin 16) : Chunk.idx ((i : Nat) : Int) = i := by
  apply Fin.ext
  show (((i : Nat) : Int).toNat % 16 : Nat) = i
  have := i.isLt
  omega

theorem IsEmpty_iff_cells (c : Chunk) :
    c.IsEmpty = true
      ↔ ∀ x y : Int, (0 ≤ x ∧ x < 16) ∧ (0 ≤ y ∧ y < 16)
          → c.m_Blocks (Chunk.idx x) (Chunk.idx y) = BLOCK_AIR := by
  unfold Chunk.IsEmpty
  simp only [List.all_eq_true, mem_loopValues, CHUNK_SIZE, Bool.not_eq_true', decide_eq_false_iff_not,
    ne_eq, not_not]
  constructor
  · intro h x y hxy
    exact h y ⟨hxy.2.1, by omega⟩ x ⟨hxy.1.1, by omega⟩
  · intro h y hy x hx
    exact h x y ⟨⟨hx.1, by omega⟩, ⟨hy.1, by omega⟩⟩

/-- C21: `Chunk::IsEmpty()` returns `true` exactly when all `16 * 16 = 256` cells of the chunk
are `BLOCK_AIR` (equivalently, every in-bounds `GetBlock` returns air); a freshly constructed
chunk is empty.  `IsEmpty` is a `const` member, a function of the chunk that yields only the
answer. -/
theorem Chunk_IsEmpty_iff_all_air (c : Chunk) (cx cy : Int) :
    (c.IsEmpty = true ↔ ∀ i j : Fin 16, c.m_Blocks i j = BLOCK_AIR)
      ∧ (c.IsEmpty = true
          ↔ ∀ x y : Int, (0 ≤ x ∧ x < 16) ∧ (0 ≤ y ∧ y < 16) → c.GetBlock x y = BLOCK_AIR)
      ∧ (c.IsEmpty = false ↔ ∃ i j : Fin 16, c.m_Blocks i j ≠ BLOCK_AIR)
      ∧ (Chunk.new cx cy).IsEmpty = true
      ∧ Fintype.card (Fin 16 × Fin 16) = 256 := by
  have h1 : c.IsEmpty = true ↔ ∀ i j : Fin 16, c.m_Blocks i j = BLOCK_AIR := by
    rw [IsEmpty_iff_cells]
    constructor
    · intro h i j
      have := h ((i : Nat) : Int) ((j : Nat) : Int) (by have := i.isLt; have := j.isLt; omega)
      rwa [idx_cast, idx_cast] at this
    · intro h x y _
      exact h _ _
  refine ⟨h1, ?_, ?_, ?_, by simp⟩
  · rw [IsEmpty_iff_cells]
    constructor
    · intro h x y hxy
      rw [Chunk.GetBlock_of_valid c ((Chunk.isValidLocalCoord_iff x y).mpr hxy)]
      exact h x y hxy
    · intro h x y hxy
      rw [← Chunk.GetBlock_of_valid c ((Chunk.isValidLocalCoord_iff x y).mpr hxy)]
      exact h x y hxy
  · rw [← Bool.not_eq_true, h1]
    push_neg
    rfl
  · rw [IsEmpty_iff_cells]
    intro x y _
    rfl

/-! ## The number of loaded chunks -/

theorem GetBlock_congr_find {w₁ w₂ : World} {x y : Int}
    (h : w₁.findChunk (World.WorldToChunk x y) = w₂.findChunk (World.WorldToChunk x y)) :
    w₁.GetBlock x y = w₂.GetBlock x y := by
  cases h2 : w₂.findChunk (World.WorldToChunk x y) with
  | none => rw [GetBlock_of_find_none h2, GetBlock_of_find_none (h.trans h2)]
  | some chunk => rw [GetBlock_of_find h2, GetBlock_of_find (h.trans h2)]

/-- Two world cells of one chunk with the same local coordinates are the same cell. -/
theorem same_cell_of_local_eq {x y x' y' : Int}
    (hc : World.WorldToChunk x' y' = World.WorldToChunk x y)
    (hl : World.WorldToLocal x' y' = World.WorldToLocal x y) : (x', y') = (x, y) := by
  rw [WorldToChunk_eq, WorldToChunk_eq, Prod.mk.injEq] at hc
  rw [WorldToLocal_eq, WorldToLocal_eq, Prod.mk.injEq] at hl
  rw [Prod.mk.injEq]
  constructor <;> omega

/-- Away from the written cell, a read after `SetBlock` is a read after the `GetOrCreateChunk`
that `SetBlock` performs. -/
theorem SetBlock_GetBlock_ne (height : Int → Int) (w : World) (x y : Int) (blockID : BlockID)
    {x' y' : Int} (hne : (x', y') ≠ (x, y)) :
    (World.SetBlock height w x y blockID).GetBlock x' y'
      = (World.GetOrCreateChunk height w (World.WorldToChunk x y).1
          (World.WorldToChunk x y).2).1.GetBlock x' y' := by
  by_cases hc : World.WorldToChunk x' y' = World.WorldToChunk x y
  · have h1 := SetBlock_find height w x y blockID
    have h2 := GetOrCreateChunk_find height w (World.WorldToChunk x y).1 (World.WorldToChunk x y).2
    rw [Prod.mk.eta] at h2
    rw [← hc] at h1 h2 ⊢
    rw [GetBlock_of_find h1, GetBlock_of_find h2,
      Chunk.GetBlock_SetBlock _ _ _ _ (WorldToLocal_valid x' y'), if_neg]
    intro hl
    exact hne (same_cell_of_local_eq hc (Prod.ext hl.1 hl.2))
  · exact GetBlock_congr_find (SetBlock_find_ne height w x y blockID hc)

/-- C26: `SetBlock(x, y, id)` changes the read of no other world cell `(x', y')` whose chunk was
loaded before the call, and creates or removes no chunk other than `WorldToChunk(x, y)`, which is
loaded afterwards; every other chunk is stored unchanged.  When the chunk of `(x, y)` was not
loaded, its other cells read as air before the call and as the generated terrain after it. -/
theorem SetBlock_frame (height : Int → Int) (w : World) (x y x' y' : Int) (blockID : BlockID)
    (c : ivec2) (hne : (x', y') ≠ (x, y)) :
    (World.WorldToChunk x' y' ∈ w.m_Chunks
        → (World.SetBlock height w x y blockID).GetBlock x' y' = w.GetBlock x' y')
      ∧ (c ≠ World.WorldToChunk x y
          → (c ∈ (World.SetBlock height w x y blockID).m_Chunks ↔ c ∈ w.m_Chunks))
      ∧ (c ≠ World.WorldToChunk x y
          → (World.SetBlock height w x y blockID).findChunk c = w.findChunk c)
      ∧ World.WorldToChunk x y ∈ (World.SetBlock height w x y blockID).m_Chunks
      ∧ (World.WorldToChunk x y ∉ w.m_Chunks
          → World.WorldToChunk x' y' = World.WorldToChunk x y
          → w.GetBlock x' y' = BLOCK_AIR
            ∧ (World.SetBlock height w x y blockID).GetBlock x' y'
                = World.terrainBlock (height x') y') := by
  have hmem : ∀ c, c ≠ World.WorldToChunk x y
      → (c ∈ (World.SetBlock height w x y blockID).m_Chunks ↔ c ∈ w.m_Chunks) := by
    intro c hc
    rw [SetBlock_mem]
    constructor
    · rintro (h | h)
      · exact absurd h hc
      · exact h
    · exact Or.inr
  refine ⟨?_, hmem c, ?_, (SetBlock_mem height w x y blockID _).mpr (Or.inl rfl), ?_⟩
  · intro hloaded
    rw [SetBlock_GetBlock_ne height w x y blockID hne]
    exact GetBlock_congr_find (GetOrCreateChunk_find_of_mem height _ _ hloaded)
  · intro hc
    rw [SetBlock_find_ne height w x y blockID hc]
    by_cases hin : c ∈ w.m_Chunks
    · exact GetOrCreateChunk_find_of_mem height _ _ hin
    · have hout : c ∉ (World.GetOrCreateChunk height w (World.WorldToChunk x y).1
          (World.WorldToChunk x y).2).1.m_Chunks := by
        rw [GetOrCreateChunk_mem, Prod.mk.eta]
        rintro (h | h)
        · exact hc h
        · exact hin h
      rw [findChunk_eq_none.mpr hin, findChunk_eq_none.mpr hout]
  · intro hmissing hsame
    refine ⟨GetBlock_of_find_none (findChunk_eq_none.mpr (hsame ▸ hmissing)), ?_⟩
    rw [SetBlock_GetBlock_ne height w x y blockID hne, ← hsame]
    exact GetBlock_created height (hsame ▸ hmissing)

/-- C26 for the write `SetBlock(3, 5, BLOCK_WOOD)` on a fresh world and the other cell `(3, 6)`
of the same, missing, chunk: it reads as air before and as terrain after. -/
theorem SetBlock_frame_witness :
    ((3, 6) : Int × Int) ≠ (3, 5)
      ∧ World.new.GetBlock 3 6 = BLOCK_AIR
      ∧ (World.SetBlock (fun _ => 10) World.new 3 5 BLOCK_WOOD).GetBlock 3 6
          = World.terrainBlock ((fun _ => 10) 3) 6 := by
  have hne : ((3, 6) : Int × Int) ≠ (3, 5) := by decide
  have h1 : World.WorldToChunk 3 5 = (0, 0) := by rw [WorldToChunk_eq]; decide
  have h2 : World.WorldToChunk 3 6 = (0, 0) := by rw [WorldToChunk_eq]; decide
  have hmissing : World.WorldToChunk 3 5 ∉ World.new.m_Chunks := AList.not_mem_empty _
  exact ⟨hne, (SetBlock_frame (fun _ => 10) World.new 3 5 3 6 BLOCK_WOOD (0, 0) hne).2.2.2.2
    hmissing (h2.trans h1.symm)⟩

/-! ## `ChunkCoordHash` -/

theorem triangle_succ (n : Nat) : (n + 1) * (n + 1 + 1) / 2 = n * (n + 1) / 2 + (n + 1) := by
  have h : (n + 1) * (n + 1 + 1) = n * (n + 1) + 2 * (n + 1) := by ring
  rw [h, Nat.add_mul_div_left _ _ (by decide : 0 < 2)]

theorem triangle_mono {s t : Nat} (h : s ≤ t) : s * (s + 1) / 2 ≤ t * (t + 1) / 2 := by
  induction t with
  | zero =>
    have : s = 0 := by omega
    subst this
    exact le_refl _
  | succ t ih =>
    rcases Nat.eq_or_lt_of_le h with rfl | hlt
    · exact le_refl _
    · have := ih (by omega)
      rw [triangle_succ]
      omega

theorem triangle_lt {s t : Nat} (h : s < t) : s * (s + 1) / 2 + s < t * (t + 1) / 2 := by
  have h1 := triangle_mono (show s + 1 ≤ t from h)
  rw [triangle_succ] at h1
  omega

/-- The Cantor pairing is injective. -/
theorem cantorPair_injective {a b a' b' : Nat} (h : cantorPair a b = cantorPair a' b') :
    a = a' ∧ b = b' := by
  unfold cantorPair at h
  have hs : a + b = a' + b' := by
    rcases Nat.lt_trichotomy (a + b) (a' + b') with hlt | heq | hgt
    · have := triangle_lt hlt
      omega
    · exact heq
    · have := triangle_lt hgt
      omega
  rw [hs] at h
  omega

theorem zigzag_injective {c c' : Int} (h : zigzag c = zigzag c') : c = c' := by
  unfold zigzag at h
  split at h <;> split at h <;> omega

theorem zigzag_lt {c : Int} (h : -2 ^ 30 < c ∧ c < 2 ^ 30) : zigzag c < 2 ^ 31 := by
  unfold zigzag
  split <;> omega

theorem toBits_code {c : Int} (h : -2 ^ 30 < c ∧ c < 2 ^ 30) :
    toBits 64 (if c ≥ 0 then 2 * c else -2 * c - 1) = zigzag c := by
  unfold toBits zigzag
  split <;> omega

theorem ChunkCoordHash_eq_cantor {c : ivec2} (hx : -2 ^ 30 < c.1 ∧ c.1 < 2 ^ 30)
    (hy : -2 ^ 30 < c.2 ∧ c.2 < 2 ^ 30) :
    ChunkCoordHash c = cantorPair (zigzag c.1) (zigzag c.2) := by
  unfold ChunkCoordHash cantorPair
  dsimp only
  rw [toBits_code hx, toBits_code hy]
  have ha := zigzag_lt hx
  have hb := zigzag_lt hy
  generalize zigzag c.1 = a at ha ⊢
  generalize zigzag c.2 = b at hb ⊢
  have h1 : a + b < 2 ^ 32 := by omega
  have h2 : a + b + 1 < 2 ^ 32 + 1 := by omega
  have h3 : (a + b) * (a + b + 1) < 2 ^ 64 := by
    have : (a + b) * (a + b + 1) ≤ (2 ^ 32 - 1) * 2 ^ 32 :=
      Nat.mul_le_mul (by omega) (by omega)
    have e : (2 ^ 32 - 1) * 2 ^ 32 < 2 ^ 64 := by decide
    omega
  rw [Nat.mod_eq_of_lt (by omega : a + b < 2 ^ 64),
    Nat.mod_eq_of_lt (by omega : a + b + 1 < 2 ^ 64), Nat.mod_eq_of_lt h3]
  apply Nat.mod_eq_of_lt
  omega

/-- C24: for chunk coordinates with `|x|, |y| < 2^30` (64-bit `size_t`), `ChunkCoordHash` equals
the Cantor pairing `(a + b)(a + b + 1)/2 + b` of the zigzag codes `a`, `b` of `x`, `y`, and maps
distinct coordinates to distinct hash values. -/
theorem ChunkCoordHash_is_pairing (c c' : ivec2)
    (hx : -2 ^ 30 < c.1 ∧ c.1 < 2 ^ 30) (hy : -2 ^ 30 < c.2 ∧ c.2 < 2 ^ 30)
    (hx' : -2 ^ 30 < c'.1 ∧ c'.1 < 2 ^ 30) (hy' : -2 ^ 30 < c'.2 ∧ c'.2 < 2 ^ 30) :
    ChunkCoordHash c = cantorPair (zigzag c.1) (zigzag c.2)
      ∧ (zigzag c.1 : Int) = (if c.1 ≥ 0 then 2 * c.1 else -2 * c.1 - 1)
      ∧ (zigzag c.2 : Int) = (if c.2 ≥ 0 then 2 * c.2 else -2 * c.2 - 1)
      ∧ (c ≠ c' → ChunkCoordHash c ≠ ChunkCoordHash c') := by
  refine ⟨ChunkCoordHash_eq_cantor hx hy, ?_, ?_, ?_⟩
  · unfold zigzag
    split <;> omega
  · unfold zigzag
    split <;> omega
  · intro hne heq
    rw [ChunkCoordHash_eq_cantor hx hy, ChunkCoordHash_eq_cantor hx' hy'] at heq
    have h := cantorPair_injective heq
    exact hne (Prod.ext (zigzag_injective h.1) (zigzag_injective h.2))

/-- C24 for the coordinates `(-3, 7)` and `(7, -3)`. -/
theorem ChunkCoordHash_is_pairing_witness :
    ((-2 ^ 30 < (-3 : Int) ∧ (-3 : Int) < 2 ^ 30) ∧ (-2 ^ 30 < (7 : Int) ∧ (7 : Int) < 2 ^ 30))
      ∧ ChunkCoordHash (-3, 7) = cantorPair (zigzag (-3)) (zigzag 7)
      ∧ ChunkCoordHash (-3, 7) ≠ ChunkCoordHash (7, -3) :=
  have h := ChunkCoordHash_is_pairing (-3, 7) (7, -3) (by decide) (by decide) (by decide)
    (by decide)
  ⟨by decide, h.1, h.2.2.2 (by decide)⟩

/-! ## `WorldComponent::HashChunkPos` -/

section HashChunkPos

open Scene

theorem or_all_ones {a : Nat} (h : a < 2 ^ 64) : a ||| (2 ^ 64 - 1) = 2 ^ 64 - 1 := by
  apply Nat.eq_of_testBit_eq
  intro i
  rw [Nat.testBit_or, Nat.testBit_two_pow_sub_one]
  by_cases hi : i < 64
  · simp [hi]
  · have hle : 2 ^ 64 ≤ 2 ^ i := Nat.pow_le_pow_right (by decide) (by omega)
    rw [Nat.testBit_lt_two_pow (lt_of_lt_of_le h hle)]
    simp [hi]

theorem HashChunkPos_z_minus_one (x y : Int) : WorldComponent.HashChunkPos ⟨x, y, -1⟩ = -1 := by
  unfold WorldComponent.HashChunkPos
  dsimp only
  have hlo : toBits 64 (-1) = 2 ^ 64 - 1 := by decide
  have hlt : toBits 64 x * 2 ^ 32 % 2 ^ 64 ||| toBits 64 y * 2 ^ 16 % 2 ^ 64 < 2 ^ 64 :=
    Nat.or_lt_two_pow (Nat.mod_lt _ (by decide)) (Nat.mod_lt _ (by decide))
  rw [hlo, or_all_ones hlt]
  decide

/-- On positions with `y` and `z` in `[0, 65536)` the key is `x * 2^32 + y * 2^16 + z`. -/
theorem HashChunkPos_value {p : ivec3} (hx : IsInt32 p.x) (hy : 0 ≤ p.y ∧ p.y < 65536)
    (hz : 0 ≤ p.z ∧ p.z < 65536) :
    WorldComponent.HashChunkPos p = p.x * 2 ^ 32 + p.y * 2 ^ 16 + p.z := by
  unfold WorldComponent.HashChunkPos
  dsimp only
  unfold IsInt32 at hx
  have hhi : toBits 64 p.x * 2 ^ 32 % 2 ^ 64 = 2 ^ 32 * (toBits 64 p.x % 2 ^ 32) := by omega
  have hmid : toBits 64 p.y * 2 ^ 16 % 2 ^ 64 = p.y.toNat * 2 ^ 16 := by
    unfold toBits
    omega
  have hlo : toBits 64 p.z = p.z.toNat := by
    unfold toBits
    omega
  rw [hhi, hmid, hlo,
    ← Nat.mul_add_lt_is_or (show p.y.toNat * 2 ^ 16 < 2 ^ 32 by omega) (toBits 64 p.x % 2 ^ 32)]
  have hre : 2 ^ 32 * (toBits 64 p.x % 2 ^ 32) + p.y.toNat * 2 ^ 16
      = 2 ^ 16 * (2 ^ 16 * (toBits 64 p.x % 2 ^ 32) + p.y.toNat) := by omega
  rw [hre, ← Nat.mul_add_lt_is_or (show p.z.toNat < 2 ^ 16 by omega)]
  unfold ofBits toBits
  split <;> omega

/-- C28: `HashChunkPos` is not injective on signed positions: every position with `z = -1` has
the key `-1`, whatever `x` and `y` are, so `(0, 0, -1)` and `(1, 0, -1)` collide and
`IsChunkLoaded` answers the same for all such positions; a negative `y` overwrites the `x` field
in the same way.  On positions with `y` and `z` in `[0, 65536)` the key is injective, and just
outside that range it is not: `(0, 65536, 0)` collides with `(1, 0, 0)` and `(0, 0, 65536)` with
`(0, 1, 0)`. -/
theorem HashChunkPos_not_injective (x y x' y' : Int) (w : WorldComponent) (p q : ivec3) :
    WorldComponent.HashChunkPos ⟨x, y, -1⟩ = -1
      ∧ (WorldComponent.HashChunkPos ⟨0, 0, -1⟩ = WorldComponent.HashChunkPos ⟨1, 0, -1⟩
          ∧ (⟨0, 0, -1⟩ : ivec3) ≠ ⟨1, 0, -1⟩)
      ∧ w.IsChunkLoaded ⟨x, y, -1⟩ = w.IsChunkLoaded ⟨x', y', -1⟩
      ∧ (WorldComponent.HashChunkPos ⟨0, -1, 0⟩ = WorldComponent.HashChunkPos ⟨1, -1, 0⟩
          ∧ (⟨0, -1, 0⟩ : ivec3) ≠ ⟨1, -1, 0⟩)
      ∧ (IsInt32 p.x → IsInt32 q.x → (0 ≤ p.y ∧ p.y < 65536) → (0 ≤ q.y ∧ q.y < 65536)
          → (0 ≤ p.z ∧ p.z < 65536) → (0 ≤ q.z ∧ q.z < 65536)
          → WorldComponent.HashChunkPos p = WorldComponent.HashChunkPos q → p = q)
      ∧ (WorldComponent.HashChunkPos ⟨0, 65536, 0⟩ = WorldComponent.HashChunkPos ⟨1, 0, 0⟩
          ∧ (⟨0, 65536, 0⟩ : ivec3) ≠ ⟨1, 0, 0⟩)
      ∧ (WorldComponent.HashChunkPos ⟨0, 0, 65536⟩ = WorldComponent.HashChunkPos ⟨0, 1, 0⟩
          ∧ (⟨0, 0, 65536⟩ : ivec3) ≠ ⟨0, 1, 0⟩) := by
  refine ⟨HashChunkPos_z_minus_one x y, ⟨?_, by decide⟩, ?_, ⟨by decide, by decide⟩, ?_,
    ⟨by decide, by decide⟩, ⟨by decide, by decide⟩⟩
  · rw [HashChunkPos_z_minus_one, HashChunkPos_z_minus_one]
  · unfold WorldComponent.IsChunkLoaded
    rw [HashChunkPos_z_minus_one, HashChunkPos_z_minus_one]
  · intro hpx hqx hpy hqy hpz hqz heq
    rw [HashChunkPos_value hpx hpy hpz, HashChunkPos_value hqx hqy hqz] at heq
    unfold IsInt32 at hpx hqx
    obtain ⟨px, py, pz⟩ := p
    obtain ⟨qx, qy, qz⟩ := q
    dsimp only at *
    have h1 : px = qx := by omega
    have h2 : py = qy := by omega
    have h3 : pz = qz := by omega
    rw [h1, h2, h3]

end HashChunkPos

/-! ## The voxel terrain generator -/

section WorldGenerator

open Scene

theorem inBounds_iff (x y z : Int) :
    ChunkComponent.inBounds x y z = true
      ↔ (0 ≤ x ∧ x < 16) ∧ (0 ≤ y ∧ y < 256) ∧ (0 ≤ z ∧ z < 16) := by
  simp [ChunkComponent.inBounds, and_assoc]

theorem ixz_eq_iff {a b : Int} (ha : 0 ≤ a ∧ a < 16) (hb : 0 ≤ b ∧ b < 16) :
    ChunkComponent.ixz a = ChunkComponent.ixz b ↔ a = b := by
  unfold ChunkComponent.ixz
  rw [Fin.mk.injEq]
  omega

theorem iy_eq_iff {a b : Int} (ha : 0 ≤ a ∧ a < 256) (hb : 0 ≤ b ∧ b < 256) :
    ChunkComponent.iy a = ChunkComponent.iy b ↔ a = b := by
  unfold ChunkComponent.iy
  rw [Fin.mk.injEq]
  omega

/-- The block stored at an in-bounds cell after a `ChunkComponent::SetBlock`. -/
theorem ChunkComponent_SetBlock_cell (c : ChunkComponent) (x' y' z' : Int) (block : Scene.Block)
    {x y z : Int} (hv : ChunkComponent.inBounds x y z = true) :
    (c.SetBlock x' y' z' block).Blocks (ChunkComponent.ixz x) (ChunkComponent.iy y)
        (ChunkComponent.ixz z)
      = if x = x' ∧ y = y' ∧ z = z' then block
        else c.Blocks (ChunkComponent.ixz x) (ChunkComponent.iy y) (ChunkComponent.ixz z) := by
  have h := (inBounds_iff x y z).mp hv
  unfold ChunkComponent.SetBlock
  cases hv' : ChunkComponent.inBounds x' y' z' with
  | false =>
    have hne : ¬(x = x' ∧ y = y' ∧ z = z') := by
      rintro ⟨rfl, rfl, rfl⟩
      rw [hv] at hv'
      exact absurd hv' (by decide)
    simp [hne]
  | true =>
    have h' := (inBounds_iff x' y' z').mp hv'
    simp only [if_true]
    by_cases hc : x = x' ∧ y = y' ∧ z = z'
    · rw [if_pos hc, if_pos ⟨(ixz_eq_iff h.1 h'.1).mpr hc.1, (iy_eq_iff h.2.1 h'.2.1).mpr hc.2.1,
        (ixz_eq_iff h.2.2 h'.2.2).mpr hc.2.2⟩]
    · rw [if_neg hc, if_neg (fun hh => hc ⟨(ixz_eq_iff h.1 h'.1).mp hh.1,
        (iy_eq_iff h.2.1 h'.2.1).mp hh.2.1, (ixz_eq_iff h.2.2 h'.2.2).mp hh.2.2⟩)]

/-- A loop whose iterations either write `v` into a cell or leave it alone: the cell holds `v`
after the loop when some iteration writes it, and its old content when none does. -/
theorem fold_cell {α : Type} (f : ChunkComponent → α → ChunkComponent)
    (cell : ChunkComponent → Scene.Block) (touches : α → Prop) (v : Scene.Block)
    (hyes : ∀ c a, touches a → cell (f c a) = v)
    (hno : ∀ c a, ¬touches a → cell (f c a) = cell c) (l : List α) (c : ChunkComponent) :
    ((∃ a ∈ l, touches a) → cell (l.foldl f c) = v)
      ∧ ((∀ a ∈ l, ¬touches a) → cell (l.foldl f c) = cell c) := by
  induction l using List.reverseRecOn with
  | nil =>
    constructor
    · rintro ⟨a, ha, _⟩
      exact absurd ha (List.not_mem_nil a)
    · intro _
      rfl
  | append_singleton l a ih =>
    rw [List.foldl_append]
    constructor
    · rintro ⟨b, hb, hbt⟩
      by_cases hat : touches a
      · exact hyes _ a hat
      · show cell (f (l.foldl f c) a) = v
        rw [hno _ a hat]
        apply ih.1
        rcases List.mem_append.mp hb with hb' | hb'
        · exact ⟨b, hb', hbt⟩
        · rw [List.mem_singleton] at hb'
          exact absurd (hb' ▸ hbt) hat
    · intro hall
      show cell (f (l.foldl f c) a) = cell c
      rw [hno _ a (hall a (List.mem_append_right l (List.mem_singleton_self a)))]
      exact ih.2 (fun b hb => hall b (List.mem_append_left [a] hb))

/-- Three nested loops of writes, `x` outside, `z` in the middle, `y` inside: an in-bounds cell
whose coordinates are loop values holds the block written for it. -/
theorem triple_loop_cell (G : Int → Int → Int → Scene.Block) (xs zs ys : List Int)
    (c : ChunkComponent) {x y z : Int} (hv : ChunkComponent.inBounds x y z = true)
    (hx : x ∈ xs) (hz : z ∈ zs) (hy : y ∈ ys) :
    (xs.foldl (fun c x' => zs.foldl (fun c z' =>
        ys.foldl (fun c y' => c.SetBlock x' y' z' (G x' z' y')) c) c) c).Blocks
        (ChunkComponent.ixz x) (ChunkComponent.iy y) (ChunkComponent.ixz z) = G x z y := by
  have inner : ∀ (x' z' : Int) (c : ChunkComponent),
      ((x = x' ∧ z = z') → (ys.foldl (fun c y' => c.SetBlock x' y' z' (G x' z' y')) c).Blocks
          (ChunkComponent.ixz x) (ChunkComponent.iy y) (ChunkComponent.ixz z) = G x z y)
        ∧ (¬(x = x' ∧ z = z')
          → (ys.foldl (fun c y' => c.SetBlock x' y' z' (G x' z' y')) c).Blocks
              (ChunkComponent.ixz x) (ChunkComponent.iy y) (ChunkComponent.ixz z)
            = c.Blocks (ChunkComponent.ixz x) (ChunkComponent.iy y) (ChunkComponent.ixz z)) := by
    intro x' z' c
    have h := fold_cell (fun c y' => c.SetBlock x' y' z' (G x' z' y'))
      (fun c => c.Blocks (ChunkComponent.ixz x) (ChunkComponent.iy y) (ChunkComponent.ixz z))
      (fun y' => x = x' ∧ y = y' ∧ z = z') (G x z y)
      (by
        intro c a ha
        show (c.SetBlock x' a z' (G x' z' a)).Blocks _ _ _ = _
        rw [ChunkComponent_SetBlock_cell c x' a z' _ hv, if_pos ha, ha.1, ha.2.1, ha.2.2])
      (by
        intro c a ha
        show (c.SetBlock x' a z' (G x' z' a)).Blocks _ _ _ = _
        rw [ChunkComponent_SetBlock_cell c x' a z' _ hv, if_neg ha])
      ys c
    constructor
    · intro hxz
      exact h.1 ⟨y, hy, hxz.1, rfl, hxz.2⟩
    · intro hxz
      exact h.2 (fun a _ ha => hxz ⟨ha.1, ha.2.2⟩)
  have middle : ∀ (x' : Int) (c : ChunkComponent),
      (x = x' → (zs.foldl (fun c z' =>
          ys.foldl (fun c y' => c.SetBlock x' y' z' (G x' z' y')) c) c).Blocks
          (ChunkComponent.ixz x) (ChunkComponent.iy y) (ChunkComponent.ixz z) = G x z y)
        ∧ (¬x = x' → (zs.foldl (fun c z' =>
            ys.foldl (fun c y' => c.SetBlock x' y' z' (G x' z' y')) c) c).Blocks
              (ChunkComponent.ixz x) (ChunkComponent.iy y) (ChunkComponent.ixz z)
            = c.Blocks (ChunkComponent.ixz x) (ChunkComponent.iy y) (ChunkComponent.ixz z)) := by
    intro x' c
    have h := fold_cell (fun c z' => ys.foldl (fun c y' => c.SetBlock x' y' z' (G x' z' y')) c)
      (fun c => c.Blocks (ChunkComponent.ixz x) (ChunkComponent.iy y) (ChunkComponent.ixz z))
      (fun z' => x = x' ∧ z = z') (G x z y)
      (fun c a ha => (inner x' a c).1 ha) (fun c a ha => (inner x' a c).2 ha) zs c
    constructor
    · intro hx'
      exact h.1 ⟨z, hz, hx', rfl⟩
    · intro hx'
      exact h.2 (fun a _ ha => hx' ha.1)
  have outer := fold_cell (fun c x' => zs.foldl (fun c z' =>
      ys.foldl (fun c y' => c.SetBlock x' y' z' (G x' z' y')) c) c)
    (fun c => c.Blocks (ChunkComponent.ixz x) (ChunkComponent.iy y) (ChunkComponent.ixz z))
    (fun x' => x = x') (G x z y)
    (fun c a ha => (middle a c).1 ha) (fun c a ha => (middle a c).2 ha) xs c
  exact outer.1 ⟨x, hx, rfl⟩

/-- Every in-bounds cell of a generated chunk holds the block chosen for its column and
height. -/
theorem GenerateChunk_cell (scaledHeight : Int → Int → Int) (oreNoise : Int → Int → Int → ℚ)
    (chunk : ChunkComponent) (params : TerrainGeneratorComponent) {x y z : Int}
    (hx : 0 ≤ x ∧ x < 16) (hy : 0 ≤ y ∧ y < 256) (hz : 0 ≤ z ∧ z < 16) :
    (WorldGenerator.GenerateChunk scaledHeight oreNoise chunk params).GetBlock x y z
      = some (Scene.Block.ofType (WorldGenerator.columnBlock params
          (WorldGenerator.columnHeight params
            (scaledHeight (chunk.ChunkPosition.x * 16 + x) (chunk.ChunkPosition.z * 16 + z)))
          y (oreNoise (chunk.ChunkPosition.x * 16 + x) y (chunk.ChunkPosition.z * 16 + z)))) := by
  have hv : ChunkComponent.inBounds x y z = true := (inBounds_iff x y z).mpr ⟨hx, hy, hz⟩
  have hgen : ∀ xs zs ys : List Int, x ∈ xs → z ∈ zs → y ∈ ys →
      ChunkComponent.GetBlock
        (ChunkComponent.mk
          (xs.foldl (fun c x' => zs.foldl (fun c z' => ys.foldl (fun c y' =>
            c.SetBlock x' y' z' (Scene.Block.ofType (WorldGenerator.columnBlock params
              (WorldGenerator.columnHeight params (scaledHeight
                (chunk.ChunkPosition.x * 16 + x') (chunk.ChunkPosition.z * 16 + z')))
              y' (oreNoise (chunk.ChunkPosition.x * 16 + x') y'
                (chunk.ChunkPosition.z * 16 + z'))))) c) c) chunk).ChunkPosition
          (xs.foldl (fun c x' => zs.foldl (fun c z' => ys.foldl (fun c y' =>
            c.SetBlock x' y' z' (Scene.Block.ofType (WorldGenerator.columnBlock params
              (WorldGenerator.columnHeight params (scaledHeight
                (chunk.ChunkPosition.x * 16 + x') (chunk.ChunkPosition.z * 16 + z')))
              y' (oreNoise (chunk.ChunkPosition.x * 16 + x') y'
                (chunk.ChunkPosition.z * 16 + z'))))) c) c) chunk).Blocks
          true true) x y z
        = some (Scene.Block.ofType (WorldGenerator.columnBlock params
            (WorldGenerator.columnHeight params (scaledHeight
              (chunk.ChunkPosition.x * 16 + x) (chunk.ChunkPosition.z * 16 + z)))
            y (oreNoise (chunk.ChunkPosition.x * 16 + x) y (chunk.ChunkPosition.z * 16 + z)))) := by
    intro xs zs ys hxm hzm hym
    unfold ChunkComponent.GetBlock
    rw [if_pos hv]
    exact congrArg some (triple_loop_cell
      (fun x' z' y' => Scene.Block.ofType (WorldGenerator.columnBlock params
        (WorldGenerator.columnHeight params
          (scaledHeight (chunk.ChunkPosition.x * 16 + x') (chunk.ChunkPosition.z * 16 + z')))
        y' (oreNoise (chunk.ChunkPosition.x * 16 + x') y' (chunk.ChunkPosition.z * 16 + z'))))
      xs zs ys chunk hv hxm hzm hym)
  exact hgen (World.loopValues 0 (CHUNK_SIZE_X - 1)) (World.loopValues 0 (CHUNK_SIZE_Z - 1))
    (World.loopValues 0 (CHUNK_SIZE_Y - 1))
    (mem_loopValues.mpr (by simp only [CHUNK_SIZE_X]; omega))
    (mem_loopValues.mpr (by simp only [CHUNK_SIZE_Z]; omega))
    (mem_loopValues.mpr (by simp only [CHUNK_SIZE_Y]; omega))

theorem oreBlock_cases (y : Int) (oreNoise : ℚ) :
    WorldGenerator.oreBlock y oreNoise = BlockType.Stone
      ∨ WorldGenerator.oreBlock y oreNoise = BlockType.Coal := by
  unfold WorldGenerator.oreBlock
  by_cases h1 : y < 32 ∧ oreNoise > 11744051 / 16777216
  · rw [if_pos h1]
    exact Or.inr rfl
  · rw [if_neg h1]
    have h2 : ¬(y < 24 ∧ oreNoise > 13421773 / 16777216) := by
      rintro ⟨hy, hn⟩
      exact h1 ⟨by omega, lt_trans (by norm_num) hn⟩
    have h3 : ¬(y < 16 ∧ oreNoise > 7130317 / 8388608) := by
      rintro ⟨hy, hn⟩
      exact h1 ⟨by omega, lt_trans (by norm_num) hn⟩
    have h4 : ¬(y < 12 ∧ oreNoise > 7549747 / 8388608) := by
      rintro ⟨hy, hn⟩
      exact h1 ⟨by omega, lt_trans (by norm_num) hn⟩
    rw [if_neg h2, if_neg h3, if_neg h4]
    exact Or.inl rfl

theorem columnBlock_no_rare_ore (params : TerrainGeneratorComponent) (t y : Int) (oreNoise : ℚ) :
    WorldGenerator.columnBlock params t y oreNoise ≠ BlockType.Iron
      ∧ WorldGenerator.columnBlock params t y oreNoise ≠ BlockType.Gold
      ∧ WorldGenerator.columnBlock params t y oreNoise ≠ BlockType.Diamond := by
  unfold WorldGenerator.columnBlock
  split
  · exact ⟨by decide, by decide, by decide⟩
  · split
    · split
      · exact ⟨by decide, by decide, by decide⟩
      · split
        · exact ⟨by decide, by decide, by decide⟩
        · rcases oreBlock_cases y oreNoise with h | h <;> rw [h] <;>
            exact ⟨by decide, by decide, by decide⟩
    · split <;> exact ⟨by decide, by decide, by decide⟩

/-- C23: the ore selection of `GenerateChunk` never yields Iron, Gold or Diamond: whenever the
gate of one of them holds, the gate of Coal (`y < 32`, noise above `0.7f`), tested first in the
`else if` chain, holds too.  A deep cell is Stone or Coal, and no cell of a generated chunk is
Iron, Gold or Diamond.  At depth 5 with ore noise `0.95` the Diamond gate holds and the cell
becomes Coal, also as a cell of a column of height 64 with the default parameters; at depth 20
with noise `0.82` the Iron gate holds, at depth 14 with noise `0.86` the Gold gate, and both
cells become Coal. -/
theorem ore_selection_only_coal (y : Int) (oreNoise : ℚ) (scaledHeight : Int → Int → Int)
    (noise : Int → Int → Int → ℚ) (chunk : ChunkComponent) (params : TerrainGeneratorComponent)
    (x z : Int) (block : Scene.Block) :
    (WorldGenerator.oreBlock y oreNoise = BlockType.Stone
        ∨ WorldGenerator.oreBlock y oreNoise = BlockType.Coal)
      ∧ ((5 : Int) < 12 ∧ (19 / 20 : ℚ) > 7549747 / 8388608)
      ∧ WorldGenerator.oreBlock 5 (19 / 20) = BlockType.Coal
      ∧ WorldGenerator.columnBlock {} 64 5 (19 / 20) = BlockType.Coal
      ∧ ((20 : Int) < 24 ∧ (41 / 50 : ℚ) > 13421773 / 16777216)
      ∧ WorldGenerator.oreBlock 20 (41 / 50) = BlockType.Coal
      ∧ ((14 : Int) < 16 ∧ (43 / 50 : ℚ) > 7130317 / 8388608)
      ∧ WorldGenerator.oreBlock 14 (43 / 50) = BlockType.Coal
      ∧ ((WorldGenerator.GenerateChunk scaledHeight noise chunk params).GetBlock x y z
            = some block
          → block.type ≠ BlockType.Iron ∧ block.type ≠ BlockType.Gold
            ∧ block.type ≠ BlockType.Diamond) := by
  have hcoal : ∀ (y : Int) (q : ℚ), y < 32 → q > 11744051 / 16777216
      → WorldGenerator.oreBlock y q = BlockType.Coal := by
    intro y q hy hq
    unfold WorldGenerator.oreBlock
    rw [if_pos ⟨hy, hq⟩]
  refine ⟨oreBlock_cases y oreNoise, ⟨by decide, by norm_num⟩,
    hcoal 5 _ (by decide) (by norm_num), ?_, ⟨by decide, by norm_num⟩,
    hcoal 20 _ (by decide) (by norm_num), ⟨by decide, by norm_num⟩,
    hcoal 14 _ (by decide) (by norm_num), ?_⟩
  · unfold WorldGenerator.columnBlock
    rw [if_neg (by decide), if_pos (by decide), if_neg (by decide), if_neg (by decide)]
    exact hcoal 5 _ (by decide) (by norm_num)
  intro hblock
  have hv : ChunkComponent.inBounds x y z = true := by
    unfold ChunkComponent.GetBlock at hblock
    by_contra hn
    rw [if_neg hn] at hblock
    exact absurd hblock (by simp)
  have hb := (inBounds_iff x y z).mp hv
  rw [GenerateChunk_cell scaledHeight noise chunk params hb.1 hb.2.1 hb.2.2] at hblock
  rw [← Option.some.inj hblock]
  exact columnBlock_no_rare_ore params _ y _

/-- C25: in every generated column the cell `y = 0` is Bedrock and no cell with `y ≥ 1` is
Bedrock; with `t` the terrain height clamped to `[0, 255]`, every cell with `y ≥ 1` and
`t < y ≤ WaterLevel` is Water, and every cell with `y > t` and `y > WaterLevel` is Air.  This
holds for every parameter set and all noise values. -/
theorem column_layering (scaledHeight : Int → Int → Int) (oreNoise : Int → Int → Int → ℚ)
    (chunk : ChunkComponent) (params : TerrainGeneratorComponent) (x y z : Int)
    (hx : 0 ≤ x ∧ x < 16) (hy : 0 ≤ y ∧ y < 256) (hz : 0 ≤ z ∧ z < 16) :
    (0 ≤ WorldGenerator.columnHeight params
          (scaledHeight (chunk.ChunkPosition.x * 16 + x) (chunk.ChunkPosition.z * 16 + z))
        ∧ WorldGenerator.columnHeight params
            (scaledHeight (chunk.ChunkPosition.x * 16 + x) (chunk.ChunkPosition.z * 16 + z))
          ≤ 255)
      ∧ ∃ block, (WorldGenerator.GenerateChunk scaledHeight oreNoise chunk params).GetBlock x y z
            = some block
        ∧ (y = 0 → block.type = BlockType.Bedrock)
        ∧ (1 ≤ y → block.type ≠ BlockType.Bedrock)
        ∧ (1 ≤ y
            → WorldGenerator.columnHeight params
                (scaledHeight (chunk.ChunkPosition.x * 16 + x) (chunk.ChunkPosition.z * 16 + z))
              < y
            → y ≤ params.WaterLevel → block.type = BlockType.Water)
        ∧ (WorldGenerator.columnHeight params
              (scaledHeight (chunk.ChunkPosition.x * 16 + x) (chunk.ChunkPosition.z * 16 + z))
            < y
            → params.WaterLevel < y → block.type = BlockType.Air) := by
  generalize ht : WorldGenerator.columnHeight params
    (scaledHeight (chunk.ChunkPosition.x * 16 + x) (chunk.ChunkPosition.z * 16 + z)) = t
  have hrange : 0 ≤ t ∧ t ≤ 255 := by
    rw [← ht]
    unfold WorldGenerator.columnHeight WorldGenerator.clamp
    simp only [CHUNK_SIZE_Y]
    omega
  refine ⟨hrange, _, GenerateChunk_cell scaledHeight oreNoise chunk params hx hy hz, ?_, ?_, ?_, ?_⟩
  · intro h0
    show WorldGenerator.columnBlock params _ y _ = _
    unfold WorldGenerator.columnBlock
    rw [if_pos h0]
  · intro h1
    show WorldGenerator.columnBlock params _ y _ ≠ _
    unfold WorldGenerator.columnBlock
    rw [if_neg (by omega)]
    split
    · split
      · decide
      · split
        · decide
        · rcases oreBlock_cases y (oreNoise (chunk.ChunkPosition.x * 16 + x) y
            (chunk.ChunkPosition.z * 16 + z)) with h | h <;> rw [h] <;> decide
    · split <;> decide
  · intro h1 hty hw
    show WorldGenerator.columnBlock params _ y _ = _
    rw [ht]
    unfold WorldGenerator.columnBlock
    rw [if_neg (by omega), if_neg (by omega), if_pos hw]
  · intro hty hw
    show WorldGenerator.columnBlock params _ y _ = _
    rw [ht]
    unfold WorldGenerator.columnBlock
    by_cases h0 : y = 0
    · omega
    · rw [if_neg h0, if_neg (by omega), if_neg (by omega)]

/-- The layering of C25 at cell `(3, 70, 4)` of a chunk generated with the default parameters
and a flat height term of `-10`: terrain height 54, water level 62, so the cell is Air. -/
theorem column_layering_witness :
    (((0 : Int) ≤ 3 ∧ (3 : Int) < 16) ∧ ((0 : Int) ≤ 70 ∧ (70 : Int) < 256)
        ∧ ((0 : Int) ≤ 4 ∧ (4 : Int) < 16))
      ∧ ∃ block, (WorldGenerator.GenerateChunk (fun _ _ => -10) (fun _ _ _ => 0)
            (ChunkComponent.new ⟨0, 0, 0⟩) {}).GetBlock 3 70 4 = some block
        ∧ block.type = BlockType.Air := by
  refine ⟨by decide, ?_⟩
  obtain ⟨_, block, hb, _, _, _, hair⟩ := column_layering (fun _ _ => -10) (fun _ _ _ => 0)
    (ChunkComponent.new ⟨0, 0, 0⟩) {} 3 70 4 (by decide) (by decide) (by decide)
  exact ⟨block, hb, hair (by decide) (by decide)⟩

end WorldGenerator

/-! ## Index safety of the noise table -/

section SimplexNoise

open Scene

theorem intAnd_255_range (a : Int) : 0 ≤ intAnd a 255 ∧ intAnd a 255 ≤ 255 := by
  have h255 : toBits 32 255 = 255 := by decide
  have hle : toBits 32 a &&& 255 ≤ 255 := Nat.and_le_right
  unfold intAnd ofBits
  rw [h255]
  rw [if_pos (by norm_num; omega)]
  omega

theorem latticeIndex_range (x : ℚ) :
    0 ≤ SimplexNoise.latticeIndex x ∧ SimplexNoise.latticeIndex x ≤ 255 :=
  intAnd_255_range _

/-- An access at an index in `[0, 511]` of a table of 512 entries with values in `[0, 255]`
succeeds and reads a value in `[0, 255]`. -/
theorem tableAt_some (n : SimplexNoise) (hlen : n.m_Permutation.length = 512)
    (hval : ∀ v ∈ n.m_Permutation, 0 ≤ v ∧ v ≤ 255) {i : Int} (hi : 0 ≤ i ∧ i ≤ 511) :
    ∃ v, n.tableAt i = some v ∧ 0 ≤ v ∧ v ≤ 255 := by
  have hlt : i.toNat < n.m_Permutation.length := by
    rw [hlen]
    omega
  refine ⟨n.m_Permutation.get ⟨i.toNat, hlt⟩, ?_, hval _ (List.get_mem _ _ _)⟩
  unfold SimplexNoise.tableAt
  rw [if_neg (by omega), List.getElem?_eq_getElem hlt]
  rfl

/-- An access outside `[0, length)` fails. -/
theorem tableAt_none (n : SimplexNoise) {i : Int}
    (hi : i < 0 ∨ (n.m_Permutation.length : Int) ≤ i) : n.tableAt i = none := by
  unfold SimplexNoise.tableAt
  by_cases h0 : i < 0
  · rw [if_pos h0]
  · rw [if_neg h0, List.getElem?_eq_none]
    omega

/-- The table built by the constructor has 512 entries with values in `[0, 255]`, whatever
permutation the shuffle applies. -/
theorem construct_table (shuffle : List Int → List Int)
    (hperm : ∀ t, (shuffle t).Perm t) (seed : Int) :
    (SimplexNoise.construct shuffle seed).m_Permutation.length = 512
      ∧ ∀ v ∈ (SimplexNoise.construct shuffle seed).m_Permutation, 0 ≤ v ∧ v ≤ 255 := by
  unfold SimplexNoise.construct
  constructor
  · simp only [List.length_append, (hperm _).length_eq, List.length_map, List.length_range]
  · intro v hv
    simp only [List.mem_append, or_self, (hperm _).mem_iff, List.mem_map, List.mem_range] at hv
    obtain ⟨i, hi, rfl⟩ := hv
    omega

/-- C27: for a permutation table of 512 entries with values in `[0, 255]` and every pair of
coordinates, the masked indices `xi`, `yi` of `Noise2D` lie in `[0, 255]`; the accesses at
`xi` and `xi + 1` succeed with values `p` and `q` in `[0, 255]`; the four indices `p + yi`,
`p + yi + 1`, `q + yi`, `q + yi + 1` lie in `[0, 511]` and the accesses there succeed; and
`Noise2D` returns a value. -/
theorem Noise2D_index_safety (n : SimplexNoise) (x y : ℚ)
    (hlen : n.m_Permutation.length = 512)
    (hval : ∀ v ∈ n.m_Permutation, 0 ≤ v ∧ v ≤ 255) :
    (0 ≤ SimplexNoise.latticeIndex x ∧ SimplexNoise.latticeIndex x ≤ 255)
      ∧ (0 ≤ SimplexNoise.latticeIndex y ∧ SimplexNoise.latticeIndex y ≤ 255)
      ∧ (∃ p q : Int,
          n.tableAt (SimplexNoise.latticeIndex x) = some p
          ∧ n.tableAt (SimplexNoise.latticeIndex x + 1) = some q
          ∧ (0 ≤ SimplexNoise.latticeIndex x + 1 ∧ SimplexNoise.latticeIndex x + 1 ≤ 511)
          ∧ (0 ≤ p + SimplexNoise.latticeIndex y ∧ p + SimplexNoise.latticeIndex y + 1 ≤ 511)
          ∧ (0 ≤ q + SimplexNoise.latticeIndex y ∧ q + SimplexNoise.latticeIndex y + 1 ≤ 511)
          ∧ (n.tableAt (p + SimplexNoise.latticeIndex y)).isSome = true
          ∧ (n.tableAt (p + SimplexNoise.latticeIndex y + 1)).isSome = true
          ∧ (n.tableAt (q + SimplexNoise.latticeIndex y)).isSome = true
          ∧ (n.tableAt (q + SimplexNoise.latticeIndex y + 1)).isSome = true)
      ∧ (n.Noise2D x y).isSome = true := by
  have hx := latticeIndex_range x
  have hy := latticeIndex_range y
  obtain ⟨p, hp, hp0, hp1⟩ := tableAt_some n hlen hval (i := SimplexNoise.latticeIndex x)
    ⟨hx.1, by omega⟩
  obtain ⟨q, hq, hq0, hq1⟩ := tableAt_some n hlen hval (i := SimplexNoise.latticeIndex x + 1)
    ⟨by omega, by omega⟩
  obtain ⟨aa, haa, _⟩ := tableAt_some n hlen hval (i := p + SimplexNoise.latticeIndex y)
    ⟨by omega, by omega⟩
  obtain ⟨ab, hab, _⟩ := tableAt_some n hlen hval (i := p + SimplexNoise.latticeIndex y + 1)
    ⟨by omega, by omega⟩
  obtain ⟨ba, hba, _⟩ := tableAt_some n hlen hval (i := q + SimplexNoise.latticeIndex y)
    ⟨by omega, by omega⟩
  obtain ⟨bb, hbb, _⟩ := tableAt_some n hlen hval (i := q + SimplexNoise.latticeIndex y + 1)
    ⟨by omega, by omega⟩
  refine ⟨hx, hy, ⟨p, q, hp, hq, ⟨by omega, by omega⟩, ⟨by omega, by omega⟩,
    ⟨by omega, by omega⟩, ?_, ?_, ?_, ?_⟩, ?_⟩
  · rw [haa]; rfl
  · rw [hab]; rfl
  · rw [hba]; rfl
  · rw [hbb]; rfl
  · unfold SimplexNoise.Noise2D
    simp only [hp, hq, haa, hab, hba, hbb, Option.bind_eq_bind, Option.some_bind,
      Option.pure_def, Option.isSome_some]

/-- The index safety of C27 for the table built by the constructor with an identity shuffle,
at the point `(-1/2, 1000)`. -/
theorem Noise2D_index_safety_witness :
    (SimplexNoise.construct id 0).m_Permutation.length = 512
      ∧ (∀ v ∈ (SimplexNoise.construct id 0).m_Permutation, 0 ≤ v ∧ v ≤ 255)
      ∧ ((SimplexNoise.construct id 0).Noise2D (-1 / 2) 1000).isSome = true :=
  ⟨(construct_table id (fun _ => List.Perm.refl _) 0).1,
    (construct_table id (fun _ => List.Perm.refl _) 0).2,
    (Noise2D_index_safety (SimplexNoise.construct id 0) (-1 / 2) 1000
      (construct_table id (fun _ => List.Perm.refl _) 0).1
      (construct_table id (fun _ => List.Perm.refl _) 0).2).2.2.2⟩

end SimplexNoise

/-! ## The player inventory -/

section Inventory

open Scene

theorem totalOf_nil (t : BlockType) : totalOf t [] = 0 := rfl

theorem totalOf_cons (t : BlockType) (s : ItemStack) (l : List ItemStack) :
    totalOf t (s :: l) = (if s.type = t then s.Count else 0) + totalOf t l := by
  simp [totalOf]

theorem totalOf_nonneg (t : BlockType) (l : List ItemStack) (h : ∀ s ∈ l, 0 ≤ s.Count) :
    0 ≤ totalOf t l := by
  induction l with
  | nil => exact le_refl _
  | cons s l ih =>
    rw [totalOf_cons]
    have hs := h s (List.mem_cons_self s l)
    have hl := ih (fun s' hs' => h s' (List.mem_cons_of_mem s hs'))
    split <;> omega

/-- The first loop of `AddItem`: what is left of `count` is not negative, the total of `type`
grows by what was taken from `count`, the other totals stay, the slots stay in `[0, 64]`, Air
slots stay empty, and a `return true` leaves nothing of `count`. -/
theorem stackLoop_spec (type : BlockType) (htype : type ≠ BlockType.Air) :
    ∀ (items : List ItemStack) (count : Int), 0 ≤ count
      → (∀ s ∈ items, 0 ≤ s.Count ∧ s.Count ≤ 64)
      → (∀ s ∈ items, s.type = BlockType.Air → s.Count = 0)
      → 0 ≤ (PlayerInventoryComponent.stackLoop type items count).2.1
        ∧ totalOf type (PlayerInventoryComponent.stackLoop type items count).1
            = totalOf type items
              + (count - (PlayerInventoryComponent.stackLoop type items count).2.1)
        ∧ (∀ t, t ≠ type → totalOf t (PlayerInventoryComponent.stackLoop type items count).1
            = totalOf t items)
        ∧ (∀ s ∈ (PlayerInventoryComponent.stackLoop type items count).1,
            0 ≤ s.Count ∧ s.Count ≤ 64)
        ∧ (∀ s ∈ (PlayerInventoryComponent.stackLoop type items count).1,
            s.type = BlockType.Air → s.Count = 0)
        ∧ ((PlayerInventoryComponent.stackLoop type items count).2.2 = true
            → (PlayerInventoryComponent.stackLoop type items count).2.1 = 0)
        ∧ (PlayerInventoryComponent.stackLoop type items count).1.length = items.length := by
  intro items
  induction items with
  | nil =>
    intro count hc _ _
    simp [PlayerInventoryComponent.stackLoop, hc]
  | cons item rest ih =>
    intro count hc hslots hair
    have hi := hslots item (List.mem_cons_self item rest)
    have hrest : ∀ s ∈ rest, 0 ≤ s.Count ∧ s.Count ≤ 64 :=
      fun s hs => hslots s (List.mem_cons_of_mem item hs)
    have hairrest : ∀ s ∈ rest, s.type = BlockType.Air → s.Count = 0 :=
      fun s hs => hair s (List.mem_cons_of_mem item hs)
    rw [PlayerInventoryComponent.stackLoop]
    by_cases hcond : item.type = type ∧ item.Count < 64
    · rw [if_pos hcond]
      have hne : ∀ t, t ≠ type → ¬item.type = t := fun t ht h => ht (h.symm.trans hcond.1)
      by_cases hle : count - min (64 - item.Count) count ≤ 0
      · simp only [if_pos hle]
        refine ⟨by omega, ?_, ?_, ?_, ?_, fun _ => by omega, by simp⟩
        · rw [totalOf_cons, totalOf_cons]
          simp only [if_pos hcond.1]
          omega
        · intro t ht
          rw [totalOf_cons, totalOf_cons]
          simp only [if_neg (hne t ht)]
        · intro s hs
          rcases List.mem_cons.mp hs with h | h
          · rw [h]
            constructor <;> simp only <;> omega
          · exact hrest s h
        · intro s hs hsair
          rcases List.mem_cons.mp hs with h | h
          · rw [h] at hsair
            exact absurd (hcond.1.symm.trans hsair) htype
          · exact hairrest s h hsair
      · simp only [if_neg hle]
        obtain ⟨h1, h2, h3, h4, h5, h6, h7⟩ :=
          ih (count - min (64 - item.Count) count) (by omega) hrest hairrest
        refine ⟨h1, ?_, ?_, ?_, ?_, h6, by simp [h7]⟩
        · rw [totalOf_cons, totalOf_cons, h2]
          simp only [if_pos hcond.1]
          omega
        · intro t ht
          rw [totalOf_cons, totalOf_cons, h3 t ht]
          simp only [if_neg (hne t ht)]
        · intro s hs
          rcases List.mem_cons.mp hs with h | h
          · rw [h]
            constructor <;> simp only <;> omega
          · exact h4 s h
        · intro s hs hsair
          rcases List.mem_cons.mp hs with h | h
          · rw [h] at hsair
            exact absurd (hcond.1.symm.trans hsair) htype
          · exact h5 s h hsair
    · rw [if_neg hcond]
      dsimp only
      obtain ⟨h1, h2, h3, h4, h5, h6, h7⟩ := ih count hc hrest hairrest
      refine ⟨h1, ?_, ?_, ?_, ?_, h6, by simp [h7]⟩
      · rw [totalOf_cons, totalOf_cons, h2]
        omega
      · intro t ht
        rw [totalOf_cons, totalOf_cons, h3 t ht]
      · intro s hs
        rcases List.mem_cons.mp hs with h | h
        · rw [h]
          exact hi
        · exact h4 s h
      · intro s hs hsair
        rcases List.mem_cons.mp hs with h | h
        · rw [h] at hsair ⊢
          exact hair item (List.mem_cons_self item rest) hsair
        · exact h5 s h hsair

/-- The second loop of `AddItem`: what is left of `count` is not negative, the total of `type`
grows by what was taken from `count`, the other totals stay, the slots stay in `[0, 64]`, and
a `return true` leaves nothing of `count`. -/
theorem emptySlotLoop_spec (type : BlockType) :
    ∀ (items : List ItemStack) (count : Int), 0 ≤ count
      → (∀ s ∈ items, 0 ≤ s.Count ∧ s.Count ≤ 64)
      → (∀ s ∈ items, s.type = BlockType.Air → s.Count = 0)
      → 0 ≤ (PlayerInventoryComponent.emptySlotLoop type items count).2.1
        ∧ totalOf type (PlayerInventoryComponent.emptySlotLoop type items count).1
            = totalOf type items
              + (count - (PlayerInventoryComponent.emptySlotLoop type items count).2.1)
        ∧ (∀ t, t ≠ type → totalOf t (PlayerInventoryComponent.emptySlotLoop type items count).1
            = totalOf t items)
        ∧ (∀ s ∈ (PlayerInventoryComponent.emptySlotLoop type items count).1,
            0 ≤ s.Count ∧ s.Count ≤ 64)
        ∧ ((PlayerInventoryComponent.emptySlotLoop type items count).2.2 = true
            → (PlayerInventoryComponent.emptySlotLoop type items count).2.1 = 0)
        ∧ (PlayerInventoryComponent.emptySlotLoop type items count).1.length
            = items.length := by
  intro items
  induction items with
  | nil =>
    intro count hc _ _
    simp [PlayerInventoryComponent.emptySlotLoop, hc]
  | cons item rest ih =>
    intro count hc hslots hair
    have hi := hslots item (List.mem_cons_self item rest)
    have hrest : ∀ s ∈ rest, 0 ≤ s.Count ∧ s.Count ≤ 64 :=
      fun s hs => hslots s (List.mem_cons_of_mem item hs)
    have hairrest : ∀ s ∈ rest, s.type = BlockType.Air → s.Count = 0 :=
      fun s hs => hair s (List.mem_cons_of_mem item hs)
    rw [PlayerInventoryComponent.emptySlotLoop]
    by_cases hcond : item.type = BlockType.Air ∨ item.Count = 0
    · rw [if_pos hcond]
      have h0 : item.Count = 0 := by
        rcases hcond with h | h
        · exact hair item (List.mem_cons_self item rest) h
        · exact h
      have hold : ∀ t, (if item.type = t then item.Count else 0) = 0 := by
        intro t
        rw [h0]
        exact ite_self 0
      have hne : ∀ t, t ≠ type → ¬type = t := fun t ht h => ht h.symm
      by_cases hle : count - min count 64 ≤ 0
      · simp only [if_pos hle]
        refine ⟨by omega, ?_, ?_, ?_, fun _ => by omega, by simp⟩
        · rw [totalOf_cons, totalOf_cons, hold]
          simp only [if_true]
          omega
        · intro t ht
          rw [totalOf_cons, totalOf_cons, hold]
          simp only [if_neg (hne t ht)]
        · intro s hs
          rcases List.mem_cons.mp hs with h | h
          · rw [h]
            constructor <;> simp only <;> omega
          · exact hrest s h
      · simp only [if_neg hle]
        obtain ⟨h1, h2, h3, h4, h6, h7⟩ := ih (count - min count 64) (by omega) hrest hairrest
        refine ⟨h1, ?_, ?_, ?_, h6, by simp [h7]⟩
        · rw [totalOf_cons, totalOf_cons, h2, hold]
          simp only [if_true]
          omega
        · intro t ht
          rw [totalOf_cons, totalOf_cons, h3 t ht, hold]
          simp only [if_neg (hne t ht)]
        · intro s hs
          rcases List.mem_cons.mp hs with h | h
          · rw [h]
            constructor <;> simp only <;> omega
          · exact h4 s h
    · rw [if_neg hcond]
      dsimp only
      obtain ⟨h1, h2, h3, h4, h6, h7⟩ := ih count hc hrest hairrest
      refine ⟨h1, ?_, ?_, ?_, h6, by simp [h7]⟩
      · rw [totalOf_cons, totalOf_cons, h2]
        omega
      · intro t ht
        rw [totalOf_cons, totalOf_cons, h3 t ht]
      · intro s hs
        rcases List.mem_cons.mp hs with h | h
        · rw [h]
          exact hi
        · exact h4 s h

theorem stackLoop_le (type : BlockType) :
    ∀ (items : List ItemStack) (count : Int), 0 ≤ count
      → 0 ≤ (PlayerInventoryComponent.stackLoop type items count).2.1
        ∧ (PlayerInventoryComponent.stackLoop type items count).2.1 ≤ count := by
  intro items
  induction items with
  | nil =>
    intro count hc
    exact ⟨hc, le_refl _⟩
  | cons item rest ih =>
    intro count hc
    rw [PlayerInventoryComponent.stackLoop]
    by_cases hcond : item.type = type ∧ item.Count < 64
    · rw [if_pos hcond]
      by_cases hle : count - min (64 - item.Count) count ≤ 0
      · simp only [if_pos hle]
        omega
      · simp only [if_neg hle]
        have h := ih (count - min (64 - item.Count) count) (by omega)
        omega
    · rw [if_neg hcond]
      exact ih count hc

theorem emptySlotLoop_le (type : BlockType) :
    ∀ (items : List ItemStack) (count : Int), 0 ≤ count
      → 0 ≤ (PlayerInventoryComponent.emptySlotLoop type items count).2.1
        ∧ (PlayerInventoryComponent.emptySlotLoop type items count).2.1 ≤ count := by
  intro items
  induction items with
  | nil =>
    intro count hc
    exact ⟨hc, le_refl _⟩
  | cons item rest ih =>
    intro count hc
    rw [PlayerInventoryComponent.emptySlotLoop]
    by_cases hcond : item.type = BlockType.Air ∨ item.Count = 0
    · rw [if_pos hcond]
      by_cases hle : count - min count 64 ≤ 0
      · simp only [if_pos hle]
        omega
      · simp only [if_neg hle]
        have h := ih (count - min count 64) (by omega)
        omega
    · rw [if_neg hcond]
      exact ih count hc

theorem stackSpace_cons (t : BlockType) (s : ItemStack) (l : List ItemStack) :
    stackSpace t (s :: l) = (if s.type = t then 64 - s.Count else 0) + stackSpace t l := by
  simp [stackSpace]

theorem emptySpace_cons (t : BlockType) (s : ItemStack) (l : List ItemStack) :
    emptySpace t (s :: l)
      = (if s.type ≠ t ∧ (s.type = BlockType.Air ∨ s.Count = 0) then 64 else 0)
        + emptySpace t l := by
  simp [emptySpace]

theorem stackSpace_nonneg (t : BlockType) (l : List ItemStack) (h : ∀ s ∈ l, s.Count ≤ 64) :
    0 ≤ stackSpace t l := by
  induction l with
  | nil => exact le_refl _
  | cons s l ih =>
    rw [stackSpace_cons]
    have hs := h s (List.mem_cons_self s l)
    have hl := ih (fun s' hs' => h s' (List.mem_cons_of_mem s hs'))
    split <;> omega

theorem emptySpace_nonneg (t : BlockType) (l : List ItemStack) : 0 ≤ emptySpace t l := by
  induction l with
  | nil => exact le_refl _
  | cons s l ih =>
    rw [emptySpace_cons]
    split <;> omega

theorem forall₂_chain {α : Type} {R S T : α → α → Prop} (h : ∀ a b c, R a b → S b c → T a c) :
    ∀ {l₁ l₂ l₃ : List α}, List.Forall₂ R l₁ l₂ → List.Forall₂ S l₂ l₃ → List.Forall₂ T l₁ l₃
  | _, _, _, List.Forall₂.nil, List.Forall₂.nil => List.Forall₂.nil
  | _, _, _, List.Forall₂.cons h₁ t₁, List.Forall₂.cons h₂ t₂ =>
    List.Forall₂.cons (h _ _ _ h₁ h₂) (forall₂_chain h t₁ t₂)

/-- The first loop of `AddItem` fills the slots holding `type` in order: what is left of
`count` is what exceeds their room; a loop that runs to its end has filled every one of them
to 64; the empty slots keep their room; each slot is untouched or held `type` and gained
items. -/
theorem stackLoop_fill (type : BlockType) :
    ∀ (items : List ItemStack) (count : Int), 0 ≤ count
      → (∀ s ∈ items, 0 ≤ s.Count ∧ s.Count ≤ 64)
      → (PlayerInventoryComponent.stackLoop type items count).2.1
          = max 0 (count - stackSpace type items)
        ∧ ((PlayerInventoryComponent.stackLoop type items count).2.2 = false
            → (PlayerInventoryComponent.stackLoop type items count).2.1
                = count - stackSpace type items
              ∧ ∀ s ∈ (PlayerInventoryComponent.stackLoop type items count).1,
                  s.type = type → s.Count = 64)
        ∧ emptySpace type (PlayerInventoryComponent.stackLoop type items count).1
            = emptySpace type items
        ∧ List.Forall₂ (fun before after : ItemStack => after = before
            ∨ (before.type = type ∧ after.type = type ∧ before.Count < after.Count
              ∧ after.Count ≤ 64))
          items (PlayerInventoryComponent.stackLoop type items count).1 := by
  intro items
  induction items with
  | nil =>
    intro count hc _
    refine ⟨?_, fun _ => ⟨?_, fun s hs => absurd hs (List.not_mem_nil s)⟩, rfl,
      List.Forall₂.nil⟩
    · show count = max 0 (count - 0)
      omega
    · show count = count - 0
      omega
  | cons item rest ih =>
    intro count hc hslots
    have hi := hslots item (List.mem_cons_self item rest)
    have hrest : ∀ s ∈ rest, 0 ≤ s.Count ∧ s.Count ≤ 64 :=
      fun s hs => hslots s (List.mem_cons_of_mem item hs)
    have hnn := stackSpace_nonneg type rest (fun s hs => (hrest s hs).2)
    rw [PlayerInventoryComponent.stackLoop]
    by_cases hcond : item.type = type ∧ item.Count < 64
    · rw [if_pos hcond]
      have hes : ∀ c : Int, (if (⟨item.type, c⟩ : ItemStack).type ≠ type
            ∧ ((⟨item.type, c⟩ : ItemStack).type = BlockType.Air
              ∨ (⟨item.type, c⟩ : ItemStack).Count = 0) then (64 : Int) else 0) = 0 :=
        fun c => if_neg (fun h => h.1 hcond.1)
      have hes' : (if item.type ≠ type ∧ (item.type = BlockType.Air ∨ item.Count = 0)
          then (64 : Int) else 0) = 0 := if_neg (fun h => h.1 hcond.1)
      by_cases hle : count - min (64 - item.Count) count ≤ 0
      · simp only [if_pos hle]
        refine ⟨?_, fun h => absurd h (by simp), ?_, ?_⟩
        · rw [stackSpace_cons, if_pos hcond.1]
          omega
        · rw [emptySpace_cons, emptySpace_cons, hes, hes']
        · refine List.Forall₂.cons ?_ (List.forall₂_same.mpr (fun s _ => Or.inl rfl))
          by_cases h0 : min (64 - item.Count) count = 0
          · left
            rw [h0]
            cases item
            simp
          · right
            exact ⟨hcond.1, hcond.1, by simp only; omega, by simp only; omega⟩
      · simp only [if_neg hle]
        obtain ⟨h1, h2, h3, h4⟩ := ih (count - min (64 - item.Count) count) (by omega) hrest
        refine ⟨?_, ?_, ?_, ?_⟩
        · rw [h1, stackSpace_cons, if_pos hcond.1]
          omega
        · intro hret
          obtain ⟨h5, h6⟩ := h2 hret
          refine ⟨?_, ?_⟩
          · rw [h5, stackSpace_cons, if_pos hcond.1]
            omega
          · intro s hs hst
            rcases List.mem_cons.mp hs with h | h
            · rw [h]
              simp only
              omega
            · exact h6 s h hst
        · rw [emptySpace_cons, emptySpace_cons, hes, hes', h3]
        · refine List.Forall₂.cons (Or.inr ⟨hcond.1, hcond.1, ?_, ?_⟩) h4
          · simp only
            omega
          · simp only
            omega
    · rw [if_neg hcond]
      dsimp only
      obtain ⟨h1, h2, h3, h4⟩ := ih count hc hrest
      have hss : (if item.type = type then 64 - item.Count else 0) = 0 := by
        by_cases ht : item.type = type
        · rw [if_pos ht]
          have : ¬item.Count < 64 := fun h => hcond ⟨ht, h⟩
          omega
        · rw [if_neg ht]
      refine ⟨?_, ?_, ?_, List.Forall₂.cons (Or.inl rfl) h4⟩
      · rw [h1, stackSpace_cons, hss]
        omega
      · intro hret
        obtain ⟨h5, h6⟩ := h2 hret
        refine ⟨?_, ?_⟩
        · rw [h5, stackSpace_cons, hss]
          omega
        · intro s hs hst
          rcases List.mem_cons.mp hs with h | h
          · rw [h] at hst ⊢
            have : ¬item.Count < 64 := fun h => hcond ⟨hst, h⟩
            omega
          · exact h6 s h hst
      · rw [emptySpace_cons, emptySpace_cons, h3]

/-- The second loop of `AddItem`, entered when every slot holding `type` is full, fills the
empty slots in order: what is left of `count` is what exceeds their room; each slot is
untouched or was empty and now holds `type`. -/
theorem emptySlotLoop_fill (type : BlockType) (htype : type ≠ BlockType.Air) :
    ∀ (items : List ItemStack) (count : Int), 0 ≤ count
      → (∀ s ∈ items, s.type = BlockType.Air → s.Count = 0)
      → (∀ s ∈ items, s.type = type → s.Count = 64)
      → (PlayerInventoryComponent.emptySlotLoop type items count).2.1
          = max 0 (count - emptySpace type items)
        ∧ List.Forall₂ (fun before after : ItemStack => after = before
            ∨ (before.type ≠ type ∧ (before.type = BlockType.Air ∨ before.Count = 0)
              ∧ after.type = type ∧ 0 ≤ after.Count ∧ after.Count ≤ 64))
          items (PlayerInventoryComponent.emptySlotLoop type items count).1 := by
  intro items
  induction items with
  | nil =>
    intro count hc _ _
    refine ⟨?_, List.Forall₂.nil⟩
    show count = max 0 (count - 0)
    omega
  | cons item rest ih =>
    intro count hc hair hfull
    have hairrest : ∀ s ∈ rest, s.type = BlockType.Air → s.Count = 0 :=
      fun s hs => hair s (List.mem_cons_of_mem item hs)
    have hfullrest : ∀ s ∈ rest, s.type = type → s.Count = 64 :=
      fun s hs => hfull s (List.mem_cons_of_mem item hs)
    have hnn := emptySpace_nonneg type rest
    rw [PlayerInventoryComponent.emptySlotLoop]
    by_cases hcond : item.type = BlockType.Air ∨ item.Count = 0
    · rw [if_pos hcond]
      have hnt : item.type ≠ type := by
        intro ht
        have h64 := hfull item (List.mem_cons_self item rest) ht
        rcases hcond with h | h
        · exact htype (ht.symm.trans h)
        · omega
      have hes : (if item.type ≠ type ∧ (item.type = BlockType.Air ∨ item.Count = 0)
          then (64 : Int) else 0) = 64 := if_pos ⟨hnt, hcond⟩
      by_cases hle : count - min count 64 ≤ 0
      · simp only [if_pos hle]
        refine ⟨?_, List.Forall₂.cons (Or.inr ⟨hnt, hcond, rfl, ?_, ?_⟩)
          (List.forall₂_same.mpr (fun s _ => Or.inl rfl))⟩
        · rw [emptySpace_cons, hes]
          omega
        · simp only
          omega
        · simp only
          omega
      · simp only [if_neg hle]
        obtain ⟨h1, h2⟩ := ih (count - min count 64) (by omega) hairrest hfullrest
        refine ⟨?_, List.Forall₂.cons (Or.inr ⟨hnt, hcond, rfl, ?_, ?_⟩) h2⟩
        · rw [h1, emptySpace_cons, hes]
          omega
        · simp only
          omega
        · simp only
          omega
    · rw [if_neg hcond]
      dsimp only
      obtain ⟨h1, h2⟩ := ih count hc hairrest hfullrest
      have hes : (if item.type ≠ type ∧ (item.type = BlockType.Air ∨ item.Count = 0)
          then (64 : Int) else 0) = 0 := if_neg (fun h => hcond h.2)
      refine ⟨?_, List.Forall₂.cons (Or.inl rfl) h2⟩
      rw [h1, emptySpace_cons, hes]
      omega

/-- What `AddItem` does, in terms of the part `rest` of `count` that did not fit. -/
theorem AddItem_summary (inv : PlayerInventoryComponent) (type : BlockType) (count : Int)
    (htype : type ≠ BlockType.Air) (hcount : 0 ≤ count)
    (hslots : ∀ s ∈ inv.Items, 0 ≤ s.Count ∧ s.Count ≤ 64)
    (hair : ∀ s ∈ inv.Items, s.type = BlockType.Air → s.Count = 0) :
    ∃ rest : Int, (0 ≤ rest ∧ rest ≤ count)
      ∧ (inv.AddItem type count).1 = decide (rest = 0)
      ∧ totalOf type (inv.AddItem type count).2.Items
          = totalOf type inv.Items + (count - rest)
      ∧ (∀ t, t ≠ type → totalOf t (inv.AddItem type count).2.Items = totalOf t inv.Items)
      ∧ (∀ s ∈ (inv.AddItem type count).2.Items, 0 ≤ s.Count ∧ s.Count ≤ 64)
      ∧ (inv.AddItem type count).2.Items.length = inv.Items.length
      ∧ rest = max 0 (count - (stackSpace type inv.Items + emptySpace type inv.Items))
      ∧ List.Forall₂ (fun before after : ItemStack => after = before
          ∨ (before.type = type ∧ after.type = type ∧ before.Count < after.Count
            ∧ after.Count ≤ 64)
          ∨ (before.type ≠ type ∧ (before.type = BlockType.Air ∨ before.Count = 0)
            ∧ after.type = type ∧ 0 ≤ after.Count ∧ after.Count ≤ 64))
        inv.Items (inv.AddItem type count).2.Items := by
  obtain ⟨s1, s2, s3, s4, s5, s6, s7⟩ :=
    stackLoop_spec type htype inv.Items count hcount hslots hair
  obtain ⟨e1, e2, e3, e4, e6, e7⟩ := emptySlotLoop_spec type
    (PlayerInventoryComponent.stackLoop type inv.Items count).1
    (PlayerInventoryComponent.stackLoop type inv.Items count).2.1 s1 s4 s5
  have sle := stackLoop_le type inv.Items count hcount
  have ele := emptySlotLoop_le type
    (PlayerInventoryComponent.stackLoop type inv.Items count).1
    (PlayerInventoryComponent.stackLoop type inv.Items count).2.1 s1
  obtain ⟨f1, f2, f3, f4⟩ := stackLoop_fill type inv.Items count hcount hslots
  have hes := emptySpace_nonneg type inv.Items
  unfold PlayerInventoryComponent.AddItem
  dsimp only
  cases hret : (PlayerInventoryComponent.stackLoop type inv.Items count).2.2 with
  | true =>
    have h0 := s6 hret
    simp only [if_true]
    refine ⟨0, ⟨le_refl _, hcount⟩, by simp, by rw [s2, h0], s3, s4, s7, by omega, ?_⟩
    exact f4.imp (fun _ _ h => h.imp id Or.inl)
  | false =>
    obtain ⟨f5, f6⟩ := f2 hret
    obtain ⟨g1, g2⟩ := emptySlotLoop_fill type htype
      (PlayerInventoryComponent.stackLoop type inv.Items count).1
      (PlayerInventoryComponent.stackLoop type inv.Items count).2.1 s1 s5 f6
    have hchain : List.Forall₂ (fun before after : ItemStack => after = before
          ∨ (before.type = type ∧ after.type = type ∧ before.Count < after.Count
            ∧ after.Count ≤ 64)
          ∨ (before.type ≠ type ∧ (before.type = BlockType.Air ∨ before.Count = 0)
            ∧ after.type = type ∧ 0 ≤ after.Count ∧ after.Count ≤ 64))
        inv.Items (PlayerInventoryComponent.emptySlotLoop type
          (PlayerInventoryComponent.stackLoop type inv.Items count).1
          (PlayerInventoryComponent.stackLoop type inv.Items count).2.1).1 := by
      refine forall₂_chain ?_ f4 g2
      intro a b c hab hbc
      rcases hab with rfl | ⟨h1, h2, h3, h4⟩
      · rcases hbc with rfl | h
        · exact Or.inl rfl
        · exact Or.inr (Or.inr h)
      · rcases hbc with rfl | ⟨h5, _⟩
        · exact Or.inr (Or.inl ⟨h1, h2, h3, h4⟩)
        · exact absurd h2 h5
    simp only [Bool.false_eq_true, if_false]
    cases hret2 : (PlayerInventoryComponent.emptySlotLoop type
        (PlayerInventoryComponent.stackLoop type inv.Items count).1
        (PlayerInventoryComponent.stackLoop type inv.Items count).2.1).2.2 with
    | true =>
      have h0 := e6 hret2
      simp only [if_true]
      refine ⟨0, ⟨le_refl _, hcount⟩, by simp, ?_, ?_, e4, by rw [e7, s7], ?_, hchain⟩
      · rw [e2, s2, h0]
        omega
      · intro t ht
        rw [e3 t ht, s3 t ht]
      · rw [h0, f5, f3] at g1
        omega
    | false =>
      simp only [Bool.false_eq_true, if_false]
      refine ⟨_, ⟨e1, by omega⟩, rfl, ?_, ?_, e4, by rw [e7, s7], ?_, hchain⟩
      · rw [e2, s2]
        omega
      · intro t ht
        rw [e3 t ht, s3 t ht]
      · rw [g1, f5, f3]
        omega

/-- C29: for `type` other than Air, `count ≥ 0` and an inventory whose slots all have
`0 ≤ Count ≤ 64` and whose Air slots have `Count = 0`, `AddItem(type, count)` leaves every
slot with `Count ≤ 64` and the totals of all other block types unchanged; it returns true if
and only if the total of `type` grew by exactly `count`; when it returns false the total grew
by less than `count`, and it never shrinks.  The number of slots stays.  The part that fits
is added: with `room` the room in the slots holding `type` plus 64 for every empty slot, the
total of `type` grows by exactly `min(count, room)`, and the call returns true if and only if
`count ≤ room`.  Each slot is left as it was, or held `type` and gained items, or was empty
and now holds `type`. -/
theorem AddItem_conservation (inv : PlayerInventoryComponent) (type : BlockType) (count : Int)
    (htype : type ≠ BlockType.Air) (hcount : 0 ≤ count)
    (hslots : ∀ s ∈ inv.Items, 0 ≤ s.Count ∧ s.Count ≤ 64)
    (hair : ∀ s ∈ inv.Items, s.type = BlockType.Air → s.Count = 0) :
    (∀ s ∈ (inv.AddItem type count).2.Items, s.Count ≤ 64)
      ∧ (∀ t, t ≠ type → totalOf t (inv.AddItem type count).2.Items = totalOf t inv.Items)
      ∧ ((inv.AddItem type count).1 = true
          ↔ totalOf type (inv.AddItem type count).2.Items = totalOf type inv.Items + count)
      ∧ ((inv.AddItem type count).1 = false
          → totalOf type (inv.AddItem type count).2.Items < totalOf type inv.Items + count)
      ∧ totalOf type inv.Items ≤ totalOf type (inv.AddItem type count).2.Items
      ∧ (inv.AddItem type count).2.Items.length = inv.Items.length
      ∧ totalOf type (inv.AddItem type count).2.Items
          = totalOf type inv.Items
            + min count (stackSpace type inv.Items + emptySpace type inv.Items)
      ∧ ((inv.AddItem type count).1 = true
          ↔ count ≤ stackSpace type inv.Items + emptySpace type inv.Items)
      ∧ (∀ s ∈ (inv.AddItem type count).2.Items, 0 ≤ s.Count)
      ∧ List.Forall₂ (fun before after : ItemStack => after = before
          ∨ (before.type = type ∧ after.type = type ∧ before.Count < after.Count
            ∧ after.Count ≤ 64)
          ∨ (before.type ≠ type ∧ (before.type = BlockType.Air ∨ before.Count = 0)
            ∧ after.type = type ∧ 0 ≤ after.Count ∧ after.Count ≤ 64))
        inv.Items (inv.AddItem type count).2.Items := by
  obtain ⟨rest, ⟨h0, hle⟩, hret, htot, hother, hs, hlen, hrest, hrel⟩ :=
    AddItem_summary inv type count htype hcount hslots hair
  refine ⟨fun s h => (hs s h).2, hother, ?_, ?_, by omega, hlen, by omega, ?_,
    fun s h => (hs s h).1, hrel⟩
  · rw [hret, decide_eq_true_iff]
    omega
  · rw [hret, decide_eq_false_iff_not]
    omega
  · rw [hret, decide_eq_true_iff]
    omega

/-- The statement of C29 for an inventory of 36 slots with two Stone stacks of 60 and 10, a
full Stone stack, an Air slot, a Dirt slot with `Count = 0` and 31 full Dirt stacks.  Adding
200 Stone returns false: the room is `4 + 54 + 64 + 64 = 186`, all of it is used, the stacks
are filled first and then the two empty slots.  Adding 70 Stone returns true: the two stacks
take 58 and the first empty slot the remaining 12.  Adding 0 Stone to an inventory whose
only Stone stack is full returns true and turns the first empty slot into a Stone slot with
`Count = 0`. -/
theorem AddItem_conservation_witness :
    BlockType.Stone ≠ BlockType.Air ∧ (0 : Int) ≤ 200
      ∧ (∀ s ∈ (PlayerInventoryComponent.mk ([⟨BlockType.Dirt, 0⟩, ⟨BlockType.Stone, 60⟩,
            ⟨BlockType.Air, 0⟩, ⟨BlockType.Stone, 64⟩, ⟨BlockType.Stone, 10⟩]
            ++ List.replicate 31 ⟨BlockType.Dirt, 64⟩) 0).Items, 0 ≤ s.Count ∧ s.Count ≤ 64)
      ∧ (∀ s ∈ (PlayerInventoryComponent.mk ([⟨BlockType.Dirt, 0⟩, ⟨BlockType.Stone, 60⟩,
            ⟨BlockType.Air, 0⟩, ⟨BlockType.Stone, 64⟩, ⟨BlockType.Stone, 10⟩]
            ++ List.replicate 31 ⟨BlockType.Dirt, 64⟩) 0).Items,
          s.type = BlockType.Air → s.Count = 0)
      ∧ ((PlayerInventoryComponent.mk ([⟨BlockType.Dirt, 0⟩, ⟨BlockType.Stone, 60⟩,
            ⟨BlockType.Air, 0⟩, ⟨BlockType.Stone, 64⟩, ⟨BlockType.Stone, 10⟩]
            ++ List.replicate 31 ⟨BlockType.Dirt, 64⟩) 0).AddItem BlockType.Stone 200).1 = false
      ∧ totalOf BlockType.Stone ((PlayerInventoryComponent.mk ([⟨BlockType.Dirt, 0⟩,
            ⟨BlockType.Stone, 60⟩, ⟨BlockType.Air, 0⟩, ⟨BlockType.Stone, 64⟩,
            ⟨BlockType.Stone, 10⟩] ++ List.replicate 31 ⟨BlockType.Dirt, 64⟩) 0).AddItem
            BlockType.Stone 200).2.Items
          = 134 + 186
      ∧ ((PlayerInventoryComponent.mk ([⟨BlockType.Dirt, 0⟩, ⟨BlockType.Stone, 60⟩,
            ⟨BlockType.Air, 0⟩, ⟨BlockType.Stone, 64⟩, ⟨BlockType.Stone, 10⟩]
            ++ List.replicate 31 ⟨BlockType.Dirt, 64⟩) 0).AddItem BlockType.Stone 200).2.Items
          = [⟨BlockType.Stone, 64⟩, ⟨BlockType.Stone, 64⟩, ⟨BlockType.Stone, 64⟩,
              ⟨BlockType.Stone, 64⟩, ⟨BlockType.Stone, 64⟩]
            ++ List.replicate 31 ⟨BlockType.Dirt, 64⟩
      ∧ ((PlayerInventoryComponent.mk ([⟨BlockType.Dirt, 0⟩, ⟨BlockType.Stone, 60⟩,
            ⟨BlockType.Air, 0⟩, ⟨BlockType.Stone, 64⟩, ⟨BlockType.Stone, 10⟩]
            ++ List.replicate 31 ⟨BlockType.Dirt, 64⟩) 0).AddItem BlockType.Stone 70).1 = true
      ∧ ((PlayerInventoryComponent.mk ([⟨BlockType.Dirt, 0⟩, ⟨BlockType.Stone, 60⟩,
            ⟨BlockType.Air, 0⟩, ⟨BlockType.Stone, 64⟩, ⟨BlockType.Stone, 10⟩]
            ++ List.replicate 31 ⟨BlockType.Dirt, 64⟩) 0).AddItem BlockType.Stone 70).2.Items
          = [⟨BlockType.Stone, 12⟩, ⟨BlockType.Stone, 64⟩, ⟨BlockType.Air, 0⟩,
              ⟨BlockType.Stone, 64⟩, ⟨BlockType.Stone, 64⟩]
            ++ List.replicate 31 ⟨BlockType.Dirt, 64⟩
      ∧ (PlayerInventoryComponent.mk ([⟨BlockType.Stone, 64⟩, ⟨BlockType.Air, 0⟩]
            ++ List.replicate 34 ⟨BlockType.Dirt, 64⟩) 0).AddItem BlockType.Stone 0
          = (true, PlayerInventoryComponent.mk ([⟨BlockType.Stone, 64⟩, ⟨BlockType.Stone, 0⟩]
            ++ List.replicate 34 ⟨BlockType.Dirt, 64⟩) 0) := by
  have h := AddItem_conservation (PlayerInventoryComponent.mk ([⟨BlockType.Dirt, 0⟩,
      ⟨BlockType.Stone, 60⟩, ⟨BlockType.Air, 0⟩, ⟨BlockType.Stone, 64⟩, ⟨BlockType.Stone, 10⟩]
      ++ List.replicate 31 ⟨BlockType.Dirt, 64⟩) 0) BlockType.Stone 200 (by decide) (by decide)
    (by decide) (by decide)
  obtain ⟨_, _, _, _, _, _, htot, hret, _, _⟩ := h
  have hroom : stackSpace BlockType.Stone ([⟨BlockType.Dirt, 0⟩, ⟨BlockType.Stone, 60⟩,
        ⟨BlockType.Air, 0⟩, ⟨BlockType.Stone, 64⟩, ⟨BlockType.Stone, 10⟩]
        ++ List.replicate 31 ⟨BlockType.Dirt, 64⟩)
      + emptySpace BlockType.Stone ([⟨BlockType.Dirt, 0⟩, ⟨BlockType.Stone, 60⟩,
        ⟨BlockType.Air, 0⟩, ⟨BlockType.Stone, 64⟩, ⟨BlockType.Stone, 10⟩]
        ++ List.replicate 31 ⟨BlockType.Dirt, 64⟩) = 186 := by decide
  have hheld : totalOf BlockType.Stone ([⟨BlockType.Dirt, 0⟩, ⟨BlockType.Stone, 60⟩,
        ⟨BlockType.Air, 0⟩, ⟨BlockType.Stone, 64⟩, ⟨BlockType.Stone, 10⟩]
        ++ List.replicate 31 ⟨BlockType.Dirt, 64⟩) = 134 := by decide
  dsimp only at htot hret
  rw [hroom] at htot hret
  rw [hheld] at htot
  refine ⟨by decide, by decide, by decide, by decide, ?_, ?_, by decide, by decide, by decide,
    rfl⟩
  · cases hb : ((PlayerInventoryComponent.mk ([⟨BlockType.Dirt, 0⟩, ⟨BlockType.Stone, 60⟩,
        ⟨BlockType.Air, 0⟩, ⟨BlockType.Stone, 64⟩, ⟨BlockType.Stone, 10⟩]
        ++ List.replicate 31 ⟨BlockType.Dirt, 64⟩) 0).AddItem BlockType.Stone 200).1 with
    | false => rfl
    | true => exact absurd (hret.mp hb) (by decide)
  · rw [htot]
    decide

/-- The loop of `RemoveItem`, entered with `count > 0`: what is left of `count` is not
negative, the total of `type` shrinks by what was taken from `count`, the other totals stay,
the counts stay non-negative, a `return true` leaves nothing of `count`, a loop that runs to
its end leaves a positive `count` and no item of `type`, and each slot is either untouched or
held `type` and lost items, ending as Air if it is empty and as `type` otherwise. -/
theorem removeLoop_spec (type : BlockType) :
    ∀ (items : List ItemStack) (count : Int), 0 < count
      → (∀ s ∈ items, 0 ≤ s.Count)
      → 0 ≤ (PlayerInventoryComponent.removeLoop type items count).2.1
        ∧ totalOf type (PlayerInventoryComponent.removeLoop type items count).1
            = totalOf type items
              - (count - (PlayerInventoryComponent.removeLoop type items count).2.1)
        ∧ (∀ t, t ≠ type → totalOf t (PlayerInventoryComponent.removeLoop type items count).1
            = totalOf t items)
        ∧ (∀ s ∈ (PlayerInventoryComponent.removeLoop type items count).1, 0 ≤ s.Count)
        ∧ ((PlayerInventoryComponent.removeLoop type items count).2.2 = true
            → (PlayerInventoryComponent.removeLoop type items count).2.1 = 0)
        ∧ ((PlayerInventoryComponent.removeLoop type items count).2.2 = false
            → 0 < (PlayerInventoryComponent.removeLoop type items count).2.1
              ∧ totalOf type (PlayerInventoryComponent.removeLoop type items count).1 = 0)
        ∧ List.Forall₂ (fun before after : ItemStack => after = before
            ∨ (before.type = type ∧ 0 ≤ after.Count ∧ after.Count < before.Count
              ∧ (after.Count = 0 → after.type = BlockType.Air)
              ∧ (after.Count ≠ 0 → after.type = type)))
          items (PlayerInventoryComponent.removeLoop type items count).1 := by
  intro items
  induction items with
  | nil =>
    intro count hc _
    simp [PlayerInventoryComponent.removeLoop, totalOf_nil]
    omega
  | cons item rest ih =>
    intro count hc hslots
    have hi := hslots item (List.mem_cons_self item rest)
    have hrest : ∀ s ∈ rest, 0 ≤ s.Count :=
      fun s hs => hslots s (List.mem_cons_of_mem item hs)
    rw [PlayerInventoryComponent.removeLoop]
    by_cases hcond : item.type = type ∧ item.Count > 0
    · rw [if_pos hcond]
      have hne : ∀ t, t ≠ type → ¬item.type = t := fun t ht h => ht (h.symm.trans hcond.1)
      have hslot : ∀ item2 : ItemStack,
          item2 = (if item.Count - min item.Count count = 0
            then { type := BlockType.Air, Count := item.Count - min item.Count count }
            else { type := item.type, Count := item.Count - min item.Count count })
          → item2.Count = item.Count - min item.Count count
            ∧ (if item2.type = type then item2.Count else 0)
                = item.Count - min item.Count count
            ∧ (∀ t, t ≠ type → (if item2.type = t then item2.Count else 0) = 0)
            ∧ (item2.Count = 0 → item2.type = BlockType.Air)
            ∧ (item2.Count ≠ 0 → item2.type = type) := by
        intro item2 h2
        by_cases hz : item.Count - min item.Count count = 0
        · rw [if_pos hz] at h2
          rw [h2]
          refine ⟨rfl, ?_, ?_, fun _ => rfl, fun h => absurd hz h⟩
          · simp only [hz, ite_self]
          · intro t _
            simp only [hz, ite_self]
        · rw [if_neg hz] at h2
          rw [h2]
          refine ⟨rfl, ?_, ?_, fun h => absurd h hz, fun _ => hcond.1⟩
          · simp only [if_pos hcond.1]
          · intro t ht
            simp only [if_neg (hne t ht)]
      dsimp only
      obtain ⟨hc2, ht2, ho2, ha2, hn2⟩ := hslot _ rfl
      by_cases hle : count - min item.Count count ≤ 0
      · simp only [if_pos hle]
        refine ⟨by omega, ?_, ?_, ?_, fun _ => by omega, fun h => absurd h (by simp), ?_⟩
        · rw [totalOf_cons, totalOf_cons, ht2, if_pos hcond.1]
          omega
        · intro t ht
          rw [totalOf_cons, totalOf_cons, ho2 t ht, if_neg (hne t ht)]
        · intro s hs
          rcases List.mem_cons.mp hs with h | h
          · rw [h, hc2]
            omega
          · exact hrest s h
        · refine List.Forall₂.cons (Or.inr ⟨hcond.1, ?_, ?_, ha2, hn2⟩)
            (List.forall₂_same.mpr (fun s _ => Or.inl rfl))
          · rw [hc2]
            omega
          · rw [hc2]
            omega
      · simp only [if_neg hle]
        obtain ⟨h1, h2, h3, h4, h5, h6, h7⟩ :=
          ih (count - min item.Count count) (by omega) hrest
        refine ⟨h1, ?_, ?_, ?_, h5, ?_, ?_⟩
        · rw [totalOf_cons, totalOf_cons, ht2, if_pos hcond.1, h2]
          omega
        · intro t ht
          rw [totalOf_cons, totalOf_cons, ho2 t ht, if_neg (hne t ht), h3 t ht]
        · intro s hs
          rcases List.mem_cons.mp hs with h | h
          · rw [h, hc2]
            omega
          · exact h4 s h
        · intro hret
          obtain ⟨hpos, hzero⟩ := h6 hret
          refine ⟨hpos, ?_⟩
          rw [totalOf_cons, ht2, hzero]
          omega
        · refine List.Forall₂.cons (Or.inr ⟨hcond.1, ?_, ?_, ha2, hn2⟩) h7
          · rw [hc2]
            omega
          · rw [hc2]
            omega
    · rw [if_neg hcond]
      dsimp only
      obtain ⟨h1, h2, h3, h4, h5, h6, h7⟩ := ih count hc hrest
      have hcontrib : (if item.type = type then item.Count else 0) = 0 := by
        by_cases ht : item.type = type
        · rw [if_pos ht]
          have : ¬item.Count > 0 := fun h => hcond ⟨ht, h⟩
          omega
        · rw [if_neg ht]
      refine ⟨h1, ?_, ?_, ?_, h5, ?_, List.Forall₂.cons (Or.inl rfl) h7⟩
      · rw [totalOf_cons, totalOf_cons, h2]
        omega
      · intro t ht
        rw [totalOf_cons, totalOf_cons, h3 t ht]
      · intro s hs
        rcases List.mem_cons.mp hs with h | h
        · rw [h]
          exact hi
        · exact h4 s h
      · intro hret
        obtain ⟨hpos, hzero⟩ := h6 hret
        refine ⟨hpos, ?_⟩
        rw [totalOf_cons, hcontrib, hzero]
        rfl

/-- C30: for `count ≥ 1` and an inventory with all slot counts non-negative,
`RemoveItem(type, count)` returns true if and only if the inventory held at least `count`
items of `type`; the total of `type` decreases by exactly `min(count, held)`, so a false
return has removed every item of that type; every slot either stays as it was or held `type`
and lost items, and is Air afterwards if it was emptied; no other type's total changes. -/
theorem RemoveItem_total (inv : PlayerInventoryComponent) (type : BlockType) (count : Int)
    (hcount : 1 ≤ count) (hslots : ∀ s ∈ inv.Items, 0 ≤ s.Count) :
    ((inv.RemoveItem type count).1 = true ↔ count ≤ totalOf type inv.Items)
      ∧ totalOf type (inv.RemoveItem type count).2.Items
          = totalOf type inv.Items - min count (totalOf type inv.Items)
      ∧ ((inv.RemoveItem type count).1 = false
          → totalOf type (inv.RemoveItem type count).2.Items = 0)
      ∧ List.Forall₂ (fun before after : ItemStack => after = before
          ∨ (before.type = type ∧ 0 ≤ after.Count ∧ after.Count < before.Count
            ∧ (after.Count = 0 → after.type = BlockType.Air)
            ∧ (after.Count ≠ 0 → after.type = type)))
        inv.Items (inv.RemoveItem type count).2.Items
      ∧ (∀ t, t ≠ type → totalOf t (inv.RemoveItem type count).2.Items = totalOf t inv.Items) := by
  obtain ⟨h1, h2, h3, h4, h5, h6, h7⟩ :=
    removeLoop_spec type inv.Items count (by omega) hslots
  have hnn := totalOf_nonneg type _ h4
  unfold PlayerInventoryComponent.RemoveItem
  dsimp only
  cases hret : (PlayerInventoryComponent.removeLoop type inv.Items count).2.2 with
  | true =>
    have h0 := h5 hret
    simp only [if_true]
    refine ⟨⟨fun _ => by omega, fun _ => trivial⟩, by omega, fun h => absurd h (by simp), h7, h3⟩
  | false =>
    obtain ⟨hpos, hzero⟩ := h6 hret
    simp only [Bool.false_eq_true, if_false]
    refine ⟨?_, by omega, fun _ => hzero, h7, h3⟩
    rw [decide_eq_true_iff]
    omega

/-- The statement of C30 for an inventory holding 5 Dirt and 3 Dirt in two slots, from which
10 Dirt are requested: the call returns false and no Dirt is left. -/
theorem RemoveItem_total_witness :
    (1 : Int) ≤ 10
      ∧ (∀ s ∈ (PlayerInventoryComponent.mk [⟨BlockType.Dirt, 5⟩, ⟨BlockType.Stone, 2⟩,
          ⟨BlockType.Dirt, 3⟩] 0).Items, 0 ≤ s.Count)
      ∧ ((PlayerInventoryComponent.mk [⟨BlockType.Dirt, 5⟩, ⟨BlockType.Stone, 2⟩,
          ⟨BlockType.Dirt, 3⟩] 0).RemoveItem BlockType.Dirt 10).1 = false
      ∧ totalOf BlockType.Dirt ((PlayerInventoryComponent.mk [⟨BlockType.Dirt, 5⟩,
          ⟨BlockType.Stone, 2⟩, ⟨BlockType.Dirt, 3⟩] 0).RemoveItem BlockType.Dirt 10).2.Items
        = totalOf BlockType.Dirt (PlayerInventoryComponent.mk [⟨BlockType.Dirt, 5⟩,
            ⟨BlockType.Stone, 2⟩, ⟨BlockType.Dirt, 3⟩] 0).Items
          - min 10 (totalOf BlockType.Dirt (PlayerInventoryComponent.mk [⟨BlockType.Dirt, 5⟩,
            ⟨BlockType.Stone, 2⟩, ⟨BlockType.Dirt, 3⟩] 0).Items) :=
  ⟨by decide, by decide, by decide,
    (RemoveItem_total (PlayerInventoryComponent.mk [⟨BlockType.Dirt, 5⟩, ⟨BlockType.Stone, 2⟩,
      ⟨BlockType.Dirt, 3⟩] 0) BlockType.Dirt 10 (by decide) (by decide)).2.1⟩

end Inventory

end Hazel
